import Mathlib

/-!
# Step-wise N-Queens backtracking solver

A shallow embedding of `NQueens::Core::NQueensSolver`
(`src/source/src/core/NQueensSolver.cpp`, `src/src/core/NQueensSolver.h`), of the
emitted `SolverState` (`src/source/src/common/Types.h`) and of the column mirror
performed by `MainWindow::saveSnapshot` (`src/src/ui/MainWindow.cpp`).

Modelling conventions.

* `int` cursors and sizes are mathematical integers (`Int`).
* The two counters `solutionsFound` and `stepsCount` are embedded twice.
  `nextStep` keeps them as exact integers: no branch of the code reads a
  counter, so the board, the masks, the cursor and the flags of a run do not
  depend on how the counters are stored. `nextStep32` is the same code with the
  counters as the 32-bit `int` fields they are: `stepsCount++` and
  `solutionsFound += 1` or `+= 2` store the sum wrapped to the `int` range
  (`wrapInt`; signed overflow has no defined behaviour in C++ and wraps on the
  usual targets). `nextStep32_wrapCounters` relates the two: a call with 32-bit
  counters returns what the call with exact counters returns, each counter
  wrapped, so the two agree as long as the exact counters are inside the `int`
  range (`nextStep32_of_inRange`). What is said about the values the counters
  take in runs of any length is said on `nextStep32`.
* An `int` bit mask is represented by its 32-bit two's-complement bit
  pattern, a natural number below `2 ^ 32`: `|` and `&` are the bitwise
  operations on patterns, `<< 1` drops the bit shifted out of the word and
  `>> 1` is the arithmetic shift (the sign bit is replicated).
* `QVector<int>` is a `List`; a read uses `List.getD`, a write `List.set`, so
  an index outside the vector (undefined in C++) reads `0` and writes nothing.
* The `while` loop of `nextStep` runs on fuel; `nextStep_total` shows that the
  fuel handed to it always suffices.
* For index safety the loop is given a second time with every access checked
  (`nextStepChecked`): reads and writes go through `readAt` and `writeAt`, which
  fail outside the vector, and `1 << c` through `shiftBit`, which fails for a
  count that is not a column of the board.
* The fields `hasConflict` and `solutionFound` of a `SolverState` are left
  uninitialised by `nextStep` on its terminal path; they are `Option Bool`
  and `none` stands for "never assigned".
-/

namespace NQueens

/-- The emitted step result, `struct SolverState` of `Types.h`. -/
structure SolverState where
  queens : List Int
  trialPos : Int × Int
  hasConflict : Option Bool
  solutionFound : Option Bool
  solutionsCount : Int
  newSolutionsFound : Int
  stepsCount : Int
  isFinished : Bool
  isSymmetricBase : Bool
deriving DecidableEq

namespace Core

/-- The private fields of `class NQueensSolver` (`NQueensSolver.h`). -/
structure NQueensSolver where
  n : Int
  queens : List Int
  history_col : List Nat
  history_ld : List Nat
  history_rd : List Nat
  solutionsFound : Int
  stepsCount : Int
  row : Int
  col : Int
deriving DecidableEq

/-- Number of value bits of the 32-bit `int` word holding a mask. -/
def wordBits : Nat := 32

/-- The pattern of `1 << c` (`int bit = (1 << c)`), for a shift count inside the word. -/
def bitOf (c : Int) : Nat := (1 <<< c.toNat) % 2 ^ wordBits

/-- The pattern of `x << 1` on a 32-bit `int`. -/
def shl1 (x : Nat) : Nat := (x <<< 1) % 2 ^ wordBits

/-- The pattern of `x >> 1` on a 32-bit `int`: arithmetic shift, the sign bit stays. -/
def sar1 (x : Nat) : Nat := (x >>> 1) ||| (x &&& 2 ^ (wordBits - 1))

/-- Reading `v[i]` of a `QVector<int>` at an `int` index. -/
def vecGet {α : Type} (v : List α) (i : Int) (d : α) : α := v.getD i.toNat d

/-- Writing `v[i] = x` of a `QVector<int>` at an `int` index. -/
def vecSet {α : Type} (v : List α) (i : Int) (x : α) : List α := v.set i.toNat x

/-- The constructor `NQueensSolver::NQueensSolver(int n)`: `queens(n, -1)`, the three
histories resized to `n + 1` zeros, counters `0`, cursor `(0, -1)`. -/
def NQueensSolver.init (n : Int) : NQueensSolver where
  n := n
  queens := List.replicate n.toNat (-1)
  history_col := List.replicate (n + 1).toNat 0
  history_ld := List.replicate (n + 1).toNat 0
  history_rd := List.replicate (n + 1).toNat 0
  solutionsFound := 0
  stepsCount := 0
  row := 0
  col := -1

/-- The method `NQueensSolver::hasConflict(int r, int c)`: the bit of column `c` in the
union of the three masks of row `r`, converted to `bool`. -/
def NQueensSolver.hasConflict (s : NQueensSolver) (r c : Int) : Bool :=
  let col_mask := vecGet s.history_col r 0
  let ld_mask := vecGet s.history_ld r 0
  let rd_mask := vecGet s.history_rd r 0
  let bit := bitOf c
  ((col_mask ||| ld_mask ||| rd_mask) &&& bit) != 0

/-- The column limit of the current row: `(n + 1) / 2` in row `0`, else `n`
(`int` division truncates). -/
def NQueensSolver.limit (s : NQueensSolver) : Int :=
  if s.row = 0 then (s.n + 1).tdiv 2 else s.n

/-- The backtrack branch of the loop body, entered with the incremented column `col`:
`queens[row] = -1; row--; if (row >= 0) col = queens[row]; continue;`. -/
def NQueensSolver.popRow (s : NQueensSolver) (col : Int) : NQueensSolver :=
  let queens := vecSet s.queens s.row (-1)
  let row := s.row - 1
  { s with queens := queens, row := row,
           col := if row ≥ 0 then vecGet queens row 0 else col }

/-- The trial part of the loop body (from `stepsCount++` to `return state`), entered with
the incremented column `col` below the limit. -/
def NQueensSolver.evalTrial (s : NQueensSolver) (col : Int) : SolverState × NQueensSolver :=
  let stepsCount := s.stepsCount + 1
  let conflict := s.hasConflict s.row col
  let state : SolverState :=
    { queens := s.queens, trialPos := (s.row, col), hasConflict := some conflict,
      solutionFound := some false, solutionsCount := s.solutionsFound,
      newSolutionsFound := 0, stepsCount := stepsCount, isFinished := false,
      isSymmetricBase := false }
  if !conflict then
    let queens := vecSet s.queens s.row col
    let bit := bitOf col
    let s1 : NQueensSolver :=
      if s.row + 1 < s.n + 1 then
        { s with queens := queens, col := col, stepsCount := stepsCount,
                 history_col := vecSet s.history_col (s.row + 1) (vecGet s.history_col s.row 0 ||| bit),
                 history_ld := vecSet s.history_ld (s.row + 1) (shl1 (vecGet s.history_ld s.row 0 ||| bit)),
                 history_rd := vecSet s.history_rd (s.row + 1) (sar1 (vecGet s.history_rd s.row 0 ||| bit)) }
      else
        { s with queens := queens, col := col, stepsCount := stepsCount }
    if s.row = s.n - 1 then
      let hasMirror : Bool := !(s.n.tmod 2 != 0 && vecGet queens 0 0 == s.n.tdiv 2)
      if hasMirror then
        ({ state with solutionFound := some true, newSolutionsFound := 2, isSymmetricBase := true,
                      solutionsCount := s.solutionsFound + 2 },
         { s1 with solutionsFound := s.solutionsFound + 2 })
      else
        ({ state with solutionFound := some true, newSolutionsFound := 1, isSymmetricBase := false,
                      solutionsCount := s.solutionsFound + 1 },
         { s1 with solutionsFound := s.solutionsFound + 1 })
    else
      (state, { s1 with row := s.row + 1, col := -1 })
  else
    (state, { s with col := col, stepsCount := stepsCount })

/-- The result returned after the loop: `isFinished = true` with the totals and the board;
`trialPos` is default-constructed and the two flags were never assigned. -/
def NQueensSolver.terminal (s : NQueensSolver) : SolverState :=
  { queens := s.queens, trialPos := (0, 0), hasConflict := none, solutionFound := none,
    solutionsCount := s.solutionsFound, newSolutionsFound := 0, stepsCount := s.stepsCount,
    isFinished := true, isSymmetricBase := false }

/-- The `while (row >= 0 && row < n)` loop of `nextStep`, one iteration per unit of fuel;
`none` when the fuel runs out before the loop returns. -/
def NQueensSolver.nextStepLoop : Nat → NQueensSolver → Option (SolverState × NQueensSolver)
  | 0, _ => none
  | fuel + 1, s =>
    if s.row ≥ 0 ∧ s.row < s.n then
      let col := s.col + 1
      if col ≥ s.limit then
        nextStepLoop fuel (s.popRow col)
      else if s.row > 0 ∧ col ≥ s.n then
        nextStepLoop fuel (s.popRow col)
      else
        some (s.evalTrial col)
    else
      some (s.terminal, s)

/-- Iterations that always suffice: every `continue` lowers `row` by one. -/
def NQueensSolver.loopFuel (s : NQueensSolver) : Nat := (s.row + 1).toNat + 1

/-- The method `NQueensSolver::nextStep()`: the result and the solver afterwards. -/
def NQueensSolver.nextStep (s : NQueensSolver) : Option (SolverState × NQueensSolver) :=
  s.nextStepLoop s.loopFuel

/-- The solver after `k` calls of `nextStep`. -/
def NQueensSolver.after : Nat → NQueensSolver → Option NQueensSolver
  | 0, s => some s
  | k + 1, s => (s.nextStep).bind fun p => after k p.2

/-- Drain the solver: call `nextStep` until the first result with `isFinished`, at most
`calls` times; the result of that call. -/
def NQueensSolver.drain : Nat → NQueensSolver → Option SolverState
  | 0, _ => none
  | calls + 1, s =>
    match s.nextStep with
    | none => none
    | some (r, s1) => if r.isFinished then some r else drain calls s1

/-- The loop guard `row >= 0 && row < n`. -/
def NQueensSolver.Active (s : NQueensSolver) : Prop := s.row ≥ 0 ∧ s.row < s.n

instance (s : NQueensSolver) : Decidable s.Active := by
  unfold NQueensSolver.Active; infer_instance

/-- The current row is exhausted: after `col++` one of the two backtrack tests fires. -/
def NQueensSolver.Exhausted (s : NQueensSolver) : Prop :=
  s.col + 1 ≥ s.limit ∨ (s.row > 0 ∧ s.col + 1 ≥ s.n)

instance (s : NQueensSolver) : Decidable s.Exhausted := by
  unfold NQueensSolver.Exhausted; infer_instance

/-- The result of call number `k + 1` on a solver started in state `s`. -/
def NQueensSolver.resultAt (k : Nat) (s : NQueensSolver) : Option SolverState :=
  (s.after k).bind fun t => t.nextStep.map Prod.fst

/-- States of a run started from `NQueensSolver(n)`. -/
inductive Reachable (n : Int) : NQueensSolver → Prop
  | init : Reachable n (NQueensSolver.init n)
  | step {s s1 : NQueensSolver} {r : SolverState} :
      Reachable n s → s.nextStep = some (r, s1) → Reachable n s1

/-- The queens of rows `0 .. r-1` of the board `q` hold column `c`. -/
def ColSeen (q : List Int) (r c : Int) : Prop :=
  ∃ j : Int, 0 ≤ j ∧ j < r ∧ vecGet q j 0 = c

/-- A queen of rows `0 .. r-1` reaches `(r, c)` along the diagonal of growing columns. -/
def LdSeen (q : List Int) (r c : Int) : Prop :=
  ∃ j : Int, 0 ≤ j ∧ j < r ∧ vecGet q j 0 + (r - j) = c

/-- A queen of rows `0 .. r-1` reaches `(r, c)` along the diagonal of falling columns. -/
def RdSeen (q : List Int) (r c : Int) : Prop :=
  ∃ j : Int, 0 ≤ j ∧ j < r ∧ vecGet q j 0 - (r - j) = c

/-- The queens at `(i, qi)` and `(j, qj)` share neither a column nor a diagonal. -/
def NoAttack (i qi j qj : Int) : Prop :=
  qi ≠ qj ∧ qi + (j - i) ≠ qj ∧ qi - (j - i) ≠ qj

/-- Shape of a running solver: sizes, cursor range, accepted queens inside the board. -/
def BasicInv (n : Int) (s : NQueensSolver) : Prop :=
  s.n = n ∧ s.queens.length = n.toNat ∧
  s.history_col.length = (n + 1).toNat ∧ s.history_ld.length = (n + 1).toNat ∧
  s.history_rd.length = (n + 1).toNat ∧
  -1 ≤ s.row ∧ s.row < n ∧ -1 ≤ s.col ∧
  (∀ j : Int, 0 ≤ j → j < s.row → 0 ≤ vecGet s.queens j 0 ∧ vecGet s.queens j 0 < n) ∧
  (0 < s.row → vecGet s.queens 0 0 < (n + 1) / 2)

/-- The three masks cached for row `r` are the ones of the queens in rows `0 .. r-1`. -/
def MaskAt (s : NQueensSolver) (r : Int) : Prop :=
  ∀ c : Nat,
    ((vecGet s.history_col r 0).testBit c = true ↔ ColSeen s.queens r c) ∧
    ((vecGet s.history_ld r 0).testBit c = true ↔ c < 32 ∧ LdSeen s.queens r c) ∧
    ((vecGet s.history_rd r 0).testBit c = true ↔ RdSeen s.queens r c)

/-- The mask cache is right for every row up to the current one. -/
def MaskInv (s : NQueensSolver) : Prop :=
  ∀ r : Int, 0 ≤ r → r ≤ s.row → MaskAt s r

/-- The accepted queens (rows below the current one) are pairwise non-attacking. -/
def SafeInv (s : NQueensSolver) : Prop :=
  ∀ i j : Int, 0 ≤ i → i < j → j < s.row →
    NoAttack i (vecGet s.queens i 0) j (vecGet s.queens j 0)

/-- The invariant of a run on a board of size `1 ≤ n ≤ 31`. -/
def RunInv (n : Int) (s : NQueensSolver) : Prop := BasicInv n s ∧ MaskInv s ∧ SafeInv s

/-- The solver after `k` passes through the backtrack branch of the loop. -/
def NQueensSolver.popRows : Nat → NQueensSolver → NQueensSolver
  | 0, s => s
  | k + 1, s => popRows k (s.popRow (s.col + 1))

/-- A call pops `k` exhausted rows and then leaves the loop through the trial or through
the loop guard. -/
def PopsThenExit (s : NQueensSolver) (r : SolverState × NQueensSolver) (k : Nat) : Prop :=
  (∀ i : Nat, i < k → (s.popRows i).Active ∧ (s.popRows i).Exhausted) ∧
  (((s.popRows k).Active ∧ ¬ (s.popRows k).Exhausted ∧
      r = (s.popRows k).evalTrial ((s.popRows k).col + 1)) ∨
   (¬ (s.popRows k).Active ∧ r = ((s.popRows k).terminal, s.popRows k)))

/-- One unit of work, as a relation between the solver before a call, the result and the
solver afterwards: (a) one trial at the next column, or (b) one pop of the exhausted
current row and nothing else, or (c) completion detected on the solver as it stands. -/
def OneUnitOfWork (s : NQueensSolver) (R : SolverState) (s1 : NQueensSolver) : Prop :=
  (s.Active ∧ ¬ s.Exhausted ∧ (R, s1) = s.evalTrial (s.col + 1)) ∨
  (s.Active ∧ s.Exhausted ∧ s1 = s.popRow (s.col + 1)) ∨
  (¬ s.Active ∧ (R, s1) = (s.terminal, s))

instance (s : NQueensSolver) (R : SolverState) (s1 : NQueensSolver) :
    Decidable (OneUnitOfWork s R s1) := by
  unfold OneUnitOfWork; infer_instance

/-- Construction seen as an operation that may refuse: the constructor of
`NQueensSolver.cpp` has no test of `n` and no failing path, so every call yields the
object built by `NQueensSolver.init`. -/
def NQueensSolver.construct (n : Int) : Except String NQueensSolver :=
  Except.ok (NQueensSolver.init n)

/-- A complete valid `n`-queens board: one column in `[0, n)` for each of the `n` rows, no
two queens on a common column or diagonal. -/
def ValidBoard (n : Int) (b : List Int) : Prop :=
  b.length = n.toNat ∧
  (∀ i : Nat, i < b.length → 0 ≤ b.getD i 0 ∧ b.getD i 0 < n) ∧
  (∀ j : Nat, j < b.length → ∀ i : Nat, i < j →
    NoAttack i (b.getD i 0) j (b.getD j 0))

instance (i qi j qj : Int) : Decidable (NoAttack i qi j qj) := by
  unfold NoAttack; infer_instance

instance (n : Int) (b : List Int) : Decidable (ValidBoard n b) := by
  unfold ValidBoard; infer_instance

/-- What one call does to the counters, for a start state `s` and the pair returned. -/
def CounterFacts (s : NQueensSolver) (r : SolverState × NQueensSolver) : Prop :=
  r.2.n = s.n ∧ r.2.stepsCount = r.1.stepsCount ∧ r.2.solutionsFound = r.1.solutionsCount ∧
  r.1.solutionsCount = s.solutionsFound + r.1.newSolutionsFound ∧
  ((r.1.isFinished = true ∧ r.1.stepsCount = s.stepsCount ∧ r.1.newSolutionsFound = 0 ∧
      r.1.solutionFound = none ∧ ¬ r.2.Active ∧ r.1 = r.2.terminal) ∨
   (r.1.isFinished = false ∧ r.1.stepsCount = s.stepsCount + 1 ∧
      ((r.1.solutionFound = some true ∧ (r.1.newSolutionsFound = 1 ∨ r.1.newSolutionsFound = 2)) ∨
       (r.1.solutionFound = some false ∧ r.1.newSolutionsFound = 0))))

/-- What a result flagged `solutionFound` says about the call that produced it. -/
def SolutionFacts (s : NQueensSolver) (r : SolverState × NQueensSolver) : Prop :=
  r.1.solutionFound = some true →
    r.1.trialPos.1 = s.n - 1 ∧ r.1.hasConflict = some false ∧
    r.2.queens = vecSet r.1.queens r.1.trialPos.1 r.1.trialPos.2 ∧
    r.2.row = r.1.trialPos.1 ∧
    ((s.n.tmod 2 ≠ 0 ∧ vecGet r.2.queens 0 0 = s.n.tdiv 2) →
      r.1.isSymmetricBase = false ∧ r.1.newSolutionsFound = 1 ∧
      r.2.solutionsFound = s.solutionsFound + 1) ∧
    (¬ (s.n.tmod 2 ≠ 0 ∧ vecGet r.2.queens 0 0 = s.n.tdiv 2) →
      r.1.isSymmetricBase = true ∧ r.1.newSolutionsFound = 2 ∧
      r.2.solutionsFound = s.solutionsFound + 2)

/-- The accessor `NQueensSolver::getSolutionsCount()`. -/
def NQueensSolver.getSolutionsCount (s : NQueensSolver) : Int := s.solutionsFound

/-- The accessor `NQueensSolver::getStepsCount()`. -/
def NQueensSolver.getStepsCount (s : NQueensSolver) : Int := s.stepsCount

/-- The part of the board at and above the cursor: rows above the current one are
unplaced, the entry of the current row is not beyond the column last tried, and the next
column is at most the limit of the row. -/
def CursorInv (n : Int) (s : NQueensSolver) : Prop :=
  (∀ j : Int, s.row < j → j < n → vecGet s.queens j 0 = -1) ∧
  (0 ≤ s.row → vecGet s.queens s.row 0 ≤ s.col) ∧
  (0 ≤ s.row → s.col + 1 ≤ (if s.row = 0 then (n + 1) / 2 else n))

/-- The bitwise OR of `f 0, …, f (r - 1)`. -/
def orUpTo (f : Nat → Nat) : Nat → Nat
  | 0 => 0
  | r + 1 => orUpTo f r ||| f r

/-- The column mask of row `r` recomputed from the board: the OR over `j < r` of
`1 << queens[j]`. -/
def colMaskOf (q : List Int) (r : Nat) : Nat :=
  orUpTo (fun j => bitOf (q.getD j 0)) r

/-- The rising-diagonal mask of row `r` recomputed from the board: the OR over `j < r` of
`(1 << queens[j]) << (r - j)`, a shift inside the 32-bit word. -/
def ldMaskOf (q : List Int) (r : Nat) : Nat :=
  orUpTo (fun j => (bitOf (q.getD j 0) <<< (r - j)) % 2 ^ wordBits) r

/-- The falling-diagonal mask of row `r` recomputed from the board: the OR over `j < r` of
`(1 << queens[j]) >> (r - j)`. -/
def rdMaskOf (q : List Int) (r : Nat) : Nat :=
  orUpTo (fun j => bitOf (q.getD j 0) >>> (r - j)) r

/-- Entry `0` of the three histories is the empty mask. -/
def ZeroInv (s : NQueensSolver) : Prop :=
  vecGet s.history_col 0 0 = 0 ∧ vecGet s.history_ld 0 0 = 0 ∧ vecGet s.history_rd 0 0 = 0

/-- One pass through the body of the `while` loop of `nextStep` when the guard holds (a
pop of the exhausted row, or a trial), and nothing when the guard fails. -/
def NQueensSolver.loopPass (s : NQueensSolver) : NQueensSolver :=
  if s.Active then
    if s.Exhausted then s.popRow (s.col + 1) else (s.evalTrial (s.col + 1)).2
  else s

/-- The solver after `m` passes through the loop body, across calls. -/
def NQueensSolver.passes : Nat → NQueensSolver → NQueensSolver
  | 0, s => s
  | m + 1, s => passes m s.loopPass

/-- The first `r` rows of a board. -/
def prefixOf (q : List Int) (r : Nat) : List Int :=
  (List.range r).map fun j => q.getD j 0

/-- A queen in column `c` of the row after the placed rows `p` is attacked by none of
them. -/
def safeAt (p : List Int) (c : Int) : Bool :=
  (List.range p.length).all fun j => decide (NoAttack j (p.getD j 0) p.length c)

/-- The number of columns tried in row `r`: `lim0` in row `0`, else `n`. -/
def rowLimit (n lim0 r : Nat) : Nat := if r = 0 then lim0 else n

/-- Plain backtracking search: the complete boards that extend the placed rows `p` by `d`
more rows, each new queen in a column below the limit of its row and attacked by no queen
above it, in the order in which the columns are tried. -/
def search (n lim0 : Nat) : Nat → List Int → List (List Int)
  | 0, p => [p]
  | d + 1, p =>
    (List.range (rowLimit n lim0 p.length)).flatMap fun c =>
      if safeAt p c then search n lim0 d (p ++ [(c : Int)]) else []

/-- All solutions: the unpruned search of an empty board of size `n`. -/
def allSolutions (n : Nat) : List (List Int) := search n n n []

/-- The solutions met by the pruned search: first queen in a column below `(n + 1) / 2`. -/
def halfSolutions (n : Nat) : List (List Int) := search n ((n + 1) / 2) n []

/-- The credit `nextStep` gives to a complete board: 1 when `n` is odd and the first queen
is in the centre column, else 2. -/
def credit (n : Int) (b : List Int) : Int :=
  if n % 2 = 1 ∧ b.getD 0 0 = n / 2 then 1 else 2

/-- The credit collected in one row from the columns `c0, …, c0 + k - 1`, with `d` rows
below it and the rows `p` above it. -/
def rowCredit (n d : Nat) (p : List Int) (c0 k : Nat) : Int :=
  (((List.range' c0 k).flatMap fun c =>
      if safeAt p c then search n ((n + 1) / 2) d (p ++ [(c : Int)]) else []).map
    (credit n)).sum

/-- Reading `v[i]` through `QVector::operator[]`, which requires `0 <= i < v.size()`:
`none` for an index outside the vector. -/
def readAt {α : Type} (v : List α) (i : Int) : Option α :=
  if 0 ≤ i ∧ i < (v.length : Int) then v[i.toNat]? else none

/-- Writing `v[i] = x` through `QVector::operator[]`: `none` for an index outside the
vector. -/
def writeAt {α : Type} (v : List α) (i : Int) (x : α) : Option (List α) :=
  if 0 ≤ i ∧ i < (v.length : Int) then some (v.set i.toNat x) else none

/-- The pattern of `1 << c` with the shift count required to be a column of the board of
size `n`: `none` for a count outside `[0, n)`. -/
def shiftBit (n c : Int) : Option Nat :=
  if 0 ≤ c ∧ c < n then some (bitOf c) else none

/-- The method `hasConflict(int r, int c)` with every vector read and the shift checked. -/
def NQueensSolver.hasConflictChecked (s : NQueensSolver) (r c : Int) : Option Bool :=
  (readAt s.history_col r).bind fun col_mask =>
  (readAt s.history_ld r).bind fun ld_mask =>
  (readAt s.history_rd r).bind fun rd_mask =>
  (shiftBit s.n c).bind fun bit =>
  some (((col_mask ||| ld_mask ||| rd_mask) &&& bit) != 0)

/-- The backtrack branch of the loop body with its accesses checked: the write
`queens[row] = -1`, and the read `col = queens[row]` made only `if (row >= 0)`. -/
def NQueensSolver.popRowChecked (s : NQueensSolver) (col : Int) : Option NQueensSolver :=
  (writeAt s.queens s.row (-1)).bind fun queens =>
  let row := s.row - 1
  if row ≥ 0 then
    (readAt queens row).bind fun c => some { s with queens := queens, row := row, col := c }
  else
    some { s with queens := queens, row := row, col := col }

/-- The trial part of the loop body with its accesses checked: the call of `hasConflict`,
the write `queens[row] = col`, the shift `1 << col`, the reads of the three histories at
`row` and their writes at `row + 1`, and the read `queens[0]`, made only when `n % 2 != 0`
(the `&&` of the source does not evaluate its right operand otherwise). -/
def NQueensSolver.evalTrialChecked (s : NQueensSolver) (col : Int) :
    Option (SolverState × NQueensSolver) :=
  let stepsCount := s.stepsCount + 1
  (s.hasConflictChecked s.row col).bind fun conflict =>
  let state : SolverState :=
    { queens := s.queens, trialPos := (s.row, col), hasConflict := some conflict,
      solutionFound := some false, solutionsCount := s.solutionsFound,
      newSolutionsFound := 0, stepsCount := stepsCount, isFinished := false,
      isSymmetricBase := false }
  if !conflict then
    (writeAt s.queens s.row col).bind fun queens =>
    (shiftBit s.n col).bind fun bit =>
    (if s.row + 1 < s.n + 1 then
      (readAt s.history_col s.row).bind fun c0 =>
      (writeAt s.history_col (s.row + 1) (c0 ||| bit)).bind fun hcol =>
      (readAt s.history_ld s.row).bind fun l0 =>
      (writeAt s.history_ld (s.row + 1) (shl1 (l0 ||| bit))).bind fun hld =>
      (readAt s.history_rd s.row).bind fun r0 =>
      (writeAt s.history_rd (s.row + 1) (sar1 (r0 ||| bit))).bind fun hrd =>
      some { s with queens := queens, col := col, stepsCount := stepsCount,
                    history_col := hcol, history_ld := hld, history_rd := hrd }
    else
      some { s with queens := queens, col := col, stepsCount := stepsCount }).bind fun s1 =>
    if s.row = s.n - 1 then
      (if s.n.tmod 2 != 0 then (readAt queens 0).map fun q0 => q0 == s.n.tdiv 2
        else some false).bind fun centre =>
      let hasMirror : Bool := !centre
      if hasMirror then
        some ({ state with solutionFound := some true, newSolutionsFound := 2,
                           isSymmetricBase := true, solutionsCount := s.solutionsFound + 2 },
              { s1 with solutionsFound := s.solutionsFound + 2 })
      else
        some ({ state with solutionFound := some true, newSolutionsFound := 1,
                           isSymmetricBase := false, solutionsCount := s.solutionsFound + 1 },
              { s1 with solutionsFound := s.solutionsFound + 1 })
    else
      some (state, { s1 with row := s.row + 1, col := -1 })
  else
    some (state, { s with col := col, stepsCount := stepsCount })

/-- The loop of `nextStep` with every access checked: `none` when an index or a shift
count is out of range (or the fuel runs out). -/
def NQueensSolver.nextStepLoopChecked :
    Nat → NQueensSolver → Option (SolverState × NQueensSolver)
  | 0, _ => none
  | fuel + 1, s =>
    if s.row ≥ 0 ∧ s.row < s.n then
      let col := s.col + 1
      if col ≥ s.limit then
        (s.popRowChecked col).bind (nextStepLoopChecked fuel)
      else if s.row > 0 ∧ col ≥ s.n then
        (s.popRowChecked col).bind (nextStepLoopChecked fuel)
      else
        s.evalTrialChecked col
    else
      some (s.terminal, s)

/-- The method `nextStep()` with every vector access and shift count checked. -/
def NQueensSolver.nextStepChecked (s : NQueensSolver) :
    Option (SolverState × NQueensSolver) :=
  s.nextStepLoopChecked s.loopFuel

/-- The queen left in the last row by an accepted trial (a reported solution) is in the
board and shares its column with no queen of the rows above. -/
def LastRowInv (n : Int) (s : NQueensSolver) : Prop :=
  s.row = n - 1 → vecGet s.queens (n - 1) 0 ≠ -1 →
    0 ≤ vecGet s.queens (n - 1) 0 ∧ vecGet s.queens (n - 1) 0 < n ∧
    ∀ j : Int, 0 ≤ j → j < n - 1 → vecGet s.queens j 0 ≠ vecGet s.queens (n - 1) 0

/-- What an `int` field holds after the value `x` is stored in it: `x` itself inside the
range `-2^31 .. 2^31 - 1`, and outside it the 32-bit two's-complement wrap of `x` (what
the `++` and `+=` of the source leave in the field on the usual targets). -/
def wrapInt (x : Int) : Int := (x + 2147483648) % 4294967296 - 2147483648

/-- The value `x` is one an `int` field can hold. -/
def InIntRange (x : Int) : Prop := -2147483648 ≤ x ∧ x ≤ 2147483647

instance (x : Int) : Decidable (InIntRange x) := by
  unfold InIntRange; infer_instance

/-- The trial part of the loop body with the counters as the 32-bit `int` fields they
are: `stepsCount++`, `solutionsFound += 2` and `solutionsFound += 1` store the wrapped
sum. Everything else is `evalTrial`. -/
def NQueensSolver.evalTrial32 (s : NQueensSolver) (col : Int) : SolverState × NQueensSolver :=
  let stepsCount := wrapInt (s.stepsCount + 1)
  let conflict := s.hasConflict s.row col
  let state : SolverState :=
    { queens := s.queens, trialPos := (s.row, col), hasConflict := some conflict,
      solutionFound := some false, solutionsCount := s.solutionsFound,
      newSolutionsFound := 0, stepsCount := stepsCount, isFinished := false,
      isSymmetricBase := false }
  if !conflict then
    let queens := vecSet s.queens s.row col
    let bit := bitOf col
    let s1 : NQueensSolver :=
      if s.row + 1 < s.n + 1 then
        { s with queens := queens, col := col, stepsCount := stepsCount,
                 history_col := vecSet s.history_col (s.row + 1) (vecGet s.history_col s.row 0 ||| bit),
                 history_ld := vecSet s.history_ld (s.row + 1) (shl1 (vecGet s.history_ld s.row 0 ||| bit)),
                 history_rd := vecSet s.history_rd (s.row + 1) (sar1 (vecGet s.history_rd s.row 0 ||| bit)) }
      else
        { s with queens := queens, col := col, stepsCount := stepsCount }
    if s.row = s.n - 1 then
      let hasMirror : Bool := !(s.n.tmod 2 != 0 && vecGet queens 0 0 == s.n.tdiv 2)
      if hasMirror then
        ({ state with solutionFound := some true, newSolutionsFound := 2, isSymmetricBase := true,
                      solutionsCount := wrapInt (s.solutionsFound + 2) },
         { s1 with solutionsFound := wrapInt (s.solutionsFound + 2) })
      else
        ({ state with solutionFound := some true, newSolutionsFound := 1, isSymmetricBase := false,
                      solutionsCount := wrapInt (s.solutionsFound + 1) },
         { s1 with solutionsFound := wrapInt (s.solutionsFound + 1) })
    else
      (state, { s1 with row := s.row + 1, col := -1 })
  else
    (state, { s with col := col, stepsCount := stepsCount })

/-- The loop of `nextStep` with 32-bit counters, one iteration per unit of fuel. -/
def NQueensSolver.nextStepLoop32 : Nat → NQueensSolver → Option (SolverState × NQueensSolver)
  | 0, _ => none
  | fuel + 1, s =>
    if s.row ≥ 0 ∧ s.row < s.n then
      let col := s.col + 1
      if col ≥ s.limit then
        nextStepLoop32 fuel (s.popRow col)
      else if s.row > 0 ∧ col ≥ s.n then
        nextStepLoop32 fuel (s.popRow col)
      else
        some (s.evalTrial32 col)
    else
      some (s.terminal, s)

/-- The method `NQueensSolver::nextStep()` with 32-bit counters: the result and the solver
afterwards. -/
def NQueensSolver.nextStep32 (s : NQueensSolver) : Option (SolverState × NQueensSolver) :=
  s.nextStepLoop32 s.loopFuel

/-- The solver after `k` calls of `nextStep`, 32-bit counters. -/
def NQueensSolver.after32 : Nat → NQueensSolver → Option NQueensSolver
  | 0, s => some s
  | k + 1, s => (s.nextStep32).bind fun p => after32 k p.2

/-- The result of call number `k + 1` on a solver started in state `s`, 32-bit counters. -/
def NQueensSolver.resultAt32 (k : Nat) (s : NQueensSolver) : Option SolverState :=
  (s.after32 k).bind fun t => t.nextStep32.map Prod.fst

/-- Drain the solver with 32-bit counters: call `nextStep` until the first result with
`isFinished`, at most `calls` times; the result of that call. -/
def NQueensSolver.drain32 : Nat → NQueensSolver → Option SolverState
  | 0, _ => none
  | calls + 1, s =>
    match s.nextStep32 with
    | none => none
    | some (r, s1) => if r.isFinished then some r else drain32 calls s1

/-- A solver state with its two counters stored in `int` fields. -/
def NQueensSolver.wrapCounters (s : NQueensSolver) : NQueensSolver :=
  { s with solutionsFound := wrapInt s.solutionsFound, stepsCount := wrapInt s.stepsCount }

/-- A result with its two totals stored in `int` fields. -/
def wrapResult (R : SolverState) : SolverState :=
  { R with solutionsCount := wrapInt R.solutionsCount, stepsCount := wrapInt R.stepsCount }

/-- The pair returned by a call, with the counters of both parts stored in `int` fields. -/
def wrapPair (p : SolverState × NQueensSolver) : SolverState × NQueensSolver :=
  (wrapResult p.1, p.2.wrapCounters)

/-- The counters of a run on exact integers: both start at `0`, grow, and a call adds at
most 2 to `solutionsFound` for the one trial it adds to `stepsCount`. -/
def CountInv (s : NQueensSolver) : Prop :=
  0 ≤ s.stepsCount ∧ 0 ≤ s.solutionsFound ∧ s.solutionsFound ≤ 2 * s.stepsCount

/-- The number of placements of `e` further rows that the pruned search reaches below the
columns `c0, …, c0 + k - 1` of the row after the placed rows `p`. -/
def rowNodes (n e : Nat) (p : List Int) (c0 k : Nat) : Nat :=
  ((List.range' c0 k).flatMap fun c =>
    if safeAt p c then search n ((n + 1) / 2) e (p ++ [(c : Int)]) else []).length

/-- A lower bound for the number of safe placements of `e` further rows below `j ≥ 1`
placed rows on a board of size `n`: a queen attacks at most three columns of a row. -/
def minNodes (n : Nat) : Nat → Nat → Nat
  | 0, _ => 1
  | e + 1, j => (n - 3 * j) * minNodes n e (j + 1)

/-! ### Concrete points of runs, used to instantiate the theorems -/

/-- The solver of size 4 after two calls: queen accepted at `(0, 0)`, trial `(1, 0)` refused. -/
def sample4After2 : NQueensSolver :=
  ⟨4, [0, -1, -1, -1], [0, 1, 0, 0, 0], [0, 2, 0, 0, 0], [0, 0, 0, 0, 0], 0, 2, 1, 0⟩

/-- The result of the third call on size 4: the trial `(1, 1)`, on the diagonal of `(0, 0)`. -/
def sample4Result3 : SolverState :=
  ⟨[0, -1, -1, -1], (1, 1), some true, some false, 0, 0, 3, false, false⟩

/-- The solver of size 4 after three calls. -/
def sample4After3 : NQueensSolver :=
  ⟨4, [0, -1, -1, -1], [0, 1, 0, 0, 0], [0, 2, 0, 0, 0], [0, 0, 0, 0, 0], 0, 3, 1, 1⟩

/-- The result of the first call on size 4: the trial `(0, 0)`. -/
def sample4Result1 : SolverState :=
  ⟨[-1, -1, -1, -1], (0, 0), some false, some false, 0, 0, 1, false, false⟩

/-- The solver of size 4 after one call. -/
def sample4After1 : NQueensSolver :=
  ⟨4, [0, -1, -1, -1], [0, 1, 0, 0, 0], [0, 2, 0, 0, 0], [0, 0, 0, 0, 0], 0, 1, 1, -1⟩

/-- The solver of size 4 after 25 calls, queens at `(0, 1)`, `(1, 3)`, `(2, 0)`. -/
def sample4After25 : NQueensSolver :=
  ⟨4, [1, 3, 0, -1], [0, 2, 10, 11, 0], [0, 4, 24, 50, 0], [0, 1, 4, 2, 0], 0, 25, 3, 1⟩

/-- The result of call 26 on size 4: the first solution, completed by the trial `(3, 2)`. -/
def sample4Result26 : SolverState :=
  ⟨[1, 3, 0, -1], (3, 2), some false, some true, 2, 2, 26, false, true⟩

/-- The solver of size 4 after 26 calls. -/
def sample4After26 : NQueensSolver :=
  ⟨4, [1, 3, 0, 2], [0, 2, 10, 11, 15], [0, 4, 24, 50, 108], [0, 1, 4, 2, 3], 2, 26, 3, 2⟩

/-- The solver of size 3 after seven calls: rows 2 and 1 are both exhausted. -/
def sample3After7 : NQueensSolver :=
  ⟨3, [0, 2, -1], [0, 1, 5, 0], [0, 2, 12, 0], [0, 0, 2, 0], 0, 7, 2, 2⟩

/-- The result of call 8 on size 3: the trial `(0, 1)`. -/
def sample3Result8 : SolverState :=
  ⟨[0, -1, -1], (0, 1), some false, some false, 0, 0, 8, false, false⟩

/-- The solver of size 3 after eight calls. -/
def sample3After8 : NQueensSolver :=
  ⟨3, [1, -1, -1], [0, 2, 5, 0], [0, 4, 12, 0], [0, 1, 2, 0], 0, 8, 1, -1⟩

/-- The result of the first call on size 1: the only solution. -/
def sample1Result1 : SolverState :=
  ⟨[-1], (0, 0), some false, some true, 1, 1, 1, false, false⟩

/-- The solver of size 1 after one call. -/
def sample1After1 : NQueensSolver :=
  ⟨1, [0], [0, 1], [0, 2], [0, 0], 1, 1, 0, 0⟩

/-- The result of the second call on size 1: the terminal result. -/
def sample1Result2 : SolverState :=
  ⟨[-1], (0, 0), none, none, 1, 0, 1, true, false⟩

/-- The solver of size 1 after two calls. -/
def sample1After2 : NQueensSolver :=
  ⟨1, [-1], [0, 1], [0, 2], [0, 0], 1, 1, -1, 1⟩

/-- The terminal result of a solver built with size 0. -/
def sample0Result : SolverState :=
  ⟨[], (0, 0), none, none, 0, 0, 0, true, false⟩

/-- The solver of size 8 after `1000 * (i + 1)` calls, for `i = 0 .. 6`. -/
def sample8 : Nat → NQueensSolver
  | 0 => ⟨8, [0, 5, 3, 1, 6, 2, -1, -1], [0, 1, 33, 41, 43, 107, 111, 247, 255],
      [0, 2, 68, 152, 308, 744, 1496, 6052, 12120], [0, 0, 16, 12, 7, 35, 19, 23, 15],
      2, 1000, 5, 3⟩
  | 1 => ⟨8, [1, 3, 5, 7, 2, 4, 6, -1], [0, 2, 10, 42, 170, 174, 190, 254, 255],
      [0, 4, 24, 112, 480, 968, 1968, 4064, 8040], [0, 1, 4, 18, 73, 38, 27, 45, 28],
      10, 2000, 7, 4⟩
  | 2 => ⟨8, [1, 5, 7, 2, 6, 3, -1, -1], [0, 2, 34, 162, 166, 230, 238, 239, 255],
      [0, 4, 72, 400, 808, 1744, 3504, 6632, 13296], [0, 1, 16, 72, 38, 51, 29, 38, 27],
      18, 3000, 6, 1⟩
  | 3 => ⟨8, [2, 0, 5, 3, 1, 6, -1, -1], [0, 4, 5, 37, 45, 47, 111, 127, 255],
      [0, 8, 18, 100, 216, 436, 1000, 2032, 19440], [0, 2, 1, 16, 12, 7, 35, 25, 23],
      24, 4000, 5, 7⟩
  | 4 => ⟨8, [2, 5, 3, 6, 0, -1, -1, -1], [0, 4, 36, 44, 108, 109, 190, 254, 255],
      [0, 8, 80, 176, 480, 962, 1968, 4064, 8130], [0, 2, 17, 12, 38, 19, 41, 52, 26],
      44, 5000, 5, 2⟩
  | 5 => ⟨8, [3, 0, 4, 1, -1, -1, -1, -1], [0, 8, 9, 25, 27, 59, 63, 127, 255],
      [0, 16, 34, 100, 204, 472, 952, 2032, 20280], [0, 4, 2, 9, 5, 18, 11, 37, 15],
      56, 6000, 3, 5⟩
  | _ => ⟨8, [3, 5, 7, 1, 6, 0, 2, -1], [0, 8, 40, 168, 170, 234, 235, 239, 255],
      [0, 16, 96, 448, 900, 1928, 3858, 7724, 7920], [0, 4, 18, 73, 37, 50, 25, 14, 49],
      74, 7000, 7, 0⟩

/-- The result of call 105 on size 5: a solution with the first queen in the centre
column, completed by the trial `(4, 4)`. -/
def sample5Result105 : SolverState :=
  ⟨[2, 0, 3, 1, -1], (4, 4), some false, some true, 9, 1, 105, false, false⟩

end Core

namespace UI

/-- The mirror of `MainWindow::saveSnapshot`:
`for (int& col : mirrorQueens) if (col != -1) col = (boardSize - 1) - col;`. -/
def mirrorQueens (boardSize : Int) (queens : List Int) : List Int :=
  queens.map fun col => if col ≠ -1 then (boardSize - 1) - col else col

end UI

end NQueens

open NQueens NQueens.Core

namespace NQueens.Core

/-! ## The loop of `nextStep` -/

theorem loopFuel_popRow (s : NQueensSolver) (c : Int) (h : s.Active) :
    (s.popRow c).loopFuel + 1 = s.loopFuel := by
  unfold NQueensSolver.Active at h
  simp only [NQueensSolver.loopFuel, NQueensSolver.popRow]
  omega

theorem nextStepLoop_fuel (f1 : Nat) : ∀ (f2 : Nat) (s : NQueensSolver),
    s.loopFuel ≤ f1 → s.loopFuel ≤ f2 → s.nextStepLoop f1 = s.nextStepLoop f2 := by
  induction f1 with
  | zero => intro f2 s h1; simp [NQueensSolver.loopFuel] at h1
  | succ f1 ih =>
    intro f2 s h1 h2
    cases f2 with
    | zero => simp [NQueensSolver.loopFuel] at h2
    | succ f2 =>
      unfold NQueensSolver.nextStepLoop
      by_cases ha : s.row ≥ 0 ∧ s.row < s.n
      · have hp := fun c => loopFuel_popRow s c ha
        simp only [ha, and_self, if_true]
        split
        · exact ih _ _ (by have := hp (s.col + 1); omega) (by have := hp (s.col + 1); omega)
        · split
          · exact ih _ _ (by have := hp (s.col + 1); omega) (by have := hp (s.col + 1); omega)
          · rfl
      · simp only [ha, if_false]

theorem nextStep_of_not_active (s : NQueensSolver) (h : ¬ s.Active) :
    s.nextStep = some (s.terminal, s) := by
  unfold NQueensSolver.Active at h
  simp only [NQueensSolver.nextStep, NQueensSolver.loopFuel, NQueensSolver.nextStepLoop, h, if_false]

theorem nextStep_of_trial (s : NQueensSolver) (h : s.Active) (he : ¬ s.Exhausted) :
    s.nextStep = some (s.evalTrial (s.col + 1)) := by
  unfold NQueensSolver.Active at h
  unfold NQueensSolver.Exhausted at he
  have h1 : ¬ (s.col + 1 ≥ s.limit) := fun hh => he (Or.inl hh)
  have h2 : ¬ (s.row > 0 ∧ s.col + 1 ≥ s.n) := fun hh => he (Or.inr hh)
  simp only [NQueensSolver.nextStep, NQueensSolver.loopFuel, NQueensSolver.nextStepLoop, h,
    and_self, if_true, h1, h2, if_false]

theorem nextStep_of_exhausted (s : NQueensSolver) (h : s.Active) (he : s.Exhausted) :
    s.nextStep = (s.popRow (s.col + 1)).nextStep := by
  have hf := loopFuel_popRow s (s.col + 1) h
  have hstep : s.nextStepLoop ((s.popRow (s.col + 1)).loopFuel + 1)
      = (s.popRow (s.col + 1)).nextStepLoop (s.popRow (s.col + 1)).loopFuel := by
    unfold NQueensSolver.Active at h
    unfold NQueensSolver.Exhausted at he
    rw [NQueensSolver.nextStepLoop]
    simp only [h, and_self, if_true]
    by_cases h1 : s.col + 1 ≥ s.limit
    · simp only [h1, if_true]
    · have h2 : s.row > 0 ∧ s.col + 1 ≥ s.n := by
        rcases he with he | he
        · exact absurd he h1
        · exact he
      simp only [h1, if_false, h2, and_self, if_true]
  unfold NQueensSolver.nextStep
  rw [← hstep, hf]

/-- Induction over the iterations of the loop: every call returns, and a property that
holds on the two exits and is carried back over a pop holds for the call. -/
theorem nextStep_induct (P : NQueensSolver → SolverState × NQueensSolver → Prop)
    (hterm : ∀ s : NQueensSolver, ¬ s.Active → P s (s.terminal, s))
    (htrial : ∀ s : NQueensSolver, s.Active → ¬ s.Exhausted → P s (s.evalTrial (s.col + 1)))
    (hpop : ∀ (s : NQueensSolver) (r : SolverState × NQueensSolver), s.Active → s.Exhausted →
      (s.popRow (s.col + 1)).nextStep = some r → P (s.popRow (s.col + 1)) r → P s r) :
    ∀ s : NQueensSolver, ∃ r, s.nextStep = some r ∧ P s r := by
  intro s
  generalize hm : s.loopFuel = m
  induction m generalizing s with
  | zero => simp [NQueensSolver.loopFuel] at hm
  | succ m ih =>
    by_cases ha : s.Active
    · by_cases he : s.Exhausted
      · have hf := loopFuel_popRow s (s.col + 1) ha
        obtain ⟨r, hr, hP⟩ := ih (s.popRow (s.col + 1)) (by omega)
        exact ⟨r, by rw [nextStep_of_exhausted s ha he, hr], hpop s r ha he hr hP⟩
      · exact ⟨_, nextStep_of_trial s ha he, htrial s ha he⟩
    · exact ⟨_, nextStep_of_not_active s ha, hterm s ha⟩

/-- Every call of `nextStep` returns. -/
theorem nextStep_total (s : NQueensSolver) : ∃ r, s.nextStep = some r := by
  obtain ⟨r, hr, _⟩ := nextStep_induct (fun _ _ => True) (fun _ _ => trivial)
    (fun _ _ _ => trivial) (fun _ _ _ _ _ _ => trivial) s
  exact ⟨r, hr⟩

/-- A property of every call, from the two exits and the pop. -/
theorem nextStep_cases (P : NQueensSolver → SolverState × NQueensSolver → Prop)
    (hterm : ∀ s : NQueensSolver, ¬ s.Active → P s (s.terminal, s))
    (htrial : ∀ s : NQueensSolver, s.Active → ¬ s.Exhausted → P s (s.evalTrial (s.col + 1)))
    (hpop : ∀ (s : NQueensSolver) (r : SolverState × NQueensSolver), s.Active → s.Exhausted →
      (s.popRow (s.col + 1)).nextStep = some r → P (s.popRow (s.col + 1)) r → P s r)
    (s : NQueensSolver) (r : SolverState × NQueensSolver) (h : s.nextStep = some r) : P s r := by
  obtain ⟨r1, hr, hP⟩ := nextStep_induct P hterm htrial hpop s
  rw [h] at hr
  cases hr
  exact hP

/-! ## Bit patterns -/

theorem testBit_bitOf (col : Int) (h0 : 0 ≤ col) (h1 : col < 32) (c : Nat) :
    (bitOf col).testBit c = decide ((c : Int) = col) := by
  unfold bitOf wordBits
  rw [Nat.one_shiftLeft, Nat.testBit_mod_two_pow, Nat.testBit_two_pow]
  by_cases h : (c : Int) = col
  · have h2 : col.toNat = c := by omega
    have h3 : c < 32 := by omega
    simp [h, h2, h3]
  · have h2 : ¬ col.toNat = c := by omega
    simp [h, h2]

theorem testBit_shl1 (x c : Nat) :
    (shl1 x).testBit c = (decide (c < 32) && (decide (1 ≤ c) && x.testBit (c - 1))) := by
  unfold shl1 wordBits
  rw [Nat.testBit_mod_two_pow, Nat.testBit_shiftLeft]

theorem testBit_sar1 (x c : Nat) (h : x.testBit 31 = false) :
    (sar1 x).testBit c = x.testBit (c + 1) := by
  unfold sar1 wordBits
  rw [Nat.testBit_or, Nat.testBit_shiftRight, Nat.testBit_and, Nat.testBit_two_pow]
  by_cases hc : 31 = c
  · subst hc
    simp [h, Nat.add_comm]
  · simp [hc, Nat.add_comm]

theorem and_bitOf_ne_zero (m : Nat) (col : Int) (h0 : 0 ≤ col) (h1 : col < 32) :
    ((m &&& bitOf col) != 0) = m.testBit col.toNat := by
  have hb : bitOf col = 2 ^ col.toNat := by
    unfold bitOf wordBits
    rw [Nat.one_shiftLeft]
    apply Nat.mod_eq_of_lt
    apply Nat.pow_lt_pow_right (by decide)
    omega
  rw [hb, Nat.and_two_pow]
  cases m.testBit col.toNat <;> simp

/-! ## Vector reads and writes -/

theorem vecGet_vecSet_ne {α : Type} (l : List α) (i j : Int) (x d : α)
    (hi : 0 ≤ i) (hj : 0 ≤ j) (h : i ≠ j) : vecGet (vecSet l i x) j d = vecGet l j d := by
  unfold vecGet vecSet
  have : i.toNat ≠ j.toNat := by omega
  simp [List.getD_eq_getElem?_getD, List.getElem?_set_ne this]

theorem vecGet_vecSet_eq {α : Type} (l : List α) (i : Int) (x d : α)
    (h : i.toNat < l.length) : vecGet (vecSet l i x) i d = x := by
  unfold vecGet vecSet
  simp [List.getD_eq_getElem?_getD, List.getElem?_set_self, h]

theorem length_vecSet {α : Type} (l : List α) (i : Int) (x : α) :
    (vecSet l i x).length = l.length := by
  unfold vecSet
  simp

/-! ## Counters -/

theorem evalTrial_counterFacts (s : NQueensSolver) (c : Int) :
    CounterFacts s (s.evalTrial c) := by
  unfold CounterFacts NQueensSolver.evalTrial
  simp only []
  split_ifs <;> simp

theorem nextStep_counterFacts (s : NQueensSolver) (r : SolverState × NQueensSolver)
    (h : s.nextStep = some r) : CounterFacts s r := by
  refine nextStep_cases CounterFacts ?_ ?_ ?_ s r h
  · intro s ha
    simp [CounterFacts, NQueensSolver.terminal, ha]
  · intro s _ _
    exact evalTrial_counterFacts s _
  · intro s r _ _ _ hP
    exact hP

/-! ## Runs -/

theorem after_succ_right (k : Nat) : ∀ s : NQueensSolver,
    s.after (k + 1) = (s.after k).bind fun t => t.nextStep.map Prod.snd := by
  induction k with
  | zero =>
    intro s
    simp only [NQueensSolver.after, Option.some_bind]
    cases s.nextStep <;> simp
  | succ k ih =>
    intro s
    rw [NQueensSolver.after]
    cases hs : s.nextStep with
    | none => simp [NQueensSolver.after, hs]
    | some p =>
      simp only [Option.some_bind]
      rw [ih p.2]
      conv_rhs => rw [NQueensSolver.after]
      simp [hs]

theorem after_total (k : Nat) : ∀ s : NQueensSolver, ∃ t, s.after k = some t := by
  induction k with
  | zero => intro s; exact ⟨s, rfl⟩
  | succ k ih =>
    intro s
    obtain ⟨p, hp⟩ := nextStep_total s
    obtain ⟨t, ht⟩ := ih p.2
    exact ⟨t, by simp [NQueensSolver.after, hp, ht]⟩

theorem reachable_after (n : Int) (k : Nat) :
    ∀ t, (NQueensSolver.init n).after k = some t → Reachable n t := by
  induction k with
  | zero =>
    intro t h
    simp only [NQueensSolver.after, Option.some.injEq] at h
    subst h
    exact Reachable.init
  | succ k ih =>
    intro t h
    rw [after_succ_right] at h
    obtain ⟨u, hu⟩ := after_total k (NQueensSolver.init n)
    rw [hu, Option.some_bind] at h
    cases hn : u.nextStep with
    | none => simp [hn] at h
    | some p =>
      obtain ⟨r, s1⟩ := p
      simp only [hn, Option.map_some', Option.some.injEq] at h
      subst h
      exact Reachable.step (ih u hu) hn

/-- A solver that is not active stays as it is, and every call returns its terminal result. -/
theorem after_of_not_active (s : NQueensSolver) (h : ¬ s.Active) (k : Nat) :
    s.after k = some s := by
  induction k with
  | zero => rfl
  | succ k ih => simp [NQueensSolver.after, nextStep_of_not_active s h, ih]

/-- The counter kept in the solver after `k` calls is the one of the last result. -/
theorem stepsCount_after (s : NQueensSolver) (k : Nat) (t : NQueensSolver)
    (h : s.after (k + 1) = some t) :
    ∃ P, s.resultAt k = some P ∧ P.stepsCount = t.stepsCount := by
  rw [after_succ_right] at h
  obtain ⟨u, hu⟩ := after_total k s
  rw [hu, Option.some_bind] at h
  cases hn : u.nextStep with
  | none => simp [hn] at h
  | some p =>
    simp only [hn, Option.map_some', Option.some.injEq] at h
    subst h
    refine ⟨p.1, by simp [NQueensSolver.resultAt, hu, hn], ?_⟩
    exact (nextStep_counterFacts u p hn).2.1.symm

theorem reachable_n (n : Int) (s : NQueensSolver) (h : Reachable n s) : s.n = n := by
  induction h with
  | init => rfl
  | step _ hs ih => rw [(nextStep_counterFacts _ _ hs).1, ih]

/-! ## Solutions and the mirror credit -/

theorem evalTrial_solutionFacts (s : NQueensSolver) (c : Int) :
    SolutionFacts s (s.evalTrial c) := by
  unfold SolutionFacts NQueensSolver.evalTrial
  simp only []
  split_ifs with h1 h2 h3 h4 h5 h6 <;> simp_all
  tauto

theorem nextStep_solutionFacts (s : NQueensSolver) (r : SolverState × NQueensSolver)
    (h : s.nextStep = some r) : SolutionFacts s r := by
  refine nextStep_cases SolutionFacts ?_ ?_ ?_ s r h
  · intro s _
    simp [SolutionFacts, NQueensSolver.terminal]
  · intro s _ _
    exact evalTrial_solutionFacts s _
  · intro s r _ _ _ hP
    exact hP

/-! ## The trial -/

/-- The pieces of `evalTrial` on an active solver. -/
theorem evalTrial_shape (s : NQueensSolver) (c : Int) (ha : s.Active) :
    (s.evalTrial c).1.queens = s.queens ∧ (s.evalTrial c).1.trialPos = (s.row, c) ∧
    (s.evalTrial c).1.hasConflict = some (s.hasConflict s.row c) ∧
    (s.evalTrial c).1.isFinished = false ∧
    (s.evalTrial c).2.n = s.n ∧
    (s.hasConflict s.row c = true →
      (s.evalTrial c).2 = { s with col := c, stepsCount := s.stepsCount + 1 }) ∧
    (s.hasConflict s.row c = false →
      (s.evalTrial c).2.queens = vecSet s.queens s.row c ∧
      (s.evalTrial c).2.history_col
        = vecSet s.history_col (s.row + 1) (vecGet s.history_col s.row 0 ||| bitOf c) ∧
      (s.evalTrial c).2.history_ld
        = vecSet s.history_ld (s.row + 1) (shl1 (vecGet s.history_ld s.row 0 ||| bitOf c)) ∧
      (s.evalTrial c).2.history_rd
        = vecSet s.history_rd (s.row + 1) (sar1 (vecGet s.history_rd s.row 0 ||| bitOf c)) ∧
      (s.row = s.n - 1 → (s.evalTrial c).2.row = s.row ∧ (s.evalTrial c).2.col = c) ∧
      (s.row ≠ s.n - 1 → (s.evalTrial c).2.row = s.row + 1 ∧ (s.evalTrial c).2.col = -1)) := by
  unfold NQueensSolver.Active at ha
  have h1 : s.row + 1 < s.n + 1 := by omega
  unfold NQueensSolver.evalTrial
  simp only [h1, if_true]
  split_ifs <;> simp_all

/-! ## Shape invariant -/

theorem limit_eq (n : Int) (s : NQueensSolver) (hn : 1 ≤ n) (h : s.n = n) :
    s.limit = if s.row = 0 then (n + 1) / 2 else n := by
  unfold NQueensSolver.limit
  rw [h, Int.tdiv_eq_ediv (by omega) (by decide)]

theorem limit_le (n : Int) (s : NQueensSolver) (hn : 1 ≤ n) (h : s.n = n) : s.limit ≤ n := by
  rw [limit_eq n s hn h]
  split <;> omega

theorem basicInv_init (n : Int) (hn : 1 ≤ n) : BasicInv n (NQueensSolver.init n) := by
  unfold BasicInv NQueensSolver.init
  simp only [List.length_replicate, true_and]
  refine ⟨by omega, by omega, by omega, ?_, ?_⟩
  · intro j h0 h1
    omega
  · intro h
    omega

theorem basicInv_popRow (n : Int) (s : NQueensSolver) (c : Int) (hinv : BasicInv n s)
    (ha : s.Active) (hc : -1 ≤ c) : BasicInv n (s.popRow c) := by
  obtain ⟨h1, h2, h3, h4, h5, h6, h7, h8, h9, h10⟩ := hinv
  unfold NQueensSolver.Active at ha
  have hq : ∀ j : Int, 0 ≤ j → j < s.row →
      vecGet (vecSet s.queens s.row (-1)) j 0 = vecGet s.queens j 0 := by
    intro j hj0 hj1
    exact vecGet_vecSet_ne _ _ _ _ _ ha.1 hj0 (by omega)
  refine ⟨h1, ?_, h3, h4, h5, ?_, ?_, ?_, ?_, ?_⟩
  · simp only [NQueensSolver.popRow, length_vecSet]
    exact h2
  · simp only [NQueensSolver.popRow]
    omega
  · simp only [NQueensSolver.popRow]
    omega
  · simp only [NQueensSolver.popRow]
    split
    · rename_i hr
      rw [hq _ hr (by omega)]
      have := (h9 (s.row - 1) hr (by omega)).1
      omega
    · exact hc
  · intro j hj0 hj1
    simp only [NQueensSolver.popRow] at hj1 ⊢
    rw [hq j hj0 (by omega)]
    exact h9 j hj0 (by omega)
  · intro hr
    simp only [NQueensSolver.popRow] at hr ⊢
    rw [hq 0 (by omega) (by omega)]
    exact h10 (by omega)

theorem basicInv_evalTrial (n : Int) (s : NQueensSolver) (c : Int) (hn : 1 ≤ n)
    (hinv : BasicInv n s) (ha : s.Active) (hc0 : 0 ≤ c) (hc1 : c < s.limit) :
    BasicInv n (s.evalTrial c).2 := by
  obtain ⟨h1, h2, h3, h4, h5, h6, h7, h8, h9, h10⟩ := hinv
  obtain ⟨-, -, -, -, e5, e6, e7⟩ := evalTrial_shape s c ha
  have hlim := limit_eq n s hn h1
  have hle := limit_le n s hn h1
  unfold NQueensSolver.Active at ha
  cases hcf : s.hasConflict s.row c with
  | true =>
    rw [e6 hcf]
    exact ⟨h1, h2, h3, h4, h5, h6, h7, by simp only; omega, h9, h10⟩
  | false =>
    obtain ⟨q1, q2, q3, q4, q5, q6⟩ := e7 hcf
    have hq : ∀ j : Int, 0 ≤ j → j < s.row →
        vecGet (vecSet s.queens s.row c) j 0 = vecGet s.queens j 0 := by
      intro j hj0 hj1
      exact vecGet_vecSet_ne _ _ _ _ _ ha.1 hj0 (by omega)
    have hself : vecGet (vecSet s.queens s.row c) s.row 0 = c :=
      vecGet_vecSet_eq _ _ _ _ (by omega)
    refine ⟨by rw [e5, h1], by rw [q1, length_vecSet, h2], by rw [q2, length_vecSet, h3],
      by rw [q3, length_vecSet, h4], by rw [q4, length_vecSet, h5], ?_⟩
    by_cases hlast : s.row = s.n - 1
    · obtain ⟨r1, r2⟩ := q5 hlast
      rw [r1, r2, q1]
      refine ⟨h6, h7, by omega, ?_, ?_⟩
      · intro j hj0 hj1
        rw [hq j hj0 hj1]
        exact h9 j hj0 hj1
      · intro hr
        rw [hq 0 (by omega) hr]
        exact h10 hr
    · obtain ⟨r1, r2⟩ := q6 hlast
      rw [r1, r2, q1]
      refine ⟨by omega, by omega, by omega, ?_, ?_⟩
      · intro j hj0 hj1
        by_cases hj : j = s.row
        · subst hj
          rw [hself]
          omega
        · rw [hq j hj0 (by omega)]
          exact h9 j hj0 (by omega)
      · intro hr
        by_cases hj : s.row = 0
        · have h0 : vecGet (vecSet s.queens s.row c) 0 0 = c :=
            (congrArg (fun k => vecGet (vecSet s.queens s.row c) k 0) hj).symm.trans hself
          rw [h0]
          rw [if_pos hj] at hlim
          omega
        · rw [hq 0 (by omega) (by omega)]
          exact h10 (by omega)

/-- The shape invariant is kept by every call. -/
theorem basicInv_nextStep (n : Int) (hn : 1 ≤ n) (s : NQueensSolver)
    (r : SolverState × NQueensSolver) (h : s.nextStep = some r) (hinv : BasicInv n s) :
    BasicInv n r.2 := by
  refine nextStep_cases (fun s r => BasicInv n s → BasicInv n r.2) ?_ ?_ ?_ s r h hinv
  · intro s _ hi
    exact hi
  · intro s ha he hi
    have hc : s.col + 1 < s.limit := by
      unfold NQueensSolver.Exhausted at he
      omega
    exact basicInv_evalTrial n s _ hn hi ha (by have := hi.2.2.2.2.2.2.2.1; omega) hc
  · intro s r ha _ _ hP hi
    exact hP (basicInv_popRow n s _ hi ha (by have := hi.2.2.2.2.2.2.2.1; omega))

theorem reachable_basicInv (n : Int) (hn : 1 ≤ n) (s : NQueensSolver) (h : Reachable n s) :
    BasicInv n s := by
  induction h with
  | init => exact basicInv_init n hn
  | step _ hs ih => exact basicInv_nextStep n hn _ _ hs ih

/-! ## The mask cache -/

theorem colSeen_congr (q q1 : List Int) (r c : Int)
    (h : ∀ j : Int, 0 ≤ j → j < r → vecGet q1 j 0 = vecGet q j 0) :
    ColSeen q1 r c ↔ ColSeen q r c := by
  unfold ColSeen
  constructor
  · rintro ⟨j, h0, h1, h2⟩
    exact ⟨j, h0, h1, by rw [← h j h0 h1]; exact h2⟩
  · rintro ⟨j, h0, h1, h2⟩
    exact ⟨j, h0, h1, by rw [h j h0 h1]; exact h2⟩

theorem ldSeen_congr (q q1 : List Int) (r c : Int)
    (h : ∀ j : Int, 0 ≤ j → j < r → vecGet q1 j 0 = vecGet q j 0) :
    LdSeen q1 r c ↔ LdSeen q r c := by
  unfold LdSeen
  constructor
  · rintro ⟨j, h0, h1, h2⟩
    exact ⟨j, h0, h1, by rw [← h j h0 h1]; exact h2⟩
  · rintro ⟨j, h0, h1, h2⟩
    exact ⟨j, h0, h1, by rw [h j h0 h1]; exact h2⟩

theorem rdSeen_congr (q q1 : List Int) (r c : Int)
    (h : ∀ j : Int, 0 ≤ j → j < r → vecGet q1 j 0 = vecGet q j 0) :
    RdSeen q1 r c ↔ RdSeen q r c := by
  unfold RdSeen
  constructor
  · rintro ⟨j, h0, h1, h2⟩
    exact ⟨j, h0, h1, by rw [← h j h0 h1]; exact h2⟩
  · rintro ⟨j, h0, h1, h2⟩
    exact ⟨j, h0, h1, by rw [h j h0 h1]; exact h2⟩

theorem colSeen_succ (q : List Int) (r c : Int) (hr : 0 ≤ r) :
    ColSeen q (r + 1) c ↔ ColSeen q r c ∨ vecGet q r 0 = c := by
  unfold ColSeen
  constructor
  · rintro ⟨j, h0, h1, h2⟩
    by_cases hj : j = r
    · subst hj
      exact Or.inr h2
    · exact Or.inl ⟨j, h0, by omega, h2⟩
  · rintro (⟨j, h0, h1, h2⟩ | h)
    · exact ⟨j, h0, by omega, h2⟩
    · exact ⟨r, hr, by omega, h⟩

theorem ldSeen_succ (q : List Int) (r c : Int) (hr : 0 ≤ r) :
    LdSeen q (r + 1) c ↔ LdSeen q r (c - 1) ∨ vecGet q r 0 + 1 = c := by
  unfold LdSeen
  constructor
  · rintro ⟨j, h0, h1, h2⟩
    by_cases hj : j = r
    · subst hj
      exact Or.inr (by omega)
    · exact Or.inl ⟨j, h0, by omega, by omega⟩
  · rintro (⟨j, h0, h1, h2⟩ | h)
    · exact ⟨j, h0, by omega, by omega⟩
    · exact ⟨r, hr, by omega, by omega⟩

theorem rdSeen_succ (q : List Int) (r c : Int) (hr : 0 ≤ r) :
    RdSeen q (r + 1) c ↔ RdSeen q r (c + 1) ∨ vecGet q r 0 - 1 = c := by
  unfold RdSeen
  constructor
  · rintro ⟨j, h0, h1, h2⟩
    by_cases hj : j = r
    · subst hj
      exact Or.inr (by omega)
    · exact Or.inl ⟨j, h0, by omega, by omega⟩
  · rintro (⟨j, h0, h1, h2⟩ | h)
    · exact ⟨j, h0, by omega, by omega⟩
    · exact ⟨r, hr, by omega, by omega⟩

theorem maskAt_congr (s s1 : NQueensSolver) (r : Int)
    (hc : vecGet s1.history_col r 0 = vecGet s.history_col r 0)
    (hl : vecGet s1.history_ld r 0 = vecGet s.history_ld r 0)
    (hd : vecGet s1.history_rd r 0 = vecGet s.history_rd r 0)
    (hq : ∀ j : Int, 0 ≤ j → j < r → vecGet s1.queens j 0 = vecGet s.queens j 0)
    (h : MaskAt s r) : MaskAt s1 r := by
  intro c
  obtain ⟨m1, m2, m3⟩ := h c
  rw [hc, hl, hd, colSeen_congr _ _ _ _ hq, ldSeen_congr _ _ _ _ hq, rdSeen_congr _ _ _ _ hq]
  exact ⟨m1, m2, m3⟩

theorem maskAt_init (n : Int) : MaskAt (NQueensSolver.init n) 0 := by
  intro c
  have hz : ∀ k : Nat, vecGet (List.replicate k (0 : Nat)) 0 0 = 0 := by
    intro k
    cases k <;> simp [vecGet, List.replicate]
  simp only [NQueensSolver.init, hz, Nat.zero_testBit, ColSeen, LdSeen, RdSeen]
  refine ⟨⟨by simp, ?_⟩, ⟨by simp, ?_⟩, ⟨by simp, ?_⟩⟩
  · rintro ⟨j, h0, h1, _⟩
    omega
  · rintro ⟨_, j, h0, h1, _⟩
    omega
  · rintro ⟨j, h0, h1, _⟩
    omega

/-- The conflict test of `hasConflict` read on the board, when the cache of the row is right. -/
theorem hasConflict_iff (s : NQueensSolver) (c : Int) (hm : MaskAt s s.row)
    (hc0 : 0 ≤ c) (hc1 : c < 32) :
    s.hasConflict s.row c = true ↔
      ColSeen s.queens s.row c ∨ LdSeen s.queens s.row c ∨ RdSeen s.queens s.row c := by
  obtain ⟨m1, m2, m3⟩ := hm c.toNat
  have hcc : ((c.toNat : Nat) : Int) = c := by omega
  rw [hcc] at m1 m2 m3
  unfold NQueensSolver.hasConflict
  simp only []
  rw [and_bitOf_ne_zero _ c hc0 hc1, Nat.testBit_or, Nat.testBit_or, Bool.or_eq_true,
    Bool.or_eq_true, m1, m2, m3]
  have h32 : c.toNat < 32 := by omega
  simp only [h32, true_and]
  tauto

/-- The masks written for row `row + 1` when the trial at `(row, c)` is accepted. -/
theorem maskAt_next (n : Int) (s s1 : NQueensSolver) (c : Int) (hn31 : n ≤ 31)
    (hinv : BasicInv n s) (ha : s.Active) (hm : MaskAt s s.row) (hc0 : 0 ≤ c) (hc1 : c < n)
    (q1 : s1.queens = vecSet s.queens s.row c)
    (q2 : s1.history_col
      = vecSet s.history_col (s.row + 1) (vecGet s.history_col s.row 0 ||| bitOf c))
    (q3 : s1.history_ld
      = vecSet s.history_ld (s.row + 1) (shl1 (vecGet s.history_ld s.row 0 ||| bitOf c)))
    (q4 : s1.history_rd
      = vecSet s.history_rd (s.row + 1) (sar1 (vecGet s.history_rd s.row 0 ||| bitOf c))) :
    MaskAt s1 (s.row + 1) := by
  obtain ⟨h1, h2, h3, h4, h5, h6, h7, h8, h9, h10⟩ := hinv
  unfold NQueensSolver.Active at ha
  have hq : ∀ j : Int, 0 ≤ j → j < s.row →
      vecGet (vecSet s.queens s.row c) j 0 = vecGet s.queens j 0 := by
    intro j hj0 hj1
    exact vecGet_vecSet_ne _ _ _ _ _ ha.1 hj0 (by omega)
  have hself : vecGet (vecSet s.queens s.row c) s.row 0 = c :=
    vecGet_vecSet_eq _ _ _ _ (by omega)
  have hb : ∀ k : Nat, (bitOf c).testBit k = decide ((k : Int) = c) :=
    testBit_bitOf c hc0 (by omega)
  intro k
  obtain ⟨m1, -, -⟩ := hm k
  rw [q1, q2, q3, q4, vecGet_vecSet_eq _ _ _ _ (by omega), vecGet_vecSet_eq _ _ _ _ (by omega),
    vecGet_vecSet_eq _ _ _ _ (by omega), colSeen_succ _ _ _ ha.1, ldSeen_succ _ _ _ ha.1,
    rdSeen_succ _ _ _ ha.1, hself, colSeen_congr _ _ _ _ hq, ldSeen_congr _ _ _ _ hq,
    rdSeen_congr _ _ _ _ hq]
  refine ⟨?_, ?_, ?_⟩
  · rw [Nat.testBit_or, Bool.or_eq_true, m1, hb, decide_eq_true_eq]
    constructor
    · rintro (h | h)
      · exact Or.inl h
      · exact Or.inr h.symm
    · rintro (h | h)
      · exact Or.inl h
      · exact Or.inr h.symm
  · rw [testBit_shl1, Nat.testBit_or, hb]
    simp only [Bool.and_eq_true, Bool.or_eq_true, decide_eq_true_eq]
    obtain ⟨-, m2, -⟩ := hm (k - 1)
    rw [m2]
    constructor
    · rintro ⟨hk, hk1, h | h⟩
      · refine ⟨hk, Or.inl ?_⟩
        have hcast : (((k - 1 : Nat) : Nat) : Int) = (k : Int) - 1 := by omega
        rw [hcast] at h
        exact h.2
      · exact ⟨hk, Or.inr (by omega)⟩
    · rintro ⟨hk, h | h⟩
      · have hk1 : 1 ≤ k := by
          obtain ⟨j, hj0, hj1, hj2⟩ := h
          have := (h9 j hj0 hj1).1
          omega
        refine ⟨hk, hk1, Or.inl ⟨by omega, ?_⟩⟩
        have hcast : (((k - 1 : Nat) : Nat) : Int) = (k : Int) - 1 := by omega
        rw [hcast]
        exact h
      · exact ⟨hk, by omega, Or.inr (by omega)⟩
  · have h31 : (vecGet s.history_rd s.row 0 ||| bitOf c).testBit 31 = false := by
      rw [Nat.testBit_or, hb]
      obtain ⟨-, -, m3⟩ := hm 31
      have hno : ¬ RdSeen s.queens s.row ((31 : Nat) : Int) := by
        rintro ⟨j, hj0, hj1, hj2⟩
        have := (h9 j hj0 hj1).2
        omega
      have hbit : (vecGet s.history_rd s.row 0).testBit 31 = false := by
        cases hh : (vecGet s.history_rd s.row 0).testBit 31 with
        | false => rfl
        | true => exact absurd (m3.1 hh) hno
      rw [hbit]
      simp only [Bool.false_or, decide_eq_false_iff_not]
      omega
    rw [testBit_sar1 _ _ h31, Nat.testBit_or, hb]
    obtain ⟨-, -, m3⟩ := hm (k + 1)
    simp only [Bool.or_eq_true, decide_eq_true_eq]
    rw [m3]
    have hcast : ((k + 1 : Nat) : Int) = (k : Int) + 1 := by omega
    rw [hcast]
    constructor
    · rintro (h | h)
      · exact Or.inl h
      · exact Or.inr (by omega)
    · rintro (h | h)
      · exact Or.inl h
      · exact Or.inr (by omega)

theorem noAttack_of_no_conflict (s : NQueensSolver) (c : Int) (hm : MaskAt s s.row)
    (hc0 : 0 ≤ c) (hc1 : c < 32) (hcf : s.hasConflict s.row c = false) (i : Int)
    (hi0 : 0 ≤ i) (hi1 : i < s.row) : NoAttack i (vecGet s.queens i 0) s.row c := by
  have hno : ¬ (ColSeen s.queens s.row c ∨ LdSeen s.queens s.row c ∨ RdSeen s.queens s.row c) := by
    rw [← hasConflict_iff s c hm hc0 hc1, hcf]
    simp
  refine ⟨?_, ?_, ?_⟩
  · intro h
    exact hno (Or.inl ⟨i, hi0, hi1, h⟩)
  · intro h
    exact hno (Or.inr (Or.inl ⟨i, hi0, hi1, h⟩))
  · intro h
    exact hno (Or.inr (Or.inr ⟨i, hi0, hi1, h⟩))

/-! ## The full invariant of a run (board sizes inside the `int` width) -/

theorem maskInv_popRow (s : NQueensSolver) (c : Int)
    (ha : s.Active) (hm : MaskInv s) : MaskInv (s.popRow c) := by
  unfold NQueensSolver.Active at ha
  intro r hr0 hr1
  simp only [NQueensSolver.popRow] at hr1
  refine maskAt_congr s _ r rfl rfl rfl ?_ (hm r hr0 (by omega))
  intro j hj0 hj1
  exact vecGet_vecSet_ne _ _ _ _ _ ha.1 hj0 (by omega)

theorem safeInv_popRow (s : NQueensSolver) (c : Int) (ha : s.Active) (hs : SafeInv s) :
    SafeInv (s.popRow c) := by
  unfold NQueensSolver.Active at ha
  intro i j hi hij hj
  simp only [NQueensSolver.popRow] at hj ⊢
  rw [vecGet_vecSet_ne _ _ _ _ _ ha.1 (by omega) (by omega),
    vecGet_vecSet_ne _ _ _ _ _ ha.1 (by omega) (by omega)]
  exact hs i j hi hij (by omega)

theorem maskInv_evalTrial (n : Int) (s : NQueensSolver) (c : Int) (hn : 1 ≤ n) (hn31 : n ≤ 31)
    (hinv : BasicInv n s) (ha : s.Active) (hm : MaskInv s) (hc0 : 0 ≤ c) (hc1 : c < s.limit) :
    MaskInv (s.evalTrial c).2 := by
  obtain ⟨-, -, -, -, -, e6, e7⟩ := evalTrial_shape s c ha
  have hle := limit_le n s hn hinv.1
  have ha1 := ha
  unfold NQueensSolver.Active at ha1
  cases hcf : s.hasConflict s.row c with
  | true =>
    rw [e6 hcf]
    exact hm
  | false =>
    obtain ⟨q1, q2, q3, q4, q5, q6⟩ := e7 hcf
    have hold : ∀ r : Int, 0 ≤ r → r ≤ s.row → MaskAt (s.evalTrial c).2 r := by
      intro r hr0 hr1
      refine maskAt_congr s _ r ?_ ?_ ?_ ?_ (hm r hr0 hr1)
      · rw [q2]
        exact vecGet_vecSet_ne _ _ _ _ _ (by omega) hr0 (by omega)
      · rw [q3]
        exact vecGet_vecSet_ne _ _ _ _ _ (by omega) hr0 (by omega)
      · rw [q4]
        exact vecGet_vecSet_ne _ _ _ _ _ (by omega) hr0 (by omega)
      · intro j hj0 hj1
        rw [q1]
        exact vecGet_vecSet_ne _ _ _ _ _ ha1.1 hj0 (by omega)
    intro r hr0 hr1
    by_cases hlast : s.row = s.n - 1
    · rw [(q5 hlast).1] at hr1
      exact hold r hr0 hr1
    · rw [(q6 hlast).1] at hr1
      by_cases hr : r = s.row + 1
      · subst hr
        exact maskAt_next n s _ c hn31 hinv ha (hm s.row ha1.1 (le_refl _)) hc0 (by omega)
          q1 q2 q3 q4
      · exact hold r hr0 (by omega)

theorem safeInv_evalTrial (n : Int) (s : NQueensSolver) (c : Int) (hn : 1 ≤ n) (hn31 : n ≤ 31)
    (hinv : BasicInv n s) (ha : s.Active) (hm : MaskInv s) (hs : SafeInv s)
    (hc0 : 0 ≤ c) (hc1 : c < s.limit) : SafeInv (s.evalTrial c).2 := by
  obtain ⟨-, -, -, -, -, e6, e7⟩ := evalTrial_shape s c ha
  have hle := limit_le n s hn hinv.1
  have ha1 := ha
  unfold NQueensSolver.Active at ha1
  have hlen : s.row.toNat < s.queens.length := by
    rw [hinv.2.1]
    have := hinv.1
    omega
  cases hcf : s.hasConflict s.row c with
  | true =>
    rw [e6 hcf]
    exact hs
  | false =>
    obtain ⟨q1, -, -, -, q5, q6⟩ := e7 hcf
    have hq : ∀ j : Int, 0 ≤ j → j < s.row →
        vecGet (s.evalTrial c).2.queens j 0 = vecGet s.queens j 0 := by
      intro j hj0 hj1
      rw [q1]
      exact vecGet_vecSet_ne _ _ _ _ _ ha1.1 hj0 (by omega)
    have hself : vecGet (s.evalTrial c).2.queens s.row 0 = c := by
      rw [q1]
      exact vecGet_vecSet_eq _ _ _ _ hlen
    intro i j hi hij hj
    by_cases hjr : j < s.row
    · rw [hq i hi (by omega), hq j (by omega) hjr]
      exact hs i j hi hij hjr
    · have hlast : s.row ≠ s.n - 1 := by
        intro hl
        rw [(q5 hl).1] at hj
        exact hjr hj
      rw [(q6 hlast).1] at hj
      have hje : j = s.row := by omega
      subst hje
      rw [hq i hi hij, hself]
      exact noAttack_of_no_conflict s c (hm s.row ha1.1 (le_refl _)) hc0 (by omega) hcf i hi hij

theorem runInv_init (n : Int) (hn : 1 ≤ n) : RunInv n (NQueensSolver.init n) := by
  refine ⟨basicInv_init n hn, ?_, ?_⟩
  · intro r hr0 hr1
    have hr : r = 0 := by
      simp only [NQueensSolver.init] at hr1
      omega
    subst hr
    exact maskAt_init n
  · intro i j hi hij hj
    simp only [NQueensSolver.init] at hj
    omega

theorem runInv_nextStep (n : Int) (hn : 1 ≤ n) (hn31 : n ≤ 31) (s : NQueensSolver)
    (r : SolverState × NQueensSolver) (h : s.nextStep = some r) (hinv : RunInv n s) :
    RunInv n r.2 := by
  refine nextStep_cases (fun s r => RunInv n s → RunInv n r.2) ?_ ?_ ?_ s r h hinv
  · intro s _ hi
    exact hi
  · intro s ha he hi
    have hc : s.col + 1 < s.limit := by
      unfold NQueensSolver.Exhausted at he
      omega
    have hc0 : 0 ≤ s.col + 1 := by
      have := hi.1.2.2.2.2.2.2.2.1
      omega
    exact ⟨basicInv_evalTrial n s _ hn hi.1 ha hc0 hc,
      maskInv_evalTrial n s _ hn hn31 hi.1 ha hi.2.1 hc0 hc,
      safeInv_evalTrial n s _ hn hn31 hi.1 ha hi.2.1 hi.2.2 hc0 hc⟩
  · intro s r ha _ _ hP hi
    have hc0 : -1 ≤ s.col + 1 := by
      have := hi.1.2.2.2.2.2.2.2.1
      omega
    exact hP ⟨basicInv_popRow n s _ hi.1 ha hc0, maskInv_popRow s _ ha hi.2.1,
      safeInv_popRow s _ ha hi.2.2⟩

theorem reachable_runInv (n : Int) (hn : 1 ≤ n) (hn31 : n ≤ 31) (s : NQueensSolver)
    (h : Reachable n s) : RunInv n s := by
  induction h with
  | init => exact runInv_init n hn
  | step _ hs ih => exact runInv_nextStep n hn hn31 _ _ hs ih

/-! ## Normal form of a call: some pops, then one exit -/

theorem popRows_succ_right (k : Nat) : ∀ s : NQueensSolver,
    s.popRows (k + 1) = (s.popRows k).popRow ((s.popRows k).col + 1) := by
  induction k with
  | zero => intro s; rfl
  | succ k ih =>
    intro s
    rw [NQueensSolver.popRows, ih]
    rfl

theorem nextStep_popsThenExit (s : NQueensSolver) (r : SolverState × NQueensSolver)
    (h : s.nextStep = some r) : ∃ k, PopsThenExit s r k := by
  refine nextStep_cases (fun s r => ∃ k, PopsThenExit s r k) ?_ ?_ ?_ s r h
  · intro s ha
    exact ⟨0, fun i hi => absurd hi (Nat.not_lt_zero i), Or.inr ⟨ha, rfl⟩⟩
  · intro s ha he
    exact ⟨0, fun i hi => absurd hi (Nat.not_lt_zero i), Or.inl ⟨ha, he, rfl⟩⟩
  · rintro s r ha he _ ⟨k, hk1, hk2⟩
    refine ⟨k + 1, ?_, hk2⟩
    intro i hi
    cases i with
    | zero => exact ⟨ha, he⟩
    | succ i => exact hk1 i (by omega)

theorem basicInv_popRows (n : Int) (s : NQueensSolver) (k : Nat) (hinv : BasicInv n s)
    (hk : ∀ i : Nat, i < k → (s.popRows i).Active ∧ (s.popRows i).Exhausted) :
    BasicInv n (s.popRows k) := by
  induction k with
  | zero => exact hinv
  | succ k ih =>
    have hi := ih (fun i hi => hk i (by omega))
    rw [popRows_succ_right]
    exact basicInv_popRow n _ _ hi (hk k (by omega)).1 (by have := hi.2.2.2.2.2.2.2.1; omega)

theorem runInv_popRows (n : Int) (s : NQueensSolver) (k : Nat) (hinv : RunInv n s)
    (hk : ∀ i : Nat, i < k → (s.popRows i).Active ∧ (s.popRows i).Exhausted) :
    RunInv n (s.popRows k) := by
  induction k with
  | zero => exact hinv
  | succ k ih =>
    have hi := ih (fun i hi => hk i (by omega))
    have ha := (hk k (by omega)).1
    rw [popRows_succ_right]
    exact ⟨basicInv_popRow n _ _ hi.1 ha (by have := hi.1.2.2.2.2.2.2.2.1; omega),
      maskInv_popRow _ _ ha hi.2.1, safeInv_popRow _ _ ha hi.2.2⟩

theorem popRows_counters (s : NQueensSolver) (k : Nat) :
    (s.popRows k).stepsCount = s.stepsCount ∧ (s.popRows k).solutionsFound = s.solutionsFound ∧
    (s.popRows k).n = s.n ∧ (s.popRows k).row = s.row - k := by
  induction k with
  | zero => simp [NQueensSolver.popRows]
  | succ k ih =>
    rw [popRows_succ_right]
    obtain ⟨h1, h2, h3, h4⟩ := ih
    refine ⟨h1, h2, h3, ?_⟩
    simp only [NQueensSolver.popRow, h4]
    omega

/-- A non-terminal result of a reachable solver is the trial of an invariant-respecting
solver at its next column. -/
theorem trial_of_result (s : NQueensSolver) (R : SolverState) (s1 : NQueensSolver)
    (h : s.nextStep = some (R, s1)) (hnt : R.isFinished = false) :
    ∃ k, (∀ i : Nat, i < k → (s.popRows i).Active ∧ (s.popRows i).Exhausted) ∧
      (s.popRows k).Active ∧ ¬ (s.popRows k).Exhausted ∧
      (R, s1) = (s.popRows k).evalTrial ((s.popRows k).col + 1) := by
  obtain ⟨k, hk1, hk2⟩ := nextStep_popsThenExit s (R, s1) h
  rcases hk2 with ⟨ha, he, hr⟩ | ⟨_, hr⟩
  · exact ⟨k, hk1, ha, he, hr⟩
  · have : R = (s.popRows k).terminal := congrArg Prod.fst hr
    rw [this] at hnt
    simp [NQueensSolver.terminal] at hnt

/-! ## Boards and their mirror -/

theorem vecGet_natCast (b : List Int) (i : Nat) : vecGet b (i : Int) 0 = b.getD i 0 := by
  simp [vecGet]

theorem getD_mirrorQueens (n : Int) (b : List Int) (i : Nat) (hi : i < b.length) :
    (UI.mirrorQueens n b).getD i 0
      = if b.getD i 0 ≠ -1 then (n - 1) - b.getD i 0 else b.getD i 0 := by
  unfold UI.mirrorQueens
  simp [List.getD_eq_getElem?_getD, List.getElem?_map, List.getElem?_eq_getElem hi]

/-- The mirror of a complete valid board is a complete valid board. -/
theorem validBoard_mirror (n : Int) (b : List Int) (h : ValidBoard n b) :
    ValidBoard n (UI.mirrorQueens n b) := by
  obtain ⟨h1, h2, h3⟩ := h
  have hlen : (UI.mirrorQueens n b).length = b.length := by
    simp [UI.mirrorQueens]
  have hm : ∀ i : Nat, i < b.length →
      (UI.mirrorQueens n b).getD i 0 = (n - 1) - b.getD i 0 := by
    intro i hi
    rw [getD_mirrorQueens n b i hi, if_pos]
    have := (h2 i hi).1
    omega
  refine ⟨by rw [hlen, h1], ?_, ?_⟩
  · intro i hi
    rw [hlen] at hi
    rw [hm i hi]
    have := h2 i hi
    omega
  · intro j hj i hij
    rw [hlen] at hj
    rw [hm i (by omega), hm j hj]
    have := h3 j hj i hij
    unfold NoAttack at this ⊢
    omega

/-- The mirror differs from the board unless `n` is odd and the first queen is central. -/
theorem mirror_ne_of_first (n : Int) (b : List Int) (hn : 1 ≤ n) (h : ValidBoard n b)
    (hc : ¬ (n % 2 = 1 ∧ b.getD 0 0 = n / 2)) : UI.mirrorQueens n b ≠ b := by
  obtain ⟨h1, h2, -⟩ := h
  have h0 : 0 < b.length := by omega
  intro heq
  have hm := getD_mirrorQueens n b 0 h0
  rw [heq] at hm
  have := h2 0 h0
  split at hm <;> omega

/-- The board left in the solver by a trial flagged `solutionFound` is complete and valid. -/
theorem validBoard_of_solution (n : Int) (hn : 1 ≤ n) (hn31 : n ≤ 31) (t : NQueensSolver)
    (hinv : RunInv n t) (ha : t.Active) (he : ¬ t.Exhausted)
    (hsol : (t.evalTrial (t.col + 1)).1.solutionFound = some true) :
    t.row = n - 1 ∧ 0 ≤ t.col + 1 ∧ t.col + 1 < n ∧
    (t.evalTrial (t.col + 1)).2.queens = vecSet t.queens (n - 1) (t.col + 1) ∧
    ValidBoard n (t.evalTrial (t.col + 1)).2.queens := by
  obtain ⟨e1, e2, e3, -, -, -, -⟩ := evalTrial_shape t (t.col + 1) ha
  obtain ⟨f1, f2, f3, -, -, -⟩ := evalTrial_solutionFacts t (t.col + 1) hsol
  obtain ⟨⟨h1, h2, h3, h4, h5, h6, h7, h8, h9, h10⟩, hmask, hsafe⟩ := hinv
  have hle := limit_le n t hn h1
  have ha1 := ha
  unfold NQueensSolver.Active at ha1
  unfold NQueensSolver.Exhausted at he
  have hc0 : 0 ≤ t.col + 1 := by omega
  have hc1 : t.col + 1 < n := by omega
  rw [e2] at f1
  simp only [] at f1
  rw [h1] at f1
  have hcf : t.hasConflict t.row (t.col + 1) = false := by
    rw [e3] at f2
    exact Option.some.inj f2
  rw [e1, e2] at f3
  simp only [] at f3
  rw [f1] at f3
  refine ⟨f1, hc0, hc1, f3, ?_⟩
  rw [f3]
  have hq : ∀ j : Int, 0 ≤ j → j < n - 1 →
      vecGet (vecSet t.queens (n - 1) (t.col + 1)) j 0 = vecGet t.queens j 0 := by
    intro j hj0 hj1
    exact vecGet_vecSet_ne _ _ _ _ _ (by omega) hj0 (by omega)
  have hself : vecGet (vecSet t.queens (n - 1) (t.col + 1)) (n - 1) 0 = t.col + 1 :=
    vecGet_vecSet_eq _ _ _ _ (by omega)
  have hlen : (vecSet t.queens (n - 1) (t.col + 1)).length = n.toNat := by
    rw [length_vecSet, h2]
  refine ⟨hlen, ?_, ?_⟩
  · intro i hi
    rw [hlen] at hi
    rw [← vecGet_natCast]
    by_cases hl : (i : Int) = n - 1
    · rw [hl, hself]
      omega
    · rw [hq i (by omega) (by omega)]
      exact h9 i (by omega) (by omega)
  · intro j hj i hij
    rw [hlen] at hj
    rw [← vecGet_natCast, ← vecGet_natCast, hq i (by omega) (by omega)]
    by_cases hl : (j : Int) = n - 1
    · rw [hl, hself, ← f1]
      exact noAttack_of_no_conflict t _ (hmask t.row ha1.1 (le_refl _)) hc0 (by omega) hcf i
        (by omega) (by omega)
    · rw [hq j (by omega) (by omega)]
      exact hsafe i j (by omega) (by omega) (by omega)

/-- A result flagged `isSymmetricBase` is a solution whose first queen is off the centre. -/
theorem symmetricBase_facts (s : NQueensSolver) (c : Int)
    (h : (s.evalTrial c).1.isSymmetricBase = true) :
    (s.evalTrial c).1.solutionFound = some true ∧
    ¬ (s.n.tmod 2 ≠ 0 ∧ vecGet (s.evalTrial c).2.queens 0 0 = s.n.tdiv 2) := by
  revert h
  unfold NQueensSolver.evalTrial
  simp only []
  split_ifs with h1 h2 h3 h4 h5 h6 <;> simp_all
  all_goals tauto

/-! ## Draining -/

theorem drain_mono (k : Nat) : ∀ (s : NQueensSolver) (R : SolverState) (m : Nat),
    s.drain k = some R → k ≤ m → s.drain m = some R := by
  induction k with
  | zero => intro s R m h; simp [NQueensSolver.drain] at h
  | succ k ih =>
    intro s R m h hm
    obtain ⟨m, rfl⟩ : ∃ m1, m = m1 + 1 := ⟨m - 1, by omega⟩
    rw [NQueensSolver.drain] at h ⊢
    cases hs : s.nextStep with
    | none => simp [hs] at h
    | some p =>
      obtain ⟨r, s1⟩ := p
      simp only [hs] at h ⊢
      by_cases hf : r.isFinished = true
      · simp only [hf, if_true] at h ⊢
        exact h
      · simp only [hf] at h ⊢
        exact ih s1 R m h (by omega)

theorem drain_finished (k : Nat) : ∀ (s : NQueensSolver) (R : SolverState),
    s.drain k = some R → R.isFinished = true := by
  induction k with
  | zero => intro s R h; simp [NQueensSolver.drain] at h
  | succ k ih =>
    intro s R h
    rw [NQueensSolver.drain] at h
    cases hs : s.nextStep with
    | none => simp [hs] at h
    | some p =>
      obtain ⟨r, s1⟩ := p
      simp only [hs] at h
      by_cases hf : r.isFinished = true
      · simp only [hf, if_true, Option.some.injEq] at h
        rw [← h]
        exact hf
      · simp only [hf] at h
        exact ih s1 R h

theorem after_stepsCount_le (k : Nat) : ∀ (s t : NQueensSolver),
    s.after k = some t → t.stepsCount ≤ s.stepsCount + k := by
  induction k with
  | zero =>
    intro s t h
    simp only [NQueensSolver.after, Option.some.injEq] at h
    subst h
    simp
  | succ k ih =>
    intro s t h
    rw [NQueensSolver.after] at h
    cases hs : s.nextStep with
    | none => simp [hs] at h
    | some p =>
      simp only [hs, Option.some_bind] at h
      have hc := nextStep_counterFacts s p hs
      have := ih p.2 t h
      obtain ⟨-, c2, -, -, c5⟩ := hc
      push_cast
      rcases c5 with ⟨-, c6, -⟩ | ⟨-, c6, -⟩ <;> omega

/-- A stretch of `k` calls that raises `stepsCount` by `k` holds no terminal result, so a
drain goes on from the state the stretch ends in. -/
theorem drain_of_after (k : Nat) : ∀ (s t : NQueensSolver) (m : Nat),
    s.after k = some t → t.stepsCount = s.stepsCount + k → s.drain (k + m) = t.drain m := by
  induction k with
  | zero =>
    intro s t m h _
    simp only [NQueensSolver.after, Option.some.injEq] at h
    subst h
    simp
  | succ k ih =>
    intro s t m h hcnt
    rw [NQueensSolver.after] at h
    cases hs : s.nextStep with
    | none => simp [hs] at h
    | some p =>
      obtain ⟨r, s1⟩ := p
      simp only [hs, Option.some_bind] at h
      have hle := after_stepsCount_le k s1 t h
      obtain ⟨-, c2, -, -, c5⟩ := nextStep_counterFacts s (r, s1) hs
      simp only [] at c2 c5
      push_cast at hcnt
      have hnf : r.isFinished = false := by
        rcases c5 with ⟨-, c6, -⟩ | ⟨c7, -, -⟩
        · omega
        · exact c7
      have hs1 : s1.stepsCount = s.stepsCount + 1 := by
        rcases c5 with ⟨c7, -, -⟩ | ⟨-, c6, -⟩
        · rw [hnf] at c7
          exact absurd c7 (by decide)
        · omega
      have hrec := ih s1 t m h (by omega)
      have hk : k + 1 + m = (k + m) + 1 := by omega
      rw [hk, NQueensSolver.drain]
      simp only [hs, hnf]
      exact hrec

/-! ## Conflicts, trial columns and solutions of a run -/

/-- The context of a non-terminal result of a run: the solver `t` reached after the pops
of the call satisfies the invariant and the result is its trial at the next column. -/
theorem reachable_trial (n : Int) (hn : 1 ≤ n) (s : NQueensSolver) (R : SolverState)
    (s1 : NQueensSolver) (hreach : Reachable n s) (hstep : s.nextStep = some (R, s1))
    (hnt : R.isFinished = false) :
    ∃ t : NQueensSolver, BasicInv n t ∧ (n ≤ 31 → RunInv n t) ∧ t.Active ∧ ¬ t.Exhausted ∧
      0 ≤ t.col + 1 ∧ t.col + 1 < t.limit ∧ (R, s1) = t.evalTrial (t.col + 1) := by
  obtain ⟨k, hk1, ha, he, hr⟩ := trial_of_result s R s1 hstep hnt
  have hb := basicInv_popRows n s k (reachable_basicInv n hn s hreach) hk1
  refine ⟨s.popRows k, hb, ?_, ha, he, ?_, ?_, hr⟩
  · intro hn31
    exact runInv_popRows n s k (reachable_runInv n hn hn31 s hreach) hk1
  · have := hb.2.2.2.2.2.2.2.1
    omega
  · unfold NQueensSolver.Exhausted at he
    omega

theorem attacked_iff (q : List Int) (r c : Int) :
    (ColSeen q r c ∨ LdSeen q r c ∨ RdSeen q r c) ↔
      ∃ j : Int, 0 ≤ j ∧ j < r ∧
        (vecGet q j 0 = c ∨ vecGet q j 0 + (r - j) = c ∨ vecGet q j 0 - (r - j) = c) := by
  unfold ColSeen LdSeen RdSeen
  constructor
  · rintro (⟨j, h0, h1, h2⟩ | ⟨j, h0, h1, h2⟩ | ⟨j, h0, h1, h2⟩)
    · exact ⟨j, h0, h1, Or.inl h2⟩
    · exact ⟨j, h0, h1, Or.inr (Or.inl h2)⟩
    · exact ⟨j, h0, h1, Or.inr (Or.inr h2)⟩
  · rintro ⟨j, h0, h1, h2 | h2 | h2⟩
    · exact Or.inl ⟨j, h0, h1, h2⟩
    · exact Or.inr (Or.inl ⟨j, h0, h1, h2⟩)
    · exact Or.inr (Or.inr ⟨j, h0, h1, h2⟩)

/-- C2: for `1 ≤ N ≤ 31` (the `int` mask width) and every non-terminal result of a run
started from `NQueensSolver(N)`, with trial position `(r, c)`: `hasConflict` is assigned,
and it is `true` exactly when some row `j < r` has its queen `q = result.queens[j]` on the
same column (`q = c`) or on a common diagonal (`q + (r - j) = c` or `q - (r - j) = c`). -/
theorem hasConflict_iff_attacked (n : Int) (hn : 1 ≤ n) (hn31 : n ≤ 31) (s : NQueensSolver)
    (R : SolverState) (s1 : NQueensSolver) (hreach : Reachable n s)
    (hstep : s.nextStep = some (R, s1)) (hnt : R.isFinished = false) :
    (∃ b, R.hasConflict = some b) ∧
    (R.hasConflict = some true ↔
      ∃ j : Int, 0 ≤ j ∧ j < R.trialPos.1 ∧
        (vecGet R.queens j 0 = R.trialPos.2 ∨
         vecGet R.queens j 0 + (R.trialPos.1 - j) = R.trialPos.2 ∨
         vecGet R.queens j 0 - (R.trialPos.1 - j) = R.trialPos.2)) := by
  obtain ⟨t, hb, hrun, ha, he, hc0, hc1, hr⟩ := reachable_trial n hn s R s1 hreach hstep hnt
  obtain ⟨e1, e2, e3, -, -, -, -⟩ := evalTrial_shape t (t.col + 1) ha
  have hR : R = (t.evalTrial (t.col + 1)).1 := congrArg Prod.fst hr
  have hle := limit_le n t hn hb.1
  have ha1 := ha
  unfold NQueensSolver.Active at ha1
  rw [hR, e1, e2, e3]
  refine ⟨⟨_, rfl⟩, ?_⟩
  simp only [Option.some.injEq]
  rw [hasConflict_iff t (t.col + 1) ((hrun hn31).2.1 t.row ha1.1 (le_refl _)) hc0 (by omega)]
  exact attacked_iff _ _ _

/-- C8: for every `N ≥ 1` and every non-terminal result of a run started from
`NQueensSolver(N)` whose trial position is in row `0`, the trial column `c` satisfies
`0 ≤ c ≤ (N + 1) / 2 - 1`. -/
theorem row0_trial_column_bound (n : Int) (hn : 1 ≤ n) (s : NQueensSolver) (R : SolverState)
    (s1 : NQueensSolver) (hreach : Reachable n s) (hstep : s.nextStep = some (R, s1))
    (hnt : R.isFinished = false) (hrow : R.trialPos.1 = 0) :
    0 ≤ R.trialPos.2 ∧ R.trialPos.2 ≤ (n + 1) / 2 - 1 := by
  obtain ⟨t, hb, -, ha, he, hc0, hc1, hr⟩ := reachable_trial n hn s R s1 hreach hstep hnt
  obtain ⟨-, e2, -, -, -, -, -⟩ := evalTrial_shape t (t.col + 1) ha
  have hR : R = (t.evalTrial (t.col + 1)).1 := congrArg Prod.fst hr
  rw [hR, e2] at hrow
  simp only [] at hrow
  have hlim := limit_eq n t hn hb.1
  rw [if_pos hrow] at hlim
  rw [hR, e2]
  simp only []
  omega

/-- The board a mirror export is meant to show: for `1 < N ≤ 31` and every result of a
run started from `NQueensSolver(N)` with `isSymmetricBase == true`, the trial position is
`(N - 1, c)`, the board completed with the accepted trial (`result.queens` with entry `N - 1` set to `c`,
which is the solver's `queens` after the call) is a valid `N`-queens solution, and its
mirror `col → N - 1 - col` is a valid `N`-queens solution different from it. -/
theorem mirror_of_completed_board (n : Int) (hn : 1 < n) (hn31 : n ≤ 31) (s : NQueensSolver)
    (R : SolverState) (s1 : NQueensSolver) (hreach : Reachable n s)
    (hstep : s.nextStep = some (R, s1)) (hsym : R.isSymmetricBase = true) :
    R.trialPos.1 = n - 1 ∧
    s1.queens = vecSet R.queens (n - 1) R.trialPos.2 ∧
    ValidBoard n (vecSet R.queens (n - 1) R.trialPos.2) ∧
    ValidBoard n (UI.mirrorQueens n (vecSet R.queens (n - 1) R.trialPos.2)) ∧
    UI.mirrorQueens n (vecSet R.queens (n - 1) R.trialPos.2)
      ≠ vecSet R.queens (n - 1) R.trialPos.2 := by
  have hn1 : 1 ≤ n := by omega
  have hnt : R.isFinished = false := by
    obtain ⟨-, -, -, -, c5⟩ := nextStep_counterFacts s (R, s1) hstep
    rcases c5 with ⟨-, -, -, -, -, c6⟩ | ⟨c7, -⟩
    · simp only [] at c6
      rw [c6] at hsym
      simp [NQueensSolver.terminal] at hsym
    · exact c7
  obtain ⟨t, hb, hrun, ha, he, hc0, hc1, hr⟩ := reachable_trial n hn1 s R s1 hreach hstep hnt
  obtain ⟨e1, e2, -, -, -, -, -⟩ := evalTrial_shape t (t.col + 1) ha
  have hR : R = (t.evalTrial (t.col + 1)).1 := congrArg Prod.fst hr
  have hS : s1 = (t.evalTrial (t.col + 1)).2 := congrArg Prod.snd hr
  rw [hR] at hsym
  obtain ⟨hsol, hoff⟩ := symmetricBase_facts t (t.col + 1) hsym
  obtain ⟨v1, -, -, v4, v5⟩ := validBoard_of_solution n hn1 hn31 t (hrun hn31) ha he hsol
  have hq : vecSet R.queens (n - 1) R.trialPos.2 = (t.evalTrial (t.col + 1)).2.queens := by
    rw [hR, e1, e2, v4]
  rw [hq]
  refine ⟨by rw [hR, e2]; exact v1, by rw [hS], v5, validBoard_mirror n _ v5, ?_⟩
  apply mirror_ne_of_first n _ hn1 v5
  rw [hb.1, Int.tmod_eq_emod (by omega) (by decide), Int.tdiv_eq_ediv (by omega) (by decide),
    vecGet, Int.toNat_zero] at hoff
  intro hc
  apply hoff
  constructor
  · omega
  · exact hc.2

/-! ## The run of size 8, in stretches of 1000 calls -/

set_option maxRecDepth 1000000 in
theorem sample8_stretch0 : (NQueensSolver.init 8).after 1000 = some (sample8 0) := by
  decide!

set_option maxRecDepth 1000000 in
theorem sample8_stretch1 : (sample8 0).after 1000 = some (sample8 1) := by
  decide!

set_option maxRecDepth 1000000 in
theorem sample8_stretch2 : (sample8 1).after 1000 = some (sample8 2) := by
  decide!

set_option maxRecDepth 1000000 in
theorem sample8_stretch3 : (sample8 2).after 1000 = some (sample8 3) := by
  decide!

set_option maxRecDepth 1000000 in
theorem sample8_stretch4 : (sample8 3).after 1000 = some (sample8 4) := by
  decide!

set_option maxRecDepth 1000000 in
theorem sample8_stretch5 : (sample8 4).after 1000 = some (sample8 5) := by
  decide!

set_option maxRecDepth 1000000 in
theorem sample8_stretch6 : (sample8 5).after 1000 = some (sample8 6) := by
  decide!

set_option maxRecDepth 1000000 in
theorem sample8_tail :
    ((sample8 6).drain 861).map (fun r => r.solutionsCount) = some 92 := by
  decide!

theorem drain8 : ((NQueensSolver.init 8).drain 7861).map (fun r => r.solutionsCount) = some 92 := by
  have e0 := drain_of_after 1000 _ _ 6861 sample8_stretch0 (by decide)
  have e1 := drain_of_after 1000 _ _ 5861 sample8_stretch1 (by decide)
  have e2 := drain_of_after 1000 _ _ 4861 sample8_stretch2 (by decide)
  have e3 := drain_of_after 1000 _ _ 3861 sample8_stretch3 (by decide)
  have e4 := drain_of_after 1000 _ _ 2861 sample8_stretch4 (by decide)
  have e5 := drain_of_after 1000 _ _ 1861 sample8_stretch5 (by decide)
  have e6 := drain_of_after 1000 _ _ 861 sample8_stretch6 (by decide)
  simp only [Nat.reduceAdd] at e0 e1 e2 e3 e4 e5 e6
  rw [e0, e1, e2, e3, e4, e5, e6]
  exact sample8_tail

theorem drain_count_of (s : NQueensSolver) (k : Nat) (c : Int)
    (h : (s.drain k).map (fun r => r.solutionsCount) = some c) (m : Nat) (hm : k ≤ m) :
    ∃ R, s.drain m = some R ∧ R.isFinished = true ∧ R.solutionsCount = c := by
  cases hd : s.drain k with
  | none => simp [hd] at h
  | some R =>
    simp only [hd, Option.map_some', Option.some.injEq] at h
    exact ⟨R, drain_mono k s R m hd hm, drain_finished k s R hd, h⟩

/-- C1: for `N` in `{1, 4, 5, 6, 8}`, calling `nextStep()` on a fresh `NQueensSolver(N)`
until the first result with `isFinished == true` (it comes within 2, 31, 129, 448 and 7861
calls, and any larger budget of calls gives the same result) yields a final
`solutionsCount` of 1, 2, 10, 4 and 92. -/
theorem drain_known_counts :
    (∀ k, 2 ≤ k → ∃ R, (NQueensSolver.init 1).drain k = some R ∧
      R.isFinished = true ∧ R.solutionsCount = 1) ∧
    (∀ k, 31 ≤ k → ∃ R, (NQueensSolver.init 4).drain k = some R ∧
      R.isFinished = true ∧ R.solutionsCount = 2) ∧
    (∀ k, 129 ≤ k → ∃ R, (NQueensSolver.init 5).drain k = some R ∧
      R.isFinished = true ∧ R.solutionsCount = 10) ∧
    (∀ k, 448 ≤ k → ∃ R, (NQueensSolver.init 6).drain k = some R ∧
      R.isFinished = true ∧ R.solutionsCount = 4) ∧
    (∀ k, 7861 ≤ k → ∃ R, (NQueensSolver.init 8).drain k = some R ∧
      R.isFinished = true ∧ R.solutionsCount = 92) := by
  refine ⟨?_, ?_, ?_, ?_, ?_⟩
  · exact drain_count_of _ 2 1 (by decide)
  · exact drain_count_of _ 31 2 (by decide)
  · exact drain_count_of _ 129 10 (by set_option maxRecDepth 1000000 in decide!)
  · exact drain_count_of _ 448 4 (by set_option maxRecDepth 1000000 in decide!)
  · exact drain_count_of _ 7861 92 drain8

/-! ## Claims on single calls and on successive calls -/

/-- On exact counters: for every solver state `s` (reachable or not) the next
`nextStep()` call returns a result `R` with `R.solutionsCount` equal to `solutionsFound`
before the call plus `R.newSolutionsFound`, and the solver keeps that total; for a non-terminal `R`,
`newSolutionsFound` is 1 or 2 when `R.solutionFound` is true and 0 when it is false; so
`solutionsCount` never decreases and grows only on solution-found results. -/
theorem solutionsCount_accounting (s : NQueensSolver) :
    ∃ R s1, s.nextStep = some (R, s1) ∧
      R.solutionsCount = s.solutionsFound + R.newSolutionsFound ∧
      s1.solutionsFound = R.solutionsCount ∧
      (R.isFinished = false →
        (R.solutionFound = some true ∧ (R.newSolutionsFound = 1 ∨ R.newSolutionsFound = 2)) ∨
        (R.solutionFound = some false ∧ R.newSolutionsFound = 0)) ∧
      (R.isFinished = true → R.newSolutionsFound = 0) ∧
      s.solutionsFound ≤ R.solutionsCount ∧
      (s.solutionsFound < R.solutionsCount →
        R.isFinished = false ∧ R.solutionFound = some true) := by
  obtain ⟨⟨R, s1⟩, hstep⟩ := nextStep_total s
  obtain ⟨-, -, c3, c4, c5⟩ := nextStep_counterFacts s (R, s1) hstep
  simp only [] at c3 c4 c5
  refine ⟨R, s1, hstep, c4, c3, ?_, ?_, ?_, ?_⟩
  · intro hnt
    rcases c5 with ⟨c6, -⟩ | ⟨-, -, c7⟩
    · rw [hnt] at c6
      exact absurd c6 (by decide)
    · exact c7
  · intro hf
    rcases c5 with ⟨-, -, c6, -⟩ | ⟨c7, -⟩
    · exact c6
    · rw [hf] at c7
      exact absurd c7 (by decide)
  · rcases c5 with ⟨-, -, c6, -⟩ | ⟨-, -, ⟨-, c7 | c7⟩ | ⟨-, c7⟩⟩ <;> omega
  · intro hlt
    rcases c5 with ⟨-, -, c6, -⟩ | ⟨c8, -, ⟨c9, -⟩ | ⟨-, c7⟩⟩
    · omega
    · exact ⟨c8, c9⟩
    · omega

/-- On exact counters: on a fresh solver every call returns; the first call reports
`stepsCount` 1 when its result is non-terminal and 0 when it is terminal, and every later call reports the
`stepsCount` of the previous result plus 1 when its result is non-terminal (one trial
evaluated) and the `stepsCount` of the previous result unchanged when `isFinished == true`;
so `stepsCount` never decreases across successive calls. -/
theorem stepsCount_successive (n : Int) :
    (∃ R, (NQueensSolver.init n).resultAt 0 = some R ∧
      R.stepsCount = if R.isFinished then 0 else 1) ∧
    (∀ k : Nat, ∃ P R, (NQueensSolver.init n).resultAt k = some P ∧
      (NQueensSolver.init n).resultAt (k + 1) = some R ∧
      R.stepsCount = P.stepsCount + (if R.isFinished then 0 else 1) ∧
      P.stepsCount ≤ R.stepsCount) := by
  have key : ∀ u : NQueensSolver, ∃ R, u.nextStep.map Prod.fst = some R ∧
      R.stepsCount = u.stepsCount + (if R.isFinished then 0 else 1) := by
    intro u
    obtain ⟨⟨R, u1⟩, hstep⟩ := nextStep_total u
    obtain ⟨-, -, -, -, c5⟩ := nextStep_counterFacts u (R, u1) hstep
    refine ⟨R, by simp [hstep], ?_⟩
    simp only [] at c5
    rcases c5 with ⟨c6, c7, -⟩ | ⟨c6, c7, -⟩
    · simp [c6, c7]
    · simp [c6, c7]
  constructor
  · obtain ⟨R, h1, h2⟩ := key (NQueensSolver.init n)
    refine ⟨R, by simp [NQueensSolver.resultAt, NQueensSolver.after, h1], ?_⟩
    rw [h2]
    simp [NQueensSolver.init]
  · intro k
    obtain ⟨t, ht⟩ := after_total (k + 1) (NQueensSolver.init n)
    obtain ⟨P, hP1, hP2⟩ := stepsCount_after (NQueensSolver.init n) k t ht
    obtain ⟨R, h1, h2⟩ := key t
    refine ⟨P, R, hP1, by simp [NQueensSolver.resultAt, ht, h1], by rw [h2, hP2], ?_⟩
    rw [h2, hP2]
    split <;> omega

/-- C7: once a `nextStep()` call has returned `isFinished == true`, every later call
returns the very same result (so `isFinished == true`, the same `solutionsCount` and the
same `stepsCount`) and leaves the whole solver state unchanged. -/
theorem finished_idempotent (s : NQueensSolver) (R : SolverState) (s1 : NQueensSolver)
    (hstep : s.nextStep = some (R, s1)) (hfin : R.isFinished = true) (k : Nat) :
    s1.after k = some s1 ∧ s1.resultAt k = some R ∧ s1.nextStep = some (R, s1) ∧
    (∀ R2, s1.resultAt k = some R2 → R2.isFinished = true ∧
      R2.solutionsCount = R.solutionsCount ∧ R2.stepsCount = R.stepsCount) := by
  obtain ⟨-, -, -, -, c5⟩ := nextStep_counterFacts s (R, s1) hstep
  simp only [] at c5
  have hna : ¬ s1.Active ∧ R = s1.terminal := by
    rcases c5 with ⟨-, -, -, -, c6, c7⟩ | ⟨c8, -⟩
    · exact ⟨c6, c7⟩
    · rw [hfin] at c8
      exact absurd c8 (by decide)
  have h1 := after_of_not_active s1 hna.1 k
  have h2 := nextStep_of_not_active s1 hna.1
  have h3 : s1.resultAt k = some R := by
    simp [NQueensSolver.resultAt, h1, h2, hna.2]
  refine ⟨h1, h3, by rw [h2, hna.2], ?_⟩
  intro R2 hR2
  rw [h3] at hR2
  cases hR2
  exact ⟨hfin, rfl, rfl⟩

/-- C10 (amended): the constructor validates nothing; built with `N = 0` it yields a
solver object (empty board, three one-entry histories) on which every `nextStep()` call
returns the terminal result with `solutionsCount` 0 and `stepsCount` 0 and leaves the
solver untouched. -/
theorem construct_zero_usable :
    NQueensSolver.construct 0 = Except.ok (NQueensSolver.init 0) ∧
    ∀ k : Nat, (NQueensSolver.init 0).after k = some (NQueensSolver.init 0) ∧
      (NQueensSolver.init 0).resultAt k = some sample0Result := by
  refine ⟨rfl, ?_⟩
  intro k
  have hna : ¬ (NQueensSolver.init 0).Active := by decide
  have h1 := after_of_not_active _ hna k
  refine ⟨h1, ?_⟩
  simp only [NQueensSolver.resultAt, h1, Option.some_bind, nextStep_of_not_active _ hna]
  decide

/-! ## Instances at concrete points of runs -/

/-- Witness for C2: the third call on size 4 tries `(1, 1)`, which the queen at `(0, 0)`
attacks along a diagonal. -/
theorem hasConflict_iff_attacked_witness :
    (NQueensSolver.init 4).after 2 = some sample4After2 ∧
    sample4After2.nextStep = some (sample4Result3, sample4After3) ∧
    sample4Result3.isFinished = false ∧
    (∃ b, sample4Result3.hasConflict = some b) ∧
    (sample4Result3.hasConflict = some true ↔
      ∃ j : Int, 0 ≤ j ∧ j < sample4Result3.trialPos.1 ∧
        (vecGet sample4Result3.queens j 0 = sample4Result3.trialPos.2 ∨
         vecGet sample4Result3.queens j 0 + (sample4Result3.trialPos.1 - j)
           = sample4Result3.trialPos.2 ∨
         vecGet sample4Result3.queens j 0 - (sample4Result3.trialPos.1 - j)
           = sample4Result3.trialPos.2)) :=
  ⟨by decide, by decide, by decide,
    hasConflict_iff_attacked 4 (by decide) (by decide) sample4After2 sample4Result3
      sample4After3 (reachable_after 4 2 _ (by decide)) (by decide) (by decide)⟩

/-- C3, at the failing input: call 26 on size 4 reports the first solution with
`isSymmetricBase == true`; its snapshot `result.queens`, the board that `handleSnapshot`
hands to `saveSnapshot` as the mirror solution, is `[1, 3, 0, -1]` (last row still
unplaced), and its mirror `[2, 0, 3, -1]` has no queen in row 3: it is not a valid
4-queens solution, where the claim requires one. -/
theorem mirror_of_snapshot_not_solution :
    (NQueensSolver.init 4).resultAt 25 = some sample4Result26 ∧
    sample4Result26.isSymmetricBase = true ∧
    UI.mirrorQueens 4 sample4Result26.queens = [2, 0, 3, -1] ∧
    ¬ ValidBoard 4 (UI.mirrorQueens 4 sample4Result26.queens) := by
  decide

/-- On size 4 the first solution completes `[1, 3, 0, -1]` with the trial `(3, 2)`; the mirror of `[1, 3, 0, 2]` is the other solution `[2, 0, 3, 1]`. -/
theorem mirror_of_completed_board_witness :
    (NQueensSolver.init 4).after 25 = some sample4After25 ∧
    sample4After25.nextStep = some (sample4Result26, sample4After26) ∧
    sample4Result26.isSymmetricBase = true ∧
    UI.mirrorQueens 4 (vecSet sample4Result26.queens (4 - 1) sample4Result26.trialPos.2)
      = [2, 0, 3, 1] ∧
    (sample4Result26.trialPos.1 = 4 - 1 ∧
    sample4After26.queens = vecSet sample4Result26.queens (4 - 1) sample4Result26.trialPos.2 ∧
    ValidBoard 4 (vecSet sample4Result26.queens (4 - 1) sample4Result26.trialPos.2) ∧
    ValidBoard 4
      (UI.mirrorQueens 4 (vecSet sample4Result26.queens (4 - 1) sample4Result26.trialPos.2)) ∧
    UI.mirrorQueens 4 (vecSet sample4Result26.queens (4 - 1) sample4Result26.trialPos.2)
      ≠ vecSet sample4Result26.queens (4 - 1) sample4Result26.trialPos.2) :=
  ⟨by decide, by decide, by decide, by decide,
    mirror_of_completed_board 4 (by decide) (by decide) sample4After25 sample4Result26
      sample4After26 (reachable_after 4 25 _ (by decide)) (by decide) (by decide)⟩

/-- Witness for C7: on size 1 the second call pops row 0 and returns the terminal result;
the three calls after it return the same result and leave the solver as it is. -/
theorem finished_idempotent_witness :
    (NQueensSolver.init 1).after 1 = some sample1After1 ∧
    sample1After1.nextStep = some (sample1Result2, sample1After2) ∧
    sample1Result2.isFinished = true ∧
    (sample1After2.after 3 = some sample1After2 ∧
    sample1After2.resultAt 3 = some sample1Result2 ∧
    sample1After2.nextStep = some (sample1Result2, sample1After2) ∧
    (∀ R2, sample1After2.resultAt 3 = some R2 → R2.isFinished = true ∧
      R2.solutionsCount = sample1Result2.solutionsCount ∧
      R2.stepsCount = sample1Result2.stepsCount)) :=
  ⟨by decide, by decide, by decide,
    finished_idempotent sample1After1 sample1Result2 sample1After2 (by decide) (by decide) 3⟩

/-- Witness for C8: the first call on size 4 tries `(0, 0)`, and `0 ≤ 0 ≤ (4 + 1) / 2 - 1`. -/
theorem row0_trial_column_bound_witness :
    (NQueensSolver.init 4).nextStep = some (sample4Result1, sample4After1) ∧
    sample4Result1.isFinished = false ∧ sample4Result1.trialPos.1 = 0 ∧
    (0 ≤ sample4Result1.trialPos.2 ∧ sample4Result1.trialPos.2 ≤ (4 + 1) / 2 - 1) :=
  ⟨by decide, by decide, by decide,
    row0_trial_column_bound 4 (by decide) (NQueensSolver.init 4) sample4Result1 sample4After1
      Reachable.init (by decide) (by decide) (by decide)⟩

/-- Counterexample to C10 as stated: construction with `N = 0` reports no error; it
yields a solver, and that solver answers `nextStep()` (with the terminal result). -/
theorem construct_zero_succeeds :
    (∀ e, NQueensSolver.construct 0 ≠ Except.error e) ∧
    ∃ s, NQueensSolver.construct 0 = Except.ok s ∧ s.nextStep = some (sample0Result, s) :=
  ⟨fun _ h => (by cases h), NQueensSolver.init 0, rfl, by decide⟩

/-! ## The cursor invariant -/

theorem cursorInv_init (n : Int) (hn : 1 ≤ n) : CursorInv n (NQueensSolver.init n) := by
  have hin : ∀ j : Int, 0 ≤ j → j < n →
      vecGet (List.replicate n.toNat (-1 : Int)) j 0 = -1 := by
    intro j h0 h1
    unfold vecGet
    rw [List.getD_eq_getElem?_getD, List.getElem?_replicate, if_pos (by omega)]
    rfl
  refine ⟨?_, ?_, ?_⟩
  · intro j h0 h1
    simp only [NQueensSolver.init] at h0 ⊢
    exact hin j (by omega) h1
  · intro _
    simp only [NQueensSolver.init]
    rw [hin 0 (by omega) (by omega)]
  · intro _
    simp only [NQueensSolver.init]
    omega

theorem cursorInv_popRow (n : Int) (s : NQueensSolver) (c : Int) (hb : BasicInv n s)
    (hinv : CursorInv n s) (ha : s.Active) : CursorInv n (s.popRow c) := by
  obtain ⟨h1, h2, -, -, -, h6, h7, h8, h9, h10⟩ := hb
  obtain ⟨c1, c2, c3⟩ := hinv
  unfold NQueensSolver.Active at ha
  have hlen : s.row.toNat < s.queens.length := by omega
  refine ⟨?_, ?_, ?_⟩
  · intro j hj0 hj1
    simp only [NQueensSolver.popRow] at hj0 ⊢
    by_cases hj : j = s.row
    · rw [hj]
      exact vecGet_vecSet_eq _ _ _ _ hlen
    · rw [vecGet_vecSet_ne _ _ _ _ _ ha.1 (by omega) (by omega)]
      exact c1 j (by omega) hj1
  · intro hr
    simp only [NQueensSolver.popRow] at hr ⊢
    rw [if_pos hr]
  · intro hr
    simp only [NQueensSolver.popRow] at hr ⊢
    rw [if_pos hr, vecGet_vecSet_ne _ _ _ _ _ ha.1 hr (by omega)]
    have hq := h9 (s.row - 1) hr (by omega)
    split
    · rename_i h0
      have := h10 (by omega)
      rw [h0] at hq ⊢
      omega
    · omega

theorem cursorInv_evalTrial (n : Int) (s : NQueensSolver) (c : Int) (hn : 1 ≤ n)
    (hb : BasicInv n s) (hinv : CursorInv n s) (ha : s.Active) (hc0 : s.col < c)
    (hc1 : c < s.limit) : CursorInv n (s.evalTrial c).2 := by
  obtain ⟨h1, h2, -, -, -, h6, h7, h8, h9, h10⟩ := hb
  obtain ⟨c1, c2, c3⟩ := hinv
  obtain ⟨-, -, -, -, -, e6, e7⟩ := evalTrial_shape s c ha
  have hlim := limit_eq n s hn h1
  unfold NQueensSolver.Active at ha
  have hlen : s.row.toNat < s.queens.length := by omega
  cases hcf : s.hasConflict s.row c with
  | true =>
    rw [e6 hcf]
    refine ⟨c1, ?_, ?_⟩
    · intro hr
      have := c2 hr
      simp only []
      omega
    · intro hr
      simp only []
      rw [← hlim]
      omega
  | false =>
    obtain ⟨q1, -, -, -, q5, q6⟩ := e7 hcf
    by_cases hlast : s.row = s.n - 1
    · obtain ⟨r1, r2⟩ := q5 hlast
      refine ⟨?_, ?_, ?_⟩
      · intro j hj0 hj1
        rw [r1] at hj0
        rw [q1, vecGet_vecSet_ne _ _ _ _ _ ha.1 (by omega) (by omega)]
        exact c1 j hj0 hj1
      · intro _
        rw [r1, r2, q1, vecGet_vecSet_eq _ _ _ _ hlen]
      · intro _
        rw [r1, r2, ← hlim]
        omega
    · obtain ⟨r1, r2⟩ := q6 hlast
      refine ⟨?_, ?_, ?_⟩
      · intro j hj0 hj1
        rw [r1] at hj0
        rw [q1, vecGet_vecSet_ne _ _ _ _ _ ha.1 (by omega) (by omega)]
        exact c1 j (by omega) hj1
      · intro _
        rw [r1, r2, q1, vecGet_vecSet_ne _ _ _ _ _ ha.1 (by omega) (by omega)]
        rw [c1 (s.row + 1) (by omega) (by omega)]
      · intro _
        rw [r1, r2]
        split <;> omega

/-- The cursor invariant is kept by every call. -/
theorem cursorInv_nextStep (n : Int) (hn : 1 ≤ n) (s : NQueensSolver)
    (r : SolverState × NQueensSolver) (h : s.nextStep = some r) (hb : BasicInv n s)
    (hinv : CursorInv n s) : CursorInv n r.2 := by
  refine nextStep_cases (fun s r => BasicInv n s → CursorInv n s → CursorInv n r.2)
    ?_ ?_ ?_ s r h hb hinv
  · intro s _ _ hi
    exact hi
  · intro s ha he hb hi
    have hc : s.col + 1 < s.limit := by
      unfold NQueensSolver.Exhausted at he
      omega
    exact cursorInv_evalTrial n s _ hn hb hi ha (by omega) hc
  · intro s r ha _ _ hP hb hi
    exact hP (basicInv_popRow n s _ hb ha (by have := hb.2.2.2.2.2.2.2.1; omega))
      (cursorInv_popRow n s _ hb hi ha)

theorem reachable_cursorInv (n : Int) (hn : 1 ≤ n) (s : NQueensSolver) (h : Reachable n s) :
    CursorInv n s := by
  induction h with
  | init => exact cursorInv_init n hn
  | step hr hs ih => exact cursorInv_nextStep n hn _ _ hs (reachable_basicInv n hn _ hr) ih

theorem cursorInv_popRows (n : Int) (s : NQueensSolver) (k : Nat) (hb : BasicInv n s)
    (hinv : CursorInv n s)
    (hk : ∀ i : Nat, i < k → (s.popRows i).Active ∧ (s.popRows i).Exhausted) :
    CursorInv n (s.popRows k) := by
  induction k with
  | zero => exact hinv
  | succ k ih =>
    have hi := ih (fun i hi => hk i (by omega))
    have hbk := basicInv_popRows n s k hb (fun i hi => hk i (by omega))
    rw [popRows_succ_right]
    exact cursorInv_popRow n _ _ hbk hi (hk k (by omega)).1

/-! ## What a call reads and writes on the board -/

/-- Pops of exhausted rows do not change what the call returns. -/
theorem nextStep_popRows (s : NQueensSolver) (k : Nat)
    (hk : ∀ i : Nat, i < k → (s.popRows i).Active ∧ (s.popRows i).Exhausted) :
    s.nextStep = (s.popRows k).nextStep := by
  induction k with
  | zero => rfl
  | succ k ih =>
    rw [ih (fun i hi => hk i (by omega)), popRows_succ_right]
    exact nextStep_of_exhausted _ (hk k (by omega)).1 (hk k (by omega)).2

/-- A trial is never evaluated in a row below the one the call starts in. -/
theorem trial_row_le (s : NQueensSolver) (r : SolverState × NQueensSolver)
    (h : s.nextStep = some r) (hnt : r.1.isFinished = false) : r.1.trialPos.1 ≤ s.row := by
  refine nextStep_cases (fun s r => r.1.isFinished = false → r.1.trialPos.1 ≤ s.row)
    ?_ ?_ ?_ s r h hnt
  · intro s _ hf
    simp [NQueensSolver.terminal] at hf
  · intro s ha _ _
    rw [(evalTrial_shape s (s.col + 1) ha).2.1]
  · intro s r _ _ _ hP hf
    have := hP hf
    simp only [NQueensSolver.popRow] at this
    omega

/-- The context of a non-terminal result of a run, with the cursor invariant. -/
theorem reachable_trial_cursor (n : Int) (hn : 1 ≤ n) (s : NQueensSolver) (R : SolverState)
    (s1 : NQueensSolver) (hreach : Reachable n s) (hstep : s.nextStep = some (R, s1))
    (hnt : R.isFinished = false) :
    ∃ t : NQueensSolver, BasicInv n t ∧ CursorInv n t ∧ (n ≤ 31 → RunInv n t) ∧ t.Active ∧
      ¬ t.Exhausted ∧ (R, s1) = t.evalTrial (t.col + 1) := by
  obtain ⟨k, hk1, ha, he, hr⟩ := trial_of_result s R s1 hstep hnt
  have hb0 := reachable_basicInv n hn s hreach
  refine ⟨s.popRows k, basicInv_popRows n s k hb0 hk1,
    cursorInv_popRows n s k hb0 (reachable_cursorInv n hn s hreach) hk1, ?_, ha, he, hr⟩
  intro hn31
  exact runInv_popRows n s k (reachable_runInv n hn hn31 s hreach) hk1

/-- C11: after every `nextStep()` call (terminal or not, solution or not),
`getSolutionsCount()` equals the `solutionsCount` field and `getStepsCount()` equals the
`stepsCount` field of the result that call just returned. -/
theorem accessors_agree_with_result (s : NQueensSolver) :
    ∃ R s1, s.nextStep = some (R, s1) ∧
      s1.getSolutionsCount = R.solutionsCount ∧ s1.getStepsCount = R.stepsCount := by
  obtain ⟨⟨R, s1⟩, hstep⟩ := nextStep_total s
  obtain ⟨-, c2, c3, -, -⟩ := nextStep_counterFacts s (R, s1) hstep
  exact ⟨R, s1, hstep, c3, c2⟩

/-- C16: for every `N ≥ 1` and every non-terminal result of a run started from
`NQueensSolver(N)`, with trial position `(r, c)`: `result.queens[r] != c` (the snapshot is
the board before the trial is accepted); if `hasConflict` is false the solver's `queens`
after the call equal `result.queens` with entry `r` replaced by `c`, and if `hasConflict`
is true they equal `result.queens`. -/
theorem snapshot_before_acceptance (n : Int) (hn : 1 ≤ n) (s : NQueensSolver)
    (R : SolverState) (s1 : NQueensSolver) (hreach : Reachable n s)
    (hstep : s.nextStep = some (R, s1)) (hnt : R.isFinished = false) :
    vecGet R.queens R.trialPos.1 0 ≠ R.trialPos.2 ∧
    (R.hasConflict = some false → s1.queens = vecSet R.queens R.trialPos.1 R.trialPos.2) ∧
    (R.hasConflict = some true → s1.queens = R.queens) := by
  obtain ⟨t, hb, hc, -, ha, he, hr⟩ := reachable_trial_cursor n hn s R s1 hreach hstep hnt
  obtain ⟨e1, e2, e3, -, -, e6, e7⟩ := evalTrial_shape t (t.col + 1) ha
  have hR : R = (t.evalTrial (t.col + 1)).1 := congrArg Prod.fst hr
  have hS : s1 = (t.evalTrial (t.col + 1)).2 := congrArg Prod.snd hr
  have ha1 := ha
  unfold NQueensSolver.Active at ha1
  rw [hR, hS, e1, e2, e3]
  refine ⟨?_, ?_, ?_⟩
  · have := hc.2.1 ha1.1
    simp only []
    omega
  · intro hcf
    exact (e7 (Option.some.inj hcf)).1
  · intro hcf
    rw [e6 (Option.some.inj hcf)]

/-- C19: for `1 ≤ N ≤ 31` and every result of a run started from `NQueensSolver(N)` with
`solutionFound == true`, the trial position is `(N - 1, c)` with `0 ≤ c < N`, and the
queens in rows `0 .. N-2` of `result.queens` together with a queen at `(N - 1, c)` form a
complete valid `N`-queens placement. -/
theorem reported_solution_is_valid (n : Int) (hn : 1 ≤ n) (hn31 : n ≤ 31) (s : NQueensSolver)
    (R : SolverState) (s1 : NQueensSolver) (hreach : Reachable n s)
    (hstep : s.nextStep = some (R, s1)) (hsol : R.solutionFound = some true) :
    R.trialPos.1 = n - 1 ∧ 0 ≤ R.trialPos.2 ∧ R.trialPos.2 < n ∧
    ValidBoard n (vecSet R.queens (n - 1) R.trialPos.2) := by
  have hnt : R.isFinished = false := by
    obtain ⟨-, -, -, -, c5⟩ := nextStep_counterFacts s (R, s1) hstep
    rcases c5 with ⟨-, -, -, c6, -⟩ | ⟨c7, -⟩
    · simp only [] at c6
      rw [c6] at hsol
      exact absurd hsol (by decide)
    · exact c7
  obtain ⟨t, hb, hrun, ha, he, -, -, hr⟩ := reachable_trial n hn s R s1 hreach hstep hnt
  obtain ⟨e1, e2, -, -, -, -, -⟩ := evalTrial_shape t (t.col + 1) ha
  have hR : R = (t.evalTrial (t.col + 1)).1 := congrArg Prod.fst hr
  rw [hR] at hsol
  obtain ⟨v1, v2, v3, v4, v5⟩ := validBoard_of_solution n hn hn31 t (hrun hn31) ha he hsol
  rw [hR, e1, e2]
  simp only []
  rw [← v4]
  exact ⟨v1, v2, v3, v5⟩

/-- C20: for `1 ≤ N ≤ 31` and every state of a run started from `NQueensSolver(N)`, in
particular every state with `0 ≤ row < N`: `row < N`, every row `j < row` holds an
accepted queen with `0 ≤ queens[j] < N` (and `queens[0] < (N + 1) / 2`), these queens are
pairwise non-attacking, and every row `j > row` holds the sentinel `-1`. -/
theorem partial_placement_invariant (n : Int) (hn : 1 ≤ n) (hn31 : n ≤ 31)
    (s : NQueensSolver) (hreach : Reachable n s) :
    -1 ≤ s.row ∧ s.row < n ∧
    (∀ j : Int, 0 ≤ j → j < s.row → 0 ≤ vecGet s.queens j 0 ∧ vecGet s.queens j 0 < n) ∧
    (0 < s.row → vecGet s.queens 0 0 < (n + 1) / 2) ∧
    (∀ i j : Int, 0 ≤ i → i < j → j < s.row →
      NoAttack i (vecGet s.queens i 0) j (vecGet s.queens j 0)) ∧
    (∀ j : Int, s.row < j → j < n → vecGet s.queens j 0 = -1) := by
  obtain ⟨hb, -, hsafe⟩ := reachable_runInv n hn hn31 s hreach
  have hc := reachable_cursorInv n hn s hreach
  exact ⟨hb.2.2.2.2.2.1, hb.2.2.2.2.2.2.1, hb.2.2.2.2.2.2.2.2.1, hb.2.2.2.2.2.2.2.2.2, hsafe,
    hc.1⟩

/-- C15: in a run started from `NQueensSolver(N)`, `N ≥ 1`, whenever the loop of
`nextStep()` stands on an exhausted row `r` (the call started on `s`, popped `k ≥ 0`
exhausted rows and reached `t`, again active and exhausted), the trial column has reached
the limit of the row exactly. If `r ≥ 1` (limit `N`), the pop sets `queens[r]` to `-1`
and moves to row `r - 1` with the trial column reloaded from `queens[r-1] = c'`; when
`c' + 1` is below the limit of row `r - 1` the call returns the trial at `(r - 1, c' + 1)`,
and whatever the call returns, a trial in row `r - 1` is at column `c' + 1`, never at a
column `≤ c'`. If `r = 0`, `row` becomes `-1` and the call returns `isFinished == true`. -/
theorem backtrack_resumes_past_column (n : Int) (hn : 1 ≤ n) (s : NQueensSolver) (k : Nat)
    (hreach : Reachable n s)
    (hk : ∀ i : Nat, i < k → (s.popRows i).Active ∧ (s.popRows i).Exhausted)
    (ha : (s.popRows k).Active) (he : (s.popRows k).Exhausted) :
    (s.popRows k).col + 1 = (s.popRows k).limit ∧
    s.nextStep = ((s.popRows k).popRow ((s.popRows k).col + 1)).nextStep ∧
    (1 ≤ (s.popRows k).row →
      (s.popRows k).col + 1 = n ∧
      ((s.popRows k).popRow ((s.popRows k).col + 1)).queens
        = vecSet (s.popRows k).queens (s.popRows k).row (-1) ∧
      vecGet ((s.popRows k).popRow ((s.popRows k).col + 1)).queens (s.popRows k).row 0 = -1 ∧
      ((s.popRows k).popRow ((s.popRows k).col + 1)).row = (s.popRows k).row - 1 ∧
      ((s.popRows k).popRow ((s.popRows k).col + 1)).col
        = vecGet (s.popRows k).queens ((s.popRows k).row - 1) 0 ∧
      (¬ ((s.popRows k).popRow ((s.popRows k).col + 1)).Exhausted →
        ∃ R s1, s.nextStep = some (R, s1) ∧ R.isFinished = false ∧
          R.trialPos = ((s.popRows k).row - 1,
            vecGet (s.popRows k).queens ((s.popRows k).row - 1) 0 + 1)) ∧
      (∀ R s1, s.nextStep = some (R, s1) → R.isFinished = false →
        R.trialPos.1 = (s.popRows k).row - 1 →
        R.trialPos.2 = vecGet (s.popRows k).queens ((s.popRows k).row - 1) 0 + 1)) ∧
    ((s.popRows k).row = 0 →
      ((s.popRows k).popRow ((s.popRows k).col + 1)).row = -1 ∧
      ∃ R s1, s.nextStep = some (R, s1) ∧ R.isFinished = true ∧ s1.row = -1) := by
  have hb0 := reachable_basicInv n hn s hreach
  have hb := basicInv_popRows n s k hb0 hk
  have hc := cursorInv_popRows n s k hb0 (reachable_cursorInv n hn s hreach) hk
  have hchain : s.nextStep = ((s.popRows k).popRow ((s.popRows k).col + 1)).nextStep := by
    rw [nextStep_popRows s k hk]
    exact nextStep_of_exhausted _ ha he
  generalize s.popRows k = t at ha he hb hc hchain
  obtain ⟨h1, h2, -, -, -, h6, h7, h8, h9, h10⟩ := hb
  have hlim := limit_eq n t hn h1
  have ha1 := ha
  unfold NQueensSolver.Active at ha1
  have he1 := he
  unfold NQueensSolver.Exhausted at he1
  have hc3 := hc.2.2 ha1.1
  have hcol : t.col + 1 = t.limit := by
    rw [hlim] at he1 ⊢
    split at hc3 <;> simp_all <;> omega
  have hq : vecGet (vecSet t.queens t.row (-1)) (t.row - 1) 0 = vecGet t.queens (t.row - 1) 0 ∨
      t.row - 1 < 0 := by
    by_cases hr : 0 ≤ t.row - 1
    · exact Or.inl (vecGet_vecSet_ne _ _ _ _ _ ha1.1 hr (by omega))
    · exact Or.inr (by omega)
  refine ⟨hcol, hchain, ?_, ?_⟩
  · intro hr
    have hq1 : vecGet (vecSet t.queens t.row (-1)) (t.row - 1) 0 = vecGet t.queens (t.row - 1) 0 := by
      rcases hq with hq | hq
      · exact hq
      · omega
    have hpcol : (t.popRow (t.col + 1)).col = vecGet t.queens (t.row - 1) 0 := by
      simp only [NQueensSolver.popRow]
      rw [if_pos (by omega), hq1]
    have hprow : (t.popRow (t.col + 1)).row = t.row - 1 := rfl
    have hpact : (t.popRow (t.col + 1)).Active := by
      unfold NQueensSolver.Active
      rw [hprow]
      have : (t.popRow (t.col + 1)).n = t.n := rfl
      rw [this]
      omega
    refine ⟨?_, rfl, ?_, hprow, hpcol, ?_, ?_⟩
    · rw [hcol, hlim, if_neg (by omega)]
    · exact vecGet_vecSet_eq _ _ _ _ (by omega)
    · intro hne
      have hsh := evalTrial_shape (t.popRow (t.col + 1)) ((t.popRow (t.col + 1)).col + 1) hpact
      refine ⟨((t.popRow (t.col + 1)).evalTrial ((t.popRow (t.col + 1)).col + 1)).1,
        ((t.popRow (t.col + 1)).evalTrial ((t.popRow (t.col + 1)).col + 1)).2,
        hchain.trans (nextStep_of_trial _ hpact hne), hsh.2.2.2.1, ?_⟩
      rw [hsh.2.1, hprow, hpcol]
    · intro R s1 hstep hnt hrow
      rw [hchain] at hstep
      by_cases hne : (t.popRow (t.col + 1)).Exhausted
      · rw [nextStep_of_exhausted _ hpact hne] at hstep
        have := trial_row_le _ (R, s1) hstep hnt
        simp only [NQueensSolver.popRow] at this
        omega
      · have hsh := evalTrial_shape (t.popRow (t.col + 1)) ((t.popRow (t.col + 1)).col + 1) hpact
        rw [nextStep_of_trial _ hpact hne] at hstep
        have hR : (t.popRow (t.col + 1)).evalTrial ((t.popRow (t.col + 1)).col + 1) = (R, s1) :=
          Option.some.inj hstep
        have hR1 : R = ((t.popRow (t.col + 1)).evalTrial ((t.popRow (t.col + 1)).col + 1)).1 := by
          rw [hR]
        rw [hR1, hsh.2.1, hpcol]
  · intro hr
    have hprow : (t.popRow (t.col + 1)).row = -1 := by
      simp only [NQueensSolver.popRow]
      omega
    have hna : ¬ (t.popRow (t.col + 1)).Active := by
      unfold NQueensSolver.Active
      rw [hprow]
      omega
    exact ⟨hprow, _, _, hchain.trans (nextStep_of_not_active _ hna), rfl, hprow⟩

/-! ## Mirror symmetry of complete boards -/

theorem mem_range_of_validBoard (n : Int) (q : List Int) (hv : ValidBoard n q) (x : Int)
    (hx : x ∈ q) : 0 ≤ x ∧ x < n := by
  obtain ⟨i, hi, rfl⟩ := List.getElem_of_mem hx
  have := hv.2.1 i hi
  rw [List.getD_eq_getElem _ _ hi] at this
  exact this

/-- Mirroring twice gives the board back. -/
theorem mirror_mirror (n : Int) (q : List Int) (hv : ValidBoard n q) :
    UI.mirrorQueens n (UI.mirrorQueens n q) = q := by
  unfold UI.mirrorQueens
  rw [List.map_map]
  conv_rhs => rw [← List.map_id q]
  apply List.map_congr_left
  intro x hx
  have := mem_range_of_validBoard n q hv x hx
  simp only [Function.comp, id]
  rw [if_pos (by omega), if_pos (by omega)]
  omega

theorem getD_zero_mirror (n : Int) (q : List Int) (hn : 1 ≤ n) (hv : ValidBoard n q) :
    (UI.mirrorQueens n q).getD 0 0 = n - 1 - q.getD 0 0 := by
  have h0 : 0 < q.length := by
    rw [hv.1]
    omega
  rw [getD_mirrorQueens n q 0 h0, if_pos]
  have := (hv.2.1 0 h0).1
  omega

/-- C17: for every `N ≥ 1` and every complete valid `N`-queens board `q`, the mirrored
board `m[r] = N - 1 - q[r]` (as computed by `saveSnapshot`) is again a complete valid
board, its first-row column is `N - 1 - q[0]`, and mirroring it gives `q` back; hence
every solution whose first queen is at a column `≥ (N + 1) / 2` is the mirror of a
solution whose first queen is at a column `< (N + 1) / 2`. -/
theorem mirror_symmetry (n : Int) (q : List Int) (hn : 1 ≤ n) (hv : ValidBoard n q) :
    ValidBoard n (UI.mirrorQueens n q) ∧
    (∀ r : Nat, r < q.length → (UI.mirrorQueens n q).getD r 0 = n - 1 - q.getD r 0) ∧
    (UI.mirrorQueens n q).getD 0 0 = n - 1 - q.getD 0 0 ∧
    UI.mirrorQueens n (UI.mirrorQueens n q) = q ∧
    ((n + 1) / 2 ≤ q.getD 0 0 →
      ∃ b, ValidBoard n b ∧ b.getD 0 0 < (n + 1) / 2 ∧ UI.mirrorQueens n b = q) := by
  have hm := validBoard_mirror n q hv
  have h0 := getD_zero_mirror n q hn hv
  refine ⟨hm, ?_, h0, mirror_mirror n q hv, ?_⟩
  · intro r hr
    rw [getD_mirrorQueens n q r hr, if_pos]
    have := (hv.2.1 r hr).1
    omega
  · intro hright
    refine ⟨UI.mirrorQueens n q, hm, ?_, mirror_mirror n q hv⟩
    rw [h0]
    omega

/-- C18 (amended): for odd `N ≥ 1`, the mirror of a complete solution whose first-row
queen sits in the centre column `N / 2` is again a complete solution with its first-row
queen in the centre column (so the search of that column finds it on its own and no
mirror credit is due); it is the same board only for `N = 1`, and a different board for
every `N > 1`. -/
theorem centre_solution_mirror (n : Int) (q : List Int) (hn : 1 ≤ n) (hodd : n % 2 = 1)
    (hv : ValidBoard n q) (hc : q.getD 0 0 = n / 2) :
    ValidBoard n (UI.mirrorQueens n q) ∧ (UI.mirrorQueens n q).getD 0 0 = n / 2 ∧
    (1 < n → UI.mirrorQueens n q ≠ q) ∧ (n = 1 → UI.mirrorQueens n q = q) := by
  have hm := validBoard_mirror n q hv
  have h0 := getD_zero_mirror n q hn hv
  refine ⟨hm, by rw [h0, hc]; omega, ?_, ?_⟩
  · intro h1 heq
    have hlen : 1 < q.length := by
      rw [hv.1]
      omega
    have hm1 := getD_mirrorQueens n q 1 hlen
    rw [heq] at hm1
    have hr := hv.2.1 1 hlen
    rw [if_pos (by omega)] at hm1
    have hna := (hv.2.2 1 hlen 0 (by omega)).1
    apply hna
    rw [hc]
    omega
  · intro h1
    subst h1
    obtain ⟨hl, hr, -⟩ := hv
    match q, hl, hr with
    | [x], _, hr =>
      have := hr 0 (by simp)
      simp only [List.getD_cons_zero] at this
      have hx : x = 0 := by omega
      subst hx
      decide

set_option maxRecDepth 1000000 in
/-- Counterexample to C18 as stated: on size 5 call 105 reports the solution
`[2, 0, 3, 1, 4]`, first queen in the centre column `5 / 2 = 2`, without mirror credit;
its mirror is the different solution `[2, 4, 1, 3, 0]`, not the same board. -/
theorem centre_solution_not_self_mirror :
    (NQueensSolver.init 5).resultAt 104 = some sample5Result105 ∧
    sample5Result105.isSymmetricBase = false ∧
    vecSet sample5Result105.queens (5 - 1) sample5Result105.trialPos.2 = [2, 0, 3, 1, 4] ∧
    ValidBoard 5 [2, 0, 3, 1, 4] ∧ (5 : Int) % 2 = 1 ∧
    ([2, 0, 3, 1, 4] : List Int).getD 0 0 = 5 / 2 ∧
    UI.mirrorQueens 5 [2, 0, 3, 1, 4] = [2, 4, 1, 3, 0] ∧
    UI.mirrorQueens 5 [2, 0, 3, 1, 4] ≠ [2, 0, 3, 1, 4] := by
  decide

/-! ## The mask cache as a function of the board -/

theorem testBit_orUpTo (f : Nat → Nat) (r c : Nat) :
    (orUpTo f r).testBit c = true ↔ ∃ j : Nat, j < r ∧ (f j).testBit c = true := by
  induction r with
  | zero => simp [orUpTo]
  | succ r ih =>
    rw [orUpTo, Nat.testBit_or, Bool.or_eq_true, ih]
    constructor
    · rintro (⟨j, hj, h⟩ | h)
      · exact ⟨j, by omega, h⟩
      · exact ⟨r, by omega, h⟩
    · rintro ⟨j, hj, h⟩
      by_cases hjr : j = r
      · subst hjr
        exact Or.inr h
      · exact Or.inl ⟨j, by omega, h⟩

theorem zeroInv_init (n : Int) : ZeroInv (NQueensSolver.init n) := by
  have hz : ∀ k : Nat, vecGet (List.replicate k (0 : Nat)) 0 0 = 0 := by
    intro k
    cases k <;> simp [vecGet, List.replicate]
  exact ⟨hz _, hz _, hz _⟩

theorem zeroInv_nextStep (s : NQueensSolver) (r : SolverState × NQueensSolver)
    (h : s.nextStep = some r) (hz : ZeroInv s) : ZeroInv r.2 := by
  refine nextStep_cases (fun s r => ZeroInv s → ZeroInv r.2) ?_ ?_ ?_ s r h hz
  · intro s _ hi
    exact hi
  · intro s ha _ hi
    obtain ⟨-, -, -, -, -, e6, e7⟩ := evalTrial_shape s (s.col + 1) ha
    unfold NQueensSolver.Active at ha
    cases hcf : s.hasConflict s.row (s.col + 1) with
    | true =>
      rw [e6 hcf]
      exact hi
    | false =>
      obtain ⟨-, q2, q3, q4, -, -⟩ := e7 hcf
      unfold ZeroInv
      rw [q2, q3, q4, vecGet_vecSet_ne _ _ _ _ _ (by omega) (le_refl _) (by omega),
        vecGet_vecSet_ne _ _ _ _ _ (by omega) (le_refl _) (by omega),
        vecGet_vecSet_ne _ _ _ _ _ (by omega) (le_refl _) (by omega)]
      exact hi
  · intro s r _ _ _ hP hi
    exact hP hi

theorem reachable_zeroInv (n : Int) (s : NQueensSolver) (h : Reachable n s) : ZeroInv s := by
  induction h with
  | init => exact zeroInv_init n
  | step _ hs ih => exact zeroInv_nextStep _ _ hs ih

/-- C14: for `1 ≤ N ≤ 31`, in every state of a run started from `NQueensSolver(N)` and
for every `r` with `0 ≤ r ≤ row`, the three cached masks of row `r` are recomputable from
the queens in rows `0 .. r-1`: `history_col[r]` is the OR over `j < r` of
`1 << queens[j]`, `history_ld[r]` the OR of these bits shifted left by `r - j` (inside the
32-bit word) and `history_rd[r]` the OR of these bits shifted right by `r - j`; and the
three masks at index `0` are always `0`. -/
theorem mask_cache_recomputable (n : Int) (hn : 1 ≤ n) (hn31 : n ≤ 31) (s : NQueensSolver)
    (hreach : Reachable n s) :
    (∀ r : Nat, (r : Int) ≤ s.row →
      vecGet s.history_col r 0 = colMaskOf s.queens r ∧
      vecGet s.history_ld r 0 = ldMaskOf s.queens r ∧
      vecGet s.history_rd r 0 = rdMaskOf s.queens r) ∧
    (vecGet s.history_col 0 0 = 0 ∧ vecGet s.history_ld 0 0 = 0 ∧
      vecGet s.history_rd 0 0 = 0) := by
  refine ⟨?_, reachable_zeroInv n s hreach⟩
  obtain ⟨hb, hmask, -⟩ := reachable_runInv n hn hn31 s hreach
  have h9 := hb.2.2.2.2.2.2.2.2.1
  intro r hr
  have hm := hmask r (by omega) hr
  have hq : ∀ j : Nat, j < r → 0 ≤ s.queens.getD j 0 ∧ s.queens.getD j 0 < 32 := by
    intro j hj
    have := h9 j (by omega) (by omega)
    rw [vecGet_natCast] at this
    omega
  refine ⟨?_, ?_, ?_⟩
  · apply Nat.eq_of_testBit_eq
    intro c
    rw [Bool.eq_iff_iff, (hm c).1, colMaskOf, testBit_orUpTo]
    unfold ColSeen
    constructor
    · rintro ⟨j, h0, h1, h2⟩
      obtain ⟨j, rfl⟩ := Int.eq_ofNat_of_zero_le h0
      refine ⟨j, by omega, ?_⟩
      rw [testBit_bitOf _ (hq j (by omega)).1 (hq j (by omega)).2, decide_eq_true_eq,
        ← vecGet_natCast, h2]
    · rintro ⟨j, hj, h⟩
      rw [testBit_bitOf _ (hq j hj).1 (hq j hj).2, decide_eq_true_eq] at h
      exact ⟨j, by omega, by omega, by rw [vecGet_natCast, h]⟩
  · apply Nat.eq_of_testBit_eq
    intro c
    rw [Bool.eq_iff_iff, (hm c).2.1, ldMaskOf, testBit_orUpTo]
    unfold LdSeen wordBits
    constructor
    · rintro ⟨hc, j, h0, h1, h2⟩
      obtain ⟨j, rfl⟩ := Int.eq_ofNat_of_zero_le h0
      refine ⟨j, by omega, ?_⟩
      rw [vecGet_natCast] at h2
      rw [Nat.testBit_mod_two_pow, Nat.testBit_shiftLeft,
        testBit_bitOf _ (hq j (by omega)).1 (hq j (by omega)).2]
      simp only [Bool.and_eq_true, decide_eq_true_eq]
      have := (hq j (by omega)).1
      exact ⟨hc, by omega, by omega⟩
    · rintro ⟨j, hj, h⟩
      rw [Nat.testBit_mod_two_pow, Nat.testBit_shiftLeft,
        testBit_bitOf _ (hq j hj).1 (hq j hj).2] at h
      simp only [Bool.and_eq_true, decide_eq_true_eq] at h
      obtain ⟨hc, hge, he⟩ := h
      exact ⟨hc, j, by omega, by omega, by rw [vecGet_natCast]; omega⟩
  · apply Nat.eq_of_testBit_eq
    intro c
    rw [Bool.eq_iff_iff, (hm c).2.2, rdMaskOf, testBit_orUpTo]
    unfold RdSeen
    constructor
    · rintro ⟨j, h0, h1, h2⟩
      obtain ⟨j, rfl⟩ := Int.eq_ofNat_of_zero_le h0
      refine ⟨j, by omega, ?_⟩
      rw [vecGet_natCast] at h2
      rw [Nat.testBit_shiftRight, testBit_bitOf _ (hq j (by omega)).1 (hq j (by omega)).2,
        decide_eq_true_eq]
      omega
    · rintro ⟨j, hj, h⟩
      rw [Nat.testBit_shiftRight, testBit_bitOf _ (hq j hj).1 (hq j hj).2,
        decide_eq_true_eq] at h
      exact ⟨j, by omega, by omega, by rw [vecGet_natCast]; omega⟩

/-! ## Passes through the loop body, across calls -/

theorem passes_succ_right (m : Nat) : ∀ s : NQueensSolver,
    s.passes (m + 1) = (s.passes m).loopPass := by
  induction m with
  | zero => intro s; rfl
  | succ m ih =>
    intro s
    rw [NQueensSolver.passes, ih]
    rfl

theorem passes_add (a : Nat) : ∀ (b : Nat) (s : NQueensSolver),
    s.passes (a + b) = (s.passes a).passes b := by
  induction a with
  | zero => intro b s; simp [NQueensSolver.passes]
  | succ a ih =>
    intro b s
    have : a + 1 + b = (a + b) + 1 := by omega
    rw [this, NQueensSolver.passes, ih, NQueensSolver.passes]

theorem loopPass_of_not_active (s : NQueensSolver) (h : ¬ s.Active) : s.loopPass = s := by
  simp [NQueensSolver.loopPass, h]

theorem loopPass_of_exhausted (s : NQueensSolver) (h : s.Active) (he : s.Exhausted) :
    s.loopPass = s.popRow (s.col + 1) := by
  simp [NQueensSolver.loopPass, h, he]

theorem loopPass_of_trial (s : NQueensSolver) (h : s.Active) (he : ¬ s.Exhausted) :
    s.loopPass = (s.evalTrial (s.col + 1)).2 := by
  simp [NQueensSolver.loopPass, h, he]

theorem passes_of_not_active (m : Nat) : ∀ s : NQueensSolver, ¬ s.Active → s.passes m = s := by
  induction m with
  | zero => intro s _; rfl
  | succ m ih =>
    intro s h
    rw [NQueensSolver.passes, loopPass_of_not_active s h]
    exact ih s h

theorem passes_stable (s : NQueensSolver) (a b : Nat) (h : ¬ (s.passes a).Active)
    (hab : a ≤ b) : s.passes b = s.passes a := by
  obtain ⟨c, rfl⟩ : ∃ c, b = a + c := ⟨b - a, by omega⟩
  rw [passes_add, passes_of_not_active c _ h]

theorem passes_popRows (s : NQueensSolver) (k : Nat)
    (hk : ∀ i : Nat, i < k → (s.popRows i).Active ∧ (s.popRows i).Exhausted) :
    s.popRows k = s.passes k := by
  induction k with
  | zero => rfl
  | succ k ih =>
    have hi := ih (fun i hi => hk i (by omega))
    rw [popRows_succ_right, passes_succ_right, ← hi,
      loopPass_of_exhausted _ (hk k (by omega)).1 (hk k (by omega)).2]

theorem resultAt_succ (s : NQueensSolver) (R : SolverState) (s1 : NQueensSolver)
    (h : s.nextStep = some (R, s1)) (k : Nat) : s.resultAt (k + 1) = s1.resultAt k := by
  simp [NQueensSolver.resultAt, NQueensSolver.after, h]

/-- If some number of passes leaves the loop guard false, the calls of `nextStep` reach
that very state: the first terminal result is its terminal result. -/
theorem drain_of_passes (m : Nat) : ∀ s : NQueensSolver, ¬ (s.passes m).Active →
    ∃ k : Nat, s.drain (k + 1) = some (s.passes m).terminal ∧
      s.resultAt k = some (s.passes m).terminal ∧ s.after (k + 1) = some (s.passes m) := by
  induction m using Nat.strong_induction_on with
  | _ m ih =>
    intro s hfin
    obtain ⟨⟨R, s1⟩, hstep⟩ := nextStep_total s
    obtain ⟨j, hj1, hj2⟩ := nextStep_popsThenExit s (R, s1) hstep
    have hpj := passes_popRows s j hj1
    have hact : ∀ i : Nat, i < j → (s.passes i).Active := by
      intro i hi
      rw [← passes_popRows s i (fun i1 hi1 => hj1 i1 (by omega))]
      exact (hj1 i hi).1
    rcases hj2 with ⟨ha, he, hr⟩ | ⟨hna, hr⟩
    · have hR : R = ((s.popRows j).evalTrial ((s.popRows j).col + 1)).1 := congrArg Prod.fst hr
      have hS : s1 = ((s.popRows j).evalTrial ((s.popRows j).col + 1)).2 := congrArg Prod.snd hr
      have hnt : R.isFinished = false := by
        rw [hR]
        exact (evalTrial_shape _ _ ha).2.2.2.1
      have hs1 : s1 = s.passes (j + 1) := by
        rw [passes_succ_right, ← hpj, loopPass_of_trial _ ha he, hS]
      have hmj : j + 1 ≤ m := by
        by_contra hlt
        have hm : m ≤ j := by omega
        rcases Nat.lt_or_eq_of_le hm with hlt1 | heq
        · exact hfin (hact m hlt1)
        · rw [heq, ← hpj] at hfin
          exact hfin ha
      obtain ⟨c, hc⟩ : ∃ c, m = (j + 1) + c := ⟨m - (j + 1), by omega⟩
      have hm1 : s.passes m = s1.passes c := by
        rw [hc, passes_add, ← hs1]
      rw [hm1] at hfin ⊢
      obtain ⟨k, hk1, hk2, hk3⟩ := ih c (by omega) s1 hfin
      refine ⟨k + 1, ?_, ?_, ?_⟩
      · rw [NQueensSolver.drain]
        simp only [hstep, hnt]
        exact hk1
      · rw [resultAt_succ s R s1 hstep]
        exact hk2
      · rw [NQueensSolver.after]
        simp only [hstep, Option.some_bind]
        exact hk3
    · have hR : R = (s.popRows j).terminal := congrArg Prod.fst hr
      have hS : s1 = s.popRows j := congrArg Prod.snd hr
      have hjm : j ≤ m := by
        by_contra hlt
        exact hfin (hact m (by omega))
      have hm1 : s.passes m = s.popRows j := by
        rw [hpj] at hna ⊢
        exact passes_stable s j m hna hjm
      rw [hm1]
      refine ⟨0, ?_, ?_, ?_⟩
      · rw [NQueensSolver.drain]
        simp only [hstep, hR]
        simp [NQueensSolver.terminal]
      · simp [NQueensSolver.resultAt, NQueensSolver.after, hstep, hR]
      · simp [NQueensSolver.after, hstep, hS]

/-! ## Invariants along the passes -/

theorem basicInv_loopPass (n : Int) (hn : 1 ≤ n) (s : NQueensSolver) (hb : BasicInv n s) :
    BasicInv n s.loopPass := by
  have hcol := hb.2.2.2.2.2.2.2.1
  by_cases ha : s.Active
  · by_cases he : s.Exhausted
    · rw [loopPass_of_exhausted s ha he]
      exact basicInv_popRow n s _ hb ha (by omega)
    · rw [loopPass_of_trial s ha he]
      unfold NQueensSolver.Exhausted at he
      exact basicInv_evalTrial n s _ hn hb ha (by omega) (by omega)
  · rw [loopPass_of_not_active s ha]
    exact hb

theorem cursorInv_loopPass (n : Int) (hn : 1 ≤ n) (s : NQueensSolver) (hb : BasicInv n s)
    (hc : CursorInv n s) : CursorInv n s.loopPass := by
  by_cases ha : s.Active
  · by_cases he : s.Exhausted
    · rw [loopPass_of_exhausted s ha he]
      exact cursorInv_popRow n s _ hb hc ha
    · rw [loopPass_of_trial s ha he]
      unfold NQueensSolver.Exhausted at he
      exact cursorInv_evalTrial n s _ hn hb hc ha (by omega) (by omega)
  · rw [loopPass_of_not_active s ha]
    exact hc

theorem runInv_loopPass (n : Int) (hn : 1 ≤ n) (hn31 : n ≤ 31) (s : NQueensSolver)
    (hi : RunInv n s) : RunInv n s.loopPass := by
  have hcol := hi.1.2.2.2.2.2.2.2.1
  by_cases ha : s.Active
  · by_cases he : s.Exhausted
    · rw [loopPass_of_exhausted s ha he]
      exact ⟨basicInv_popRow n s _ hi.1 ha (by omega), maskInv_popRow s _ ha hi.2.1,
        safeInv_popRow s _ ha hi.2.2⟩
    · rw [loopPass_of_trial s ha he]
      unfold NQueensSolver.Exhausted at he
      exact ⟨basicInv_evalTrial n s _ hn hi.1 ha (by omega) (by omega),
        maskInv_evalTrial n s _ hn hn31 hi.1 ha hi.2.1 (by omega) (by omega),
        safeInv_evalTrial n s _ hn hn31 hi.1 ha hi.2.1 hi.2.2 (by omega) (by omega)⟩
  · rw [loopPass_of_not_active s ha]
    exact hi

theorem basicInv_passes (n : Int) (hn : 1 ≤ n) (m : Nat) : ∀ s : NQueensSolver,
    BasicInv n s → BasicInv n (s.passes m) := by
  induction m with
  | zero => intro s h; exact h
  | succ m ih => intro s h; exact ih _ (basicInv_loopPass n hn s h)

theorem cursorInv_passes (n : Int) (hn : 1 ≤ n) (m : Nat) : ∀ s : NQueensSolver,
    BasicInv n s → CursorInv n s → CursorInv n (s.passes m) := by
  induction m with
  | zero => intro s _ h; exact h
  | succ m ih =>
    intro s hb h
    exact ih _ (basicInv_loopPass n hn s hb) (cursorInv_loopPass n hn s hb h)

theorem runInv_passes (n : Int) (hn : 1 ≤ n) (hn31 : n ≤ 31) (m : Nat) :
    ∀ s : NQueensSolver, RunInv n s → RunInv n (s.passes m) := by
  induction m with
  | zero => intro s h; exact h
  | succ m ih => intro s h; exact ih _ (runInv_loopPass n hn hn31 s h)

/-! ## The trial and the counter of solutions -/

theorem evalTrial_solutionsFound_same (s : NQueensSolver) (c : Int)
    (h : s.hasConflict s.row c = true ∨ s.row ≠ s.n - 1) :
    (s.evalTrial c).2.solutionsFound = s.solutionsFound := by
  unfold NQueensSolver.evalTrial
  simp only []
  split_ifs <;> simp_all

theorem evalTrial_solutionsFound_last (s : NQueensSolver) (c : Int)
    (hcf : s.hasConflict s.row c = false) (hlast : s.row = s.n - 1) :
    (s.evalTrial c).2.solutionsFound = s.solutionsFound +
      (if s.n.tmod 2 ≠ 0 ∧ vecGet (vecSet s.queens s.row c) 0 0 = s.n.tdiv 2 then 1 else 2) := by
  unfold NQueensSolver.evalTrial
  simp only []
  split_ifs <;> simp_all

/-! ## Prefixes of a board and the search -/

theorem length_prefixOf (q : List Int) (r : Nat) : (prefixOf q r).length = r := by
  simp [prefixOf]

theorem getD_prefixOf (q : List Int) (r j : Nat) (h : j < r) :
    (prefixOf q r).getD j 0 = q.getD j 0 := by
  unfold prefixOf
  rw [List.getD_eq_getElem _ _ (by simpa using h)]
  simp

theorem prefixOf_succ (q : List Int) (r : Nat) :
    prefixOf q (r + 1) = prefixOf q r ++ [q.getD r 0] := by
  simp [prefixOf, List.range_succ]

theorem prefixOf_congr (q q1 : List Int) (r : Nat)
    (h : ∀ j : Nat, j < r → q1.getD j 0 = q.getD j 0) : prefixOf q1 r = prefixOf q r := by
  unfold prefixOf
  apply List.map_congr_left
  intro j hj
  exact h j (List.mem_range.1 hj)

theorem prefixOf_length (b : List Int) : prefixOf b b.length = b := by
  apply List.ext_getElem
  · exact length_prefixOf b b.length
  · intro i h1 h2
    have := getD_prefixOf b b.length i h2
    rw [List.getD_eq_getElem _ _ h1, List.getD_eq_getElem _ _ h2] at this
    exact this

theorem getD_vecSet_ne (q : List Int) (r j : Nat) (x : Int) (h : j ≠ r) :
    (vecSet q (r : Int) x).getD j 0 = q.getD j 0 := by
  rw [← vecGet_natCast, ← vecGet_natCast]
  exact vecGet_vecSet_ne _ _ _ _ _ (by omega) (by omega) (by omega)

theorem getD_vecSet_eq (q : List Int) (r : Nat) (x : Int) (h : r < q.length) :
    (vecSet q (r : Int) x).getD r 0 = x := by
  rw [← vecGet_natCast]
  exact vecGet_vecSet_eq _ _ _ _ (by simpa using h)

theorem safeAt_iff (p : List Int) (c : Int) :
    safeAt p c = true ↔ ∀ j : Nat, j < p.length → NoAttack j (p.getD j 0) p.length c := by
  simp [safeAt]

/-- The conflict test on the board against the safety test of the search. -/
theorem safeAt_prefix_iff (q : List Int) (r : Nat) (c : Int) :
    safeAt (prefixOf q r) c = true ↔ ¬ (ColSeen q r c ∨ LdSeen q r c ∨ RdSeen q r c) := by
  rw [safeAt_iff, length_prefixOf, attacked_iff]
  constructor
  · rintro h ⟨j, h0, h1, h2⟩
    obtain ⟨j, rfl⟩ := Int.eq_ofNat_of_zero_le h0
    have := h j (by omega)
    rw [getD_prefixOf q r j (by omega), ← vecGet_natCast] at this
    unfold NoAttack at this
    tauto
  · intro h j hj
    rw [getD_prefixOf q r j hj, ← vecGet_natCast]
    unfold NoAttack
    refine ⟨?_, ?_, ?_⟩
    · intro e
      exact h ⟨j, by omega, by omega, Or.inl e⟩
    · intro e
      exact h ⟨j, by omega, by omega, Or.inr (Or.inl e)⟩
    · intro e
      exact h ⟨j, by omega, by omega, Or.inr (Or.inr e)⟩

theorem rowCredit_zero (n d : Nat) (p : List Int) (c0 : Nat) : rowCredit n d p c0 0 = 0 := by
  simp [rowCredit]

theorem rowCredit_succ (n d : Nat) (p : List Int) (c0 k : Nat) :
    rowCredit n d p c0 (k + 1) =
      ((if safeAt p c0 then search n ((n + 1) / 2) d (p ++ [(c0 : Int)]) else []).map
        (credit n)).sum + rowCredit n d p (c0 + 1) k := by
  unfold rowCredit
  rw [List.range'_succ, List.flatMap_cons, List.map_append, List.sum_append]

theorem search_succ_credit (n d : Nat) (p : List Int) (hp : p.length ≠ 0) :
    ((search n ((n + 1) / 2) (d + 1) p).map (credit n)).sum = rowCredit n d p 0 n := by
  unfold rowCredit
  rw [search, rowLimit, if_neg hp, List.range_eq_range']

/-! ## The search done by the passes of one row -/

theorem limit_of_row (n : Int) (hn : 1 ≤ n) (s t : NQueensSolver) (hs : s.n = n) (ht : t.n = n)
    (hrow : t.row = s.row) : t.limit = s.limit := by
  rw [limit_eq n s hn hs, limit_eq n t hn ht, hrow]

/-- Started in row `r` with `k` columns left and `d` rows below, the passes try the
columns left, search below each accepted one, and pop the row: they end in row `r - 1`
with the rows above untouched, the column reloaded, and the credit of the boards met. -/
theorem subtree_credit (N : Nat) (hN : 1 ≤ N) (d : Nat) :
    ∀ (k : Nat) (s : NQueensSolver) (r c0 : Nat), BasicInv N s → CursorInv N s →
      s.row = r → s.col + 1 = c0 → r + d + 1 = N → ((c0 + k : Nat) : Int) = s.limit →
      ∃ m : Nat,
        (s.passes m).row = (r : Int) - 1 ∧
        (∀ j : Nat, j < r → (s.passes m).queens.getD j 0 = s.queens.getD j 0) ∧
        (1 ≤ r → (s.passes m).col = s.queens.getD (r - 1) 0) ∧
        (N ≤ 31 → MaskInv s → SafeInv s →
          (s.passes m).solutionsFound
            = s.solutionsFound + rowCredit N d (prefixOf s.queens r) c0 k) := by
  have hN1 : (1 : Int) ≤ (N : Int) := by omega
  induction d using Nat.strong_induction_on with
  | _ d ihd =>
  intro k
  induction k with
  | zero =>
    intro s r c0 hb hc hrow hcol hd hk
    have ha : s.Active := by
      unfold NQueensSolver.Active
      rw [hb.1, hrow]
      omega
    have he : s.Exhausted := Or.inl (by omega)
    refine ⟨1, ?_, ?_, ?_, ?_⟩
    · show s.loopPass.row = _
      rw [loopPass_of_exhausted s ha he]
      simp only [NQueensSolver.popRow, hrow]
    · intro j hj
      show s.loopPass.queens.getD j 0 = _
      rw [loopPass_of_exhausted s ha he]
      simp only [NQueensSolver.popRow, hrow]
      exact getD_vecSet_ne _ _ _ _ (by omega)
    · intro hr
      show s.loopPass.col = _
      rw [loopPass_of_exhausted s ha he]
      simp only [NQueensSolver.popRow, hrow]
      rw [if_pos (by omega)]
      have : ((r : Int) - 1) = ((r - 1 : Nat) : Int) := by omega
      rw [this, vecGet_natCast]
      exact getD_vecSet_ne _ _ _ _ (by omega)
    · intro _ _ _
      show s.loopPass.solutionsFound = _
      rw [loopPass_of_exhausted s ha he, rowCredit_zero]
      simp [NQueensSolver.popRow]
  | succ k ihk =>
    intro s r c0 hb hc hrow hcol hd hk
    have hsn := hb.1
    have ha : s.Active := by
      unfold NQueensSolver.Active
      rw [hsn, hrow]
      omega
    have hlim := limit_eq N s hN1 hsn
    have hltc : s.col + 1 < s.limit := by
      rw [← hk, hcol]
      push_cast
      omega
    have he : ¬ s.Exhausted := by
      unfold NQueensSolver.Exhausted
      rw [hsn]
      rw [hlim] at hltc ⊢
      split at hltc <;> omega
    have hc0 : 0 ≤ s.col + 1 := by omega
    have hlp : s.loopPass = (s.evalTrial (s.col + 1)).2 := loopPass_of_trial s ha he
    have hb2 : BasicInv N s.loopPass := basicInv_loopPass N hN1 s hb
    have hc2 : CursorInv N s.loopPass := cursorInv_loopPass N hN1 s hb hc
    have hs2n := hb2.1
    have hlen : r < s.queens.length := by
      rw [hb.2.1]
      omega
    have hlimN : s.limit ≤ N := limit_le N s hN1 hsn
    obtain ⟨-, -, -, -, -, e6, e7⟩ := evalTrial_shape s (s.col + 1) ha
    rw [← hlp] at e6 e7
    have hconf : (N ≤ 31 → MaskInv s →
        (s.hasConflict s.row (s.col + 1) = true ↔ ¬ safeAt (prefixOf s.queens r) c0 = true)) := by
      intro h31 hm
      have hmr : MaskAt s s.row := hm s.row (by omega) (le_refl _)
      rw [hasConflict_iff s (s.col + 1) hmr hc0 (by omega), hrow, hcol, safeAt_prefix_iff]
      tauto
    cases hcf : s.hasConflict s.row (s.col + 1) with
    | true =>
      have h2 := e6 hcf
      have hrow2 : s.loopPass.row = r := by rw [h2]; exact hrow
      have hcol2 : s.loopPass.col + 1 = ((c0 + 1 : Nat) : Int) := by
        rw [h2]
        push_cast
        omega
      have hq2 : s.loopPass.queens = s.queens := by rw [h2]
      have hsf2 : s.loopPass.solutionsFound = s.solutionsFound := by rw [h2]
      have hlim2 : s.loopPass.limit = s.limit :=
        limit_of_row N hN1 s _ hsn hs2n (by rw [hrow2, hrow])
      obtain ⟨m, g1, g2, g3, g4⟩ := ihk s.loopPass r (c0 + 1) hb2 hc2 hrow2 hcol2 hd
        (by rw [hlim2, ← hk]; push_cast; omega)
      refine ⟨m + 1, g1, ?_, ?_, ?_⟩
      · intro j hj
        show (s.loopPass.passes m).queens.getD j 0 = _
        rw [g2 j hj, hq2]
      · intro hr
        show (s.loopPass.passes m).col = _
        rw [g3 hr, hq2]
      · intro h31 hm hs
        have hrun2 := runInv_loopPass N hN1 (by omega) s ⟨hb, hm, hs⟩
        show (s.loopPass.passes m).solutionsFound = _
        rw [g4 h31 hrun2.2.1 hrun2.2.2, hsf2, hq2, rowCredit_succ]
        have hns : ¬ safeAt (prefixOf s.queens r) c0 = true := (hconf h31 hm).1 hcf
        rw [if_neg hns]
        simp
    | false =>
      obtain ⟨q1, -, -, -, q5, q6⟩ := e7 hcf
      have hsafe : N ≤ 31 → MaskInv s → safeAt (prefixOf s.queens r) c0 = true := by
        intro h31 hm
        by_contra hns
        have := (hconf h31 hm).2 hns
        rw [hcf] at this
        exact absurd this (by decide)
      have hq2 : ∀ j : Nat, j < r → s.loopPass.queens.getD j 0 = s.queens.getD j 0 := by
        intro j hj
        rw [q1, hrow]
        exact getD_vecSet_ne _ _ _ _ (by omega)
      have hq2r : s.loopPass.queens.getD r 0 = (c0 : Int) := by
        rw [q1, hrow, getD_vecSet_eq _ _ _ hlen, hcol]
      by_cases hlast : s.row = s.n - 1
      · obtain ⟨r1, r2⟩ := q5 hlast
        have hd0 : d = 0 := by
          rw [hsn, hrow] at hlast
          omega
        have hrow2 : s.loopPass.row = r := by rw [r1, hrow]
        have hcol2 : s.loopPass.col + 1 = ((c0 + 1 : Nat) : Int) := by
          rw [r2]
          push_cast
          omega
        have hlim2 : s.loopPass.limit = s.limit :=
          limit_of_row N hN1 s _ hsn hs2n (by rw [hrow2, hrow])
        obtain ⟨m, g1, g2, g3, g4⟩ := ihk s.loopPass r (c0 + 1) hb2 hc2 hrow2 hcol2 hd
          (by rw [hlim2, ← hk]; push_cast; omega)
        refine ⟨m + 1, g1, ?_, ?_, ?_⟩
        · intro j hj
          show (s.loopPass.passes m).queens.getD j 0 = _
          rw [g2 j hj, hq2 j hj]
        · intro hr
          show (s.loopPass.passes m).col = _
          rw [g3 hr, hq2 (r - 1) (by omega)]
        · intro h31 hm hs
          have hrun2 := runInv_loopPass N hN1 (by omega) s ⟨hb, hm, hs⟩
          show (s.loopPass.passes m).solutionsFound = _
          rw [g4 h31 hrun2.2.1 hrun2.2.2, prefixOf_congr _ _ r hq2, rowCredit_succ,
            if_pos (hsafe h31 hm), hlp, evalTrial_solutionsFound_last s _ hcf hlast, hd0]
          have hcred : (if s.n.tmod 2 ≠ 0 ∧
              vecGet (vecSet s.queens s.row (s.col + 1)) 0 0 = s.n.tdiv 2 then (1 : Int) else 2)
              = credit N (prefixOf s.queens r ++ [(c0 : Int)]) := by
            have hfirst : vecGet (vecSet s.queens s.row (s.col + 1)) 0 0
                = (prefixOf s.queens r ++ [(c0 : Int)]).getD 0 0 := by
              have hv : vecGet (vecSet s.queens s.row (s.col + 1)) 0 0
                  = (vecSet s.queens s.row (s.col + 1)).getD 0 0 := vecGet_natCast _ 0
              rw [hv, hrow]
              by_cases hr0 : r = 0
              · subst hr0
                rw [getD_vecSet_eq _ _ _ hlen, hcol]
                simp [prefixOf]
              · rw [getD_vecSet_ne _ _ _ _ (by omega),
                  List.getD_append _ _ _ _ (by rw [length_prefixOf]; omega),
                  getD_prefixOf _ _ _ (by omega)]
            rw [hfirst, hsn, Int.tmod_eq_emod (by omega) (by decide),
              Int.tdiv_eq_ediv (by omega) (by decide)]
            unfold credit
            have hodd : (N : Int) % 2 ≠ 0 ↔ (N : Int) % 2 = 1 := by omega
            by_cases hcen : (N : Int) % 2 = 1 ∧
                (prefixOf s.queens r ++ [(c0 : Int)]).getD 0 0 = (N : Int) / 2
            · rw [if_pos hcen, if_pos ⟨hodd.2 hcen.1, hcen.2⟩]
            · rw [if_neg hcen, if_neg (fun h => hcen ⟨hodd.1 h.1, h.2⟩)]
          rw [hcred]
          simp [search]
          omega
      · obtain ⟨r1, r2⟩ := q6 hlast
        obtain ⟨d1, hd1⟩ : ∃ d1, d = d1 + 1 := by
          rw [hsn, hrow] at hlast
          exact ⟨d - 1, by omega⟩
        have hrow2 : s.loopPass.row = ((r + 1 : Nat) : Int) := by
          rw [r1, hrow]
          push_cast
          rfl
        have hcol2 : s.loopPass.col + 1 = ((0 : Nat) : Int) := by
          rw [r2]
          rfl
        have hlim2 : ((0 + N : Nat) : Int) = s.loopPass.limit := by
          rw [limit_eq N _ hN1 hs2n, hrow2, if_neg (by omega)]
          simp
        obtain ⟨m1, f1, f2, f3, f4⟩ := ihd d1 (by omega) N s.loopPass (r + 1) 0 hb2 hc2 hrow2
          hcol2 (by omega) hlim2
        have hb3 := basicInv_passes N hN1 m1 _ hb2
        have hc3 := cursorInv_passes N hN1 m1 _ hb2 hc2
        have hrow3 : (s.loopPass.passes m1).row = r := by
          rw [f1]
          push_cast
          omega
        have hcol3 : (s.loopPass.passes m1).col + 1 = ((c0 + 1 : Nat) : Int) := by
          rw [f3 (by omega)]
          have : r + 1 - 1 = r := by omega
          rw [this, hq2r]
          push_cast
          rfl
        have hlim3 : (s.loopPass.passes m1).limit = s.limit :=
          limit_of_row N hN1 s _ hsn hb3.1 (by rw [hrow3, hrow])
        have hq3 : ∀ j : Nat, j < r →
            (s.loopPass.passes m1).queens.getD j 0 = s.queens.getD j 0 := by
          intro j hj
          rw [f2 j (by omega), hq2 j hj]
        obtain ⟨m2, g1, g2, g3, g4⟩ := ihk (s.loopPass.passes m1) r (c0 + 1) hb3 hc3 hrow3
          hcol3 hd (by rw [hlim3, ← hk]; push_cast; omega)
        have hpass : s.passes ((m1 + m2) + 1) = (s.loopPass.passes m1).passes m2 := by
          rw [NQueensSolver.passes, passes_add]
        refine ⟨(m1 + m2) + 1, by rw [hpass]; exact g1, ?_, ?_, ?_⟩
        · intro j hj
          rw [hpass, g2 j hj, hq3 j hj]
        · intro hr
          rw [hpass, g3 hr, hq3 (r - 1) (by omega)]
        · intro h31 hm hs
          have hrun2 := runInv_loopPass N hN1 (by omega) s ⟨hb, hm, hs⟩
          have hrun3 := runInv_passes N hN1 (by omega) m1 _ hrun2
          rw [hpass, g4 h31 hrun3.2.1 hrun3.2.2, f4 h31 hrun2.2.1 hrun2.2.2,
            prefixOf_congr _ _ r hq3, rowCredit_succ, if_pos (hsafe h31 hm), hlp,
            evalTrial_solutionsFound_same s _ (Or.inr hlast), ← hlp, prefixOf_succ, hq2r,
            prefixOf_congr _ _ r hq2, hd1,
            search_succ_credit N d1 _ (by rw [List.length_append, length_prefixOf]; simp)]
          omega

/-! ## The whole search -/

theorem halfSolutions_credit (N : Nat) (hN : 1 ≤ N) :
    rowCredit N (N - 1) [] 0 ((N + 1) / 2) = ((halfSolutions N).map (credit N)).sum := by
  obtain ⟨d, rfl⟩ : ∃ d, N = d + 1 := ⟨N - 1, by omega⟩
  unfold rowCredit halfSolutions
  rw [search, rowLimit, List.range_eq_range']
  simp

/-- The passes of a fresh solver leave the loop for good, in row `-1`, with the credit of
the boards of the pruned search. -/
theorem passes_of_init (N : Nat) (hN : 1 ≤ N) :
    ∃ m : Nat, ((NQueensSolver.init N).passes m).row = -1 ∧
      (N ≤ 31 → ((NQueensSolver.init N).passes m).solutionsFound
        = ((halfSolutions N).map (credit N)).sum) := by
  have hN1 : (1 : Int) ≤ (N : Int) := by omega
  have hlim : (((0 + (N + 1) / 2 : Nat)) : Int) = (NQueensSolver.init (N : Int)).limit := by
    rw [limit_eq N _ hN1 rfl]
    simp only [NQueensSolver.init, if_true]
    omega
  obtain ⟨m, g1, -, -, g4⟩ := subtree_credit N hN (N - 1) ((N + 1) / 2) (NQueensSolver.init N) 0 0
    (basicInv_init N hN1) (cursorInv_init N hN1) rfl rfl (by omega) hlim
  refine ⟨m, by rw [g1]; rfl, ?_⟩
  intro h31
  have hrun := runInv_init N hN1
  rw [g4 h31 hrun.2.1 hrun.2.2, ← halfSolutions_credit N hN]
  simp [NQueensSolver.init, prefixOf]

/-- C12: for every `N ≥ 1`, every `nextStep()` call returns (on any solver state: the
backtrack loop is finite), and there is a finite `k` such that call number `k + 1` on a
fresh `NQueensSolver(N)` returns `isFinished == true` and leaves the solver's `row` equal
to `-1`. -/
theorem search_terminates (n : Int) (hn : 1 ≤ n) :
    (∀ s : NQueensSolver, ∃ r, s.nextStep = some r) ∧
    ∃ (k : Nat) (R : SolverState) (s1 : NQueensSolver),
      (NQueensSolver.init n).resultAt k = some R ∧ R.isFinished = true ∧
      (NQueensSolver.init n).after (k + 1) = some s1 ∧ s1.row = -1 := by
  refine ⟨nextStep_total, ?_⟩
  obtain ⟨N, rfl⟩ := Int.eq_ofNat_of_zero_le (by omega : 0 ≤ n)
  obtain ⟨m, hm, -⟩ := passes_of_init N (by omega)
  have hna : ¬ ((NQueensSolver.init N).passes m).Active := by
    unfold NQueensSolver.Active
    rw [hm]
    omega
  obtain ⟨k, -, hk2, hk3⟩ := drain_of_passes m _ hna
  exact ⟨k, _, _, hk2, rfl, hk3, hm⟩

/-! ## The boards of the search -/

theorem mem_search (n l0 : Nat) (d : Nat) : ∀ p b : List Int,
    b ∈ search n l0 d p ↔
      b.length = p.length + d ∧ prefixOf b p.length = p ∧
      ∀ i : Nat, p.length ≤ i → i < p.length + d →
        (0 ≤ b.getD i 0 ∧ b.getD i 0 < (rowLimit n l0 i : Nat)) ∧
        safeAt (prefixOf b i) (b.getD i 0) = true := by
  induction d with
  | zero =>
    intro p b
    rw [search, List.mem_singleton]
    constructor
    · rintro rfl
      exact ⟨rfl, prefixOf_length b, fun i h1 h2 => absurd h2 (by omega)⟩
    · rintro ⟨h1, h2, -⟩
      have h3 : p.length = b.length := by omega
      rw [← h2, h3, prefixOf_length]
  | succ d ih =>
    intro p b
    rw [search, List.mem_flatMap]
    constructor
    · rintro ⟨c, hc, hb⟩
      rw [List.mem_range] at hc
      by_cases hs : safeAt p c = true
      · rw [if_pos hs, ih] at hb
        obtain ⟨h1, h2, h3⟩ := hb
        rw [List.length_append, List.length_singleton] at h1 h2 h3
        rw [prefixOf_succ] at h2
        have hp := List.append_inj h2 (length_prefixOf b p.length)
        have hbc : b.getD p.length 0 = (c : Int) := by
          have := hp.2
          simp only [List.cons.injEq, and_true] at this
          exact this
        refine ⟨by omega, hp.1, ?_⟩
        intro i hi1 hi2
        by_cases hi : i = p.length
        · subst hi
          rw [hbc, hp.1]
          exact ⟨⟨by omega, by exact_mod_cast hc⟩, hs⟩
        · exact h3 i (by omega) (by omega)
      · rw [if_neg hs] at hb
        exact absurd hb (List.not_mem_nil _)
    · rintro ⟨h1, h2, h3⟩
      obtain ⟨⟨hc0, hc1⟩, hs⟩ := h3 p.length (le_refl _) (by omega)
      obtain ⟨c, hc⟩ := Int.eq_ofNat_of_zero_le hc0
      rw [hc] at hc1 hs
      rw [h2] at hs
      refine ⟨c, List.mem_range.2 (by exact_mod_cast hc1), ?_⟩
      rw [if_pos hs, ih]
      rw [List.length_append, List.length_singleton]
      refine ⟨by omega, by rw [prefixOf_succ, h2, hc], ?_⟩
      intro i hi1 hi2
      exact h3 i (by omega) (by omega)

theorem nodup_search (n l0 : Nat) (d : Nat) : ∀ p : List Int, (search n l0 d p).Nodup := by
  induction d with
  | zero => intro p; simp [search]
  | succ d ih =>
    intro p
    rw [search, List.nodup_flatMap]
    constructor
    · intro c _
      split
      · exact ih _
      · exact List.nodup_nil
    · apply (List.nodup_range _).pairwise_of_forall_ne
      intro c _ c1 _ hne
      simp only [Function.onFun]
      intro b hb hb1
      by_cases hs : safeAt p c = true
      · by_cases hs1 : safeAt p c1 = true
        · rw [if_pos hs, mem_search] at hb
          rw [if_pos hs1, mem_search] at hb1
          have e := hb.2.1
          have e1 := hb1.2.1
          rw [List.length_append, List.length_singleton] at e e1
          rw [e] at e1
          have := (List.append_inj e1 rfl).2
          simp only [List.cons.injEq, and_true, Nat.cast_inj] at this
          exact hne this
        · rw [if_neg hs1] at hb1
          exact absurd hb1 (List.not_mem_nil _)
      · rw [if_neg hs] at hb
        exact absurd hb (List.not_mem_nil _)

/-- The safety test against the rows above, on a board. -/
theorem safeAt_board_iff (b : List Int) (i : Nat) :
    safeAt (prefixOf b i) (b.getD i 0) = true ↔
      ∀ j : Nat, j < i → NoAttack j (b.getD j 0) i (b.getD i 0) := by
  rw [safeAt_iff, length_prefixOf]
  constructor
  · intro h j hj
    have := h j hj
    rw [getD_prefixOf b i j hj] at this
    exact this
  · intro h j hj
    rw [getD_prefixOf b i j hj]
    exact h j hj

/-- The boards of a search of the empty board are the complete valid boards whose first
queen is below the limit of row `0`. -/
theorem mem_search_nil (N l0 : Nat) (hl : l0 ≤ N) (b : List Int) :
    b ∈ search N l0 N [] ↔ ValidBoard N b ∧ (1 ≤ N → b.getD 0 0 < (l0 : Int)) := by
  rw [mem_search]
  simp only [List.length_nil, Nat.zero_add, Nat.zero_le, true_implies]
  unfold ValidBoard
  constructor
  · rintro ⟨h1, -, h3⟩
    refine ⟨⟨by simpa using h1, ?_, ?_⟩, ?_⟩
    · intro i hi
      obtain ⟨⟨g1, g2⟩, -⟩ := h3 i (by omega)
      refine ⟨g1, ?_⟩
      unfold rowLimit at g2
      split at g2 <;> omega
    · intro j hj i hij
      exact (safeAt_board_iff b j).1 (h3 j (by omega)).2 i hij
    · intro hN
      have := (h3 0 (by omega)).1.2
      simpa [rowLimit] using this
  · rintro ⟨⟨h1, h2, h3⟩, h4⟩
    have hlen : b.length = N := by simpa using h1
    refine ⟨hlen, by simp [prefixOf], ?_⟩
    intro i hi
    refine ⟨⟨(h2 i (by omega)).1, ?_⟩, (safeAt_board_iff b i).2 (fun j hj => h3 i (by omega) j hj)⟩
    unfold rowLimit
    split
    · rename_i h0
      subst h0
      exact h4 (by omega)
    · exact (h2 i (by omega)).2

/-- The members of `allSolutions` are exactly the complete valid boards. -/
theorem mem_allSolutions (N : Nat) (b : List Int) : b ∈ allSolutions N ↔ ValidBoard N b := by
  unfold allSolutions
  rw [mem_search_nil N N (le_refl _)]
  constructor
  · exact fun h => h.1
  · intro h
    refine ⟨h, fun hN => ?_⟩
    have h0 : 0 < b.length := by
      have := h.1
      simp at this
      omega
    exact (h.2.1 0 h0).2

theorem mem_halfSolutions (N : Nat) (hN : 1 ≤ N) (b : List Int) :
    b ∈ halfSolutions N ↔ ValidBoard N b ∧ b.getD 0 0 < ((N : Int) + 1) / 2 := by
  unfold halfSolutions
  rw [mem_search_nil N ((N + 1) / 2) (by omega)]
  have hcast : (((N + 1) / 2 : Nat) : Int) = ((N : Int) + 1) / 2 := by omega
  rw [hcast]
  constructor
  · exact fun h => ⟨h.1, h.2 hN⟩
  · exact fun h => ⟨h.1, fun _ => h.2⟩

/-! ## Mirror credit counts every solution once -/

/-- The credit of the boards of the pruned search is the number of all solutions. -/
theorem credit_sum_eq_length (N : Nat) (hN : 1 ≤ N) :
    ((halfSolutions N).map (credit N)).sum = ((allSolutions N).length : Int) := by
  classical
  have hN1 : (1 : Int) ≤ (N : Int) := by omega
  have hA : ((allSolutions N).toFinset.card : Int) = ((allSolutions N).length : Int) := by
    have hnd : (allSolutions N).Nodup := nodup_search N N N []
    rw [List.toFinset_card_of_nodup hnd]
  have hH : ((halfSolutions N).map (credit N)).sum
      = ∑ b ∈ (halfSolutions N).toFinset, credit N b := by
    have hnd : (halfSolutions N).Nodup := nodup_search N ((N + 1) / 2) N []
    exact (List.sum_toFinset (credit N) hnd).symm
  have hHA : (halfSolutions N).toFinset
      = (allSolutions N).toFinset.filter (fun b => b.getD 0 0 < ((N : Int) + 1) / 2) := by
    ext b
    rw [List.mem_toFinset, Finset.mem_filter, List.mem_toFinset, mem_halfSolutions N hN,
      mem_allSolutions]
  have hcred : ∀ b : List Int, credit N b
      = 1 + (if ¬ ((N : Int) % 2 = 1 ∧ b.getD 0 0 = (N : Int) / 2) then 1 else 0) := by
    intro b
    unfold credit
    split_ifs <;> simp_all
  have hsum : ∑ b ∈ (halfSolutions N).toFinset, credit N b
      = ((halfSolutions N).toFinset.card : Int)
        + (((halfSolutions N).toFinset.filter
            (fun b => ¬ ((N : Int) % 2 = 1 ∧ b.getD 0 0 = (N : Int) / 2))).card : Int) := by
    rw [Finset.sum_congr rfl (fun b _ => hcred b), Finset.sum_add_distrib, Finset.sum_boole]
    simp
  have hsplit := Finset.filter_card_add_filter_neg_card_eq_card (s := (allSolutions N).toFinset)
    (fun b => b.getD 0 0 < ((N : Int) + 1) / 2)
  have hbij : ((allSolutions N).toFinset.filter
        (fun b => ¬ b.getD 0 0 < ((N : Int) + 1) / 2)).card
      = ((halfSolutions N).toFinset.filter
          (fun b => ¬ ((N : Int) % 2 = 1 ∧ b.getD 0 0 = (N : Int) / 2))).card := by
    apply Finset.card_nbij' (UI.mirrorQueens N) (UI.mirrorQueens N)
    · intro b hb
      simp only [Finset.mem_filter, List.mem_toFinset, mem_allSolutions,
        mem_halfSolutions N hN] at hb ⊢
      obtain ⟨hv, hr⟩ := hb
      have h0 := getD_zero_mirror N b hN1 hv
      have hrange := hv.2.1 0 (by rw [hv.1]; omega)
      refine ⟨⟨validBoard_mirror N b hv, by omega⟩, by omega⟩
    · intro b hb
      simp only [Finset.mem_filter, List.mem_toFinset, mem_allSolutions,
        mem_halfSolutions N hN] at hb ⊢
      obtain ⟨⟨hv, hl⟩, hnc⟩ := hb
      have h0 := getD_zero_mirror N b hN1 hv
      have hrange := hv.2.1 0 (by rw [hv.1]; omega)
      refine ⟨validBoard_mirror N b hv, by omega⟩
    · intro b hb
      simp only [Finset.mem_filter, List.mem_toFinset, mem_allSolutions] at hb
      exact mirror_mirror N b hb.1
    · intro b hb
      simp only [Finset.mem_filter, List.mem_toFinset,
        mem_halfSolutions N hN] at hb
      exact mirror_mirror N b hb.1.1
  rw [hH, hsum, ← hA, ← hsplit, ← hbij, ← hHA]
  push_cast
  rfl

/-- On exact counters: for `1 ≤ N ≤ 31`, `allSolutions N` lists without repetition exactly
the complete valid `N`-queens boards (one column in `[0, N)` per row, no two queens on a common column
or diagonal), and draining a fresh `NQueensSolver(N)` to completion yields a final
`solutionsCount` equal to their number: the left-half search with mirror credit counts
exactly what the unpruned search would. -/
theorem drain_counts_all_solutions (N : Nat) (hN : 1 ≤ N) (hN31 : N ≤ 31) :
    (allSolutions N).Nodup ∧ (∀ b : List Int, b ∈ allSolutions N ↔ ValidBoard N b) ∧
    ∃ k : Nat, ∀ m : Nat, k ≤ m → ∃ R, (NQueensSolver.init N).drain m = some R ∧
      R.isFinished = true ∧ R.solutionsCount = ((allSolutions N).length : Int) := by
  refine ⟨nodup_search N N N [], mem_allSolutions N, ?_⟩
  obtain ⟨p, hp1, hp2⟩ := passes_of_init N hN
  have hna : ¬ ((NQueensSolver.init N).passes p).Active := by
    unfold NQueensSolver.Active
    rw [hp1]
    omega
  obtain ⟨k, hk1, -, -⟩ := drain_of_passes p _ hna
  refine ⟨k + 1, fun m hm => ⟨_, drain_mono (k + 1) _ _ m hk1 hm, rfl, ?_⟩⟩
  show ((NQueensSolver.init N).passes p).solutionsFound = _
  rw [hp2 hN31, credit_sum_eq_length N hN]

/-! ## The theorems at concrete points of runs -/

/-- Witness for C12: size 4. -/
theorem search_terminates_witness :
    (1 : Int) ≤ 4 ∧
    ((∀ s : NQueensSolver, ∃ r, s.nextStep = some r) ∧
    ∃ (k : Nat) (R : SolverState) (s1 : NQueensSolver),
      (NQueensSolver.init 4).resultAt k = some R ∧ R.isFinished = true ∧
      (NQueensSolver.init 4).after (k + 1) = some s1 ∧ s1.row = -1) :=
  ⟨by decide, search_terminates 4 (by decide)⟩

/-- The count of size 4 on exact counters, with its two solutions. -/
theorem drain_counts_all_solutions_witness :
    1 ≤ 4 ∧ 4 ≤ 31 ∧ allSolutions 4 = [[1, 3, 0, 2], [2, 0, 3, 1]] ∧
    ((allSolutions 4).Nodup ∧ (∀ b : List Int, b ∈ allSolutions 4 ↔ ValidBoard (4 : Nat) b) ∧
    ∃ k : Nat, ∀ m : Nat, k ≤ m → ∃ R, (NQueensSolver.init (4 : Nat)).drain m = some R ∧
      R.isFinished = true ∧ R.solutionsCount = ((allSolutions 4).length : Int)) :=
  ⟨by decide, by decide, by decide, drain_counts_all_solutions 4 (by decide) (by decide)⟩

/-- Witness for C14: size 4 after 25 calls, queens at `(0, 1)`, `(1, 3)`, `(2, 0)`. -/
theorem mask_cache_recomputable_witness :
    (NQueensSolver.init 4).after 25 = some sample4After25 ∧
    colMaskOf sample4After25.queens 3 = 11 ∧ ldMaskOf sample4After25.queens 3 = 50 ∧
    rdMaskOf sample4After25.queens 3 = 2 ∧
    ((∀ r : Nat, (r : Int) ≤ sample4After25.row →
      vecGet sample4After25.history_col r 0 = colMaskOf sample4After25.queens r ∧
      vecGet sample4After25.history_ld r 0 = ldMaskOf sample4After25.queens r ∧
      vecGet sample4After25.history_rd r 0 = rdMaskOf sample4After25.queens r) ∧
    (vecGet sample4After25.history_col 0 0 = 0 ∧ vecGet sample4After25.history_ld 0 0 = 0 ∧
      vecGet sample4After25.history_rd 0 0 = 0)) :=
  ⟨by decide, by decide, by decide, by decide,
    mask_cache_recomputable 4 (by decide) (by decide) sample4After25
      (reachable_after 4 25 _ (by decide))⟩

/-- Witness for C15: size 3 after seven calls; row 2 is exhausted and popped, row 1 is
then exhausted too, and the call returns the trial `(0, 1)`, past the queen at `(0, 0)`. -/
theorem backtrack_resumes_past_column_witness :
    (NQueensSolver.init 3).after 7 = some sample3After7 ∧
    (sample3After7.popRows 1).row = 1 ∧ (sample3After7.popRows 1).col = 2 ∧
    sample3After7.nextStep = some (sample3Result8, sample3After8) ∧
    ((sample3After7.popRows 1).col + 1 = (sample3After7.popRows 1).limit ∧
    sample3After7.nextStep = ((sample3After7.popRows 1).popRow ((sample3After7.popRows 1).col + 1)).nextStep ∧
    (1 ≤ (sample3After7.popRows 1).row →
      (sample3After7.popRows 1).col + 1 = 3 ∧
      ((sample3After7.popRows 1).popRow ((sample3After7.popRows 1).col + 1)).queens
        = vecSet (sample3After7.popRows 1).queens (sample3After7.popRows 1).row (-1) ∧
      vecGet ((sample3After7.popRows 1).popRow ((sample3After7.popRows 1).col + 1)).queens (sample3After7.popRows 1).row 0 = -1 ∧
      ((sample3After7.popRows 1).popRow ((sample3After7.popRows 1).col + 1)).row = (sample3After7.popRows 1).row - 1 ∧
      ((sample3After7.popRows 1).popRow ((sample3After7.popRows 1).col + 1)).col
        = vecGet (sample3After7.popRows 1).queens ((sample3After7.popRows 1).row - 1) 0 ∧
      (¬ ((sample3After7.popRows 1).popRow ((sample3After7.popRows 1).col + 1)).Exhausted →
        ∃ R s1, sample3After7.nextStep = some (R, s1) ∧ R.isFinished = false ∧
          R.trialPos = ((sample3After7.popRows 1).row - 1,
            vecGet (sample3After7.popRows 1).queens ((sample3After7.popRows 1).row - 1) 0 + 1)) ∧
      (∀ R s1, sample3After7.nextStep = some (R, s1) → R.isFinished = false →
        R.trialPos.1 = (sample3After7.popRows 1).row - 1 →
        R.trialPos.2 = vecGet (sample3After7.popRows 1).queens ((sample3After7.popRows 1).row - 1) 0 + 1)) ∧
    ((sample3After7.popRows 1).row = 0 →
      ((sample3After7.popRows 1).popRow ((sample3After7.popRows 1).col + 1)).row = -1 ∧
      ∃ R s1, sample3After7.nextStep = some (R, s1) ∧ R.isFinished = true ∧ s1.row = -1)) :=
  ⟨by decide, by decide, by decide, by decide,
    backtrack_resumes_past_column 3 (by decide) sample3After7 1
      (reachable_after 3 7 _ (by decide))
      (fun i hi => by
        have h0 : i = 0 := by omega
        subst h0
        decide)
      (by decide) (by decide)⟩

/-- Witness for C16: call 8 on size 3, a trial in a row reached by backtracking, whose
snapshot still holds the previously accepted column `0` of row 0. -/
theorem snapshot_before_acceptance_witness :
    (NQueensSolver.init 3).after 7 = some sample3After7 ∧
    sample3After7.nextStep = some (sample3Result8, sample3After8) ∧
    sample3Result8.isFinished = false ∧
    (vecGet sample3Result8.queens sample3Result8.trialPos.1 0 ≠ sample3Result8.trialPos.2 ∧
    (sample3Result8.hasConflict = some false →
      sample3After8.queens
        = vecSet sample3Result8.queens sample3Result8.trialPos.1 sample3Result8.trialPos.2) ∧
    (sample3Result8.hasConflict = some true → sample3After8.queens = sample3Result8.queens)) :=
  ⟨by decide, by decide, by decide,
    snapshot_before_acceptance 3 (by decide) sample3After7 sample3Result8 sample3After8
      (reachable_after 3 7 _ (by decide)) (by decide) (by decide)⟩

/-- Witness for C17: the solution `[2, 0, 3, 1]` of size 4, first queen in the right
half, is the mirror of `[1, 3, 0, 2]`. -/
theorem mirror_symmetry_witness :
    ValidBoard 4 [2, 0, 3, 1] ∧ UI.mirrorQueens 4 [2, 0, 3, 1] = [1, 3, 0, 2] ∧
    (ValidBoard 4 (UI.mirrorQueens 4 [2, 0, 3, 1]) ∧
    (∀ r : Nat, r < ([2, 0, 3, 1] : List Int).length →
      (UI.mirrorQueens 4 [2, 0, 3, 1]).getD r 0 = 4 - 1 - ([2, 0, 3, 1] : List Int).getD r 0) ∧
    (UI.mirrorQueens 4 [2, 0, 3, 1]).getD 0 0 = 4 - 1 - ([2, 0, 3, 1] : List Int).getD 0 0 ∧
    UI.mirrorQueens 4 (UI.mirrorQueens 4 [2, 0, 3, 1]) = [2, 0, 3, 1] ∧
    (((4 : Int) + 1) / 2 ≤ ([2, 0, 3, 1] : List Int).getD 0 0 →
      ∃ b, ValidBoard 4 b ∧ b.getD 0 0 < ((4 : Int) + 1) / 2 ∧
        UI.mirrorQueens 4 b = [2, 0, 3, 1])) :=
  ⟨by decide, by decide, mirror_symmetry 4 [2, 0, 3, 1] (by decide) (by decide)⟩

/-- Witness for C18 (amended): the centre-first solution `[2, 0, 3, 1, 4]` of size 5. -/
theorem centre_solution_mirror_witness :
    (5 : Int) % 2 = 1 ∧ ValidBoard 5 [2, 0, 3, 1, 4] ∧
    ([2, 0, 3, 1, 4] : List Int).getD 0 0 = 5 / 2 ∧
    (ValidBoard 5 (UI.mirrorQueens 5 [2, 0, 3, 1, 4]) ∧
    (UI.mirrorQueens 5 [2, 0, 3, 1, 4]).getD 0 0 = 5 / 2 ∧
    ((1 : Int) < 5 → UI.mirrorQueens 5 [2, 0, 3, 1, 4] ≠ [2, 0, 3, 1, 4]) ∧
    ((5 : Int) = 1 → UI.mirrorQueens 5 [2, 0, 3, 1, 4] = [2, 0, 3, 1, 4])) :=
  ⟨by decide, by decide, by decide,
    centre_solution_mirror 5 [2, 0, 3, 1, 4] (by decide) (by decide) (by decide) (by decide)⟩

/-- Witness for C19: call 26 on size 4, the first solution. -/
theorem reported_solution_is_valid_witness :
    (NQueensSolver.init 4).after 25 = some sample4After25 ∧
    sample4After25.nextStep = some (sample4Result26, sample4After26) ∧
    sample4Result26.solutionFound = some true ∧
    vecSet sample4Result26.queens (4 - 1) sample4Result26.trialPos.2 = [1, 3, 0, 2] ∧
    (sample4Result26.trialPos.1 = 4 - 1 ∧ 0 ≤ sample4Result26.trialPos.2 ∧
    sample4Result26.trialPos.2 < 4 ∧
    ValidBoard 4 (vecSet sample4Result26.queens (4 - 1) sample4Result26.trialPos.2)) :=
  ⟨by decide, by decide, by decide, by decide,
    reported_solution_is_valid 4 (by decide) (by decide) sample4After25 sample4Result26
      sample4After26 (reachable_after 4 25 _ (by decide)) (by decide) (by decide)⟩

/-- Witness for C20: size 4 after 25 calls, three accepted queens and one free row. -/
theorem partial_placement_invariant_witness :
    (NQueensSolver.init 4).after 25 = some sample4After25 ∧ sample4After25.row = 3 ∧
    (-1 ≤ sample4After25.row ∧ sample4After25.row < 4 ∧
    (∀ j : Int, 0 ≤ j → j < sample4After25.row →
      0 ≤ vecGet sample4After25.queens j 0 ∧ vecGet sample4After25.queens j 0 < 4) ∧
    (0 < sample4After25.row → vecGet sample4After25.queens 0 0 < ((4 : Int) + 1) / 2) ∧
    (∀ i j : Int, 0 ≤ i → i < j → j < sample4After25.row →
      NoAttack i (vecGet sample4After25.queens i 0) j (vecGet sample4After25.queens j 0)) ∧
    (∀ j : Int, sample4After25.row < j → j < 4 → vecGet sample4After25.queens j 0 = -1)) :=
  ⟨by decide, by decide,
    partial_placement_invariant 4 (by decide) (by decide) sample4After25
      (reachable_after 4 25 _ (by decide))⟩

/-! ## Index safety: the checked loop agrees with the loop -/

theorem readAt_eq {α : Type} (v : List α) (i : Int) (d : α) (h0 : 0 ≤ i)
    (h1 : i < (v.length : Int)) : readAt v i = some (vecGet v i d) := by
  unfold readAt vecGet
  rw [if_pos ⟨h0, h1⟩]
  have h : i.toNat < v.length := by omega
  rw [List.getElem?_eq_getElem h, List.getD_eq_getElem _ _ h]

theorem writeAt_eq {α : Type} (v : List α) (i : Int) (x : α) (h0 : 0 ≤ i)
    (h1 : i < (v.length : Int)) : writeAt v i x = some (vecSet v i x) := by
  unfold writeAt vecSet
  rw [if_pos ⟨h0, h1⟩]

theorem shiftBit_eq (n c : Int) (h0 : 0 ≤ c) (h1 : c < n) : shiftBit n c = some (bitOf c) := by
  unfold shiftBit
  rw [if_pos ⟨h0, h1⟩]

theorem hasConflictChecked_eq (n : Int) (s : NQueensSolver) (c : Int) (hb : BasicInv n s)
    (ha : s.Active) (hc0 : 0 ≤ c) (hc1 : c < n) :
    s.hasConflictChecked s.row c = some (s.hasConflict s.row c) := by
  obtain ⟨h1, -, h3, h4, h5, -⟩ := hb
  unfold NQueensSolver.Active at ha
  unfold NQueensSolver.hasConflictChecked NQueensSolver.hasConflict
  rw [readAt_eq _ _ 0 ha.1 (by omega), readAt_eq _ _ 0 ha.1 (by omega),
    readAt_eq _ _ 0 ha.1 (by omega), shiftBit_eq _ _ hc0 (by omega)]
  rfl

theorem popRowChecked_eq (n : Int) (s : NQueensSolver) (c : Int) (hb : BasicInv n s)
    (ha : s.Active) : s.popRowChecked c = some (s.popRow c) := by
  obtain ⟨h1, h2, -⟩ := hb
  unfold NQueensSolver.Active at ha
  unfold NQueensSolver.popRowChecked NQueensSolver.popRow
  rw [writeAt_eq _ _ _ ha.1 (by omega)]
  simp only [Option.some_bind]
  by_cases hr : s.row - 1 ≥ 0
  · rw [if_pos hr, if_pos hr, readAt_eq _ _ 0 hr (by rw [length_vecSet]; omega)]
    rfl
  · rw [if_neg hr, if_neg hr]

theorem evalTrialChecked_eq (n : Int) (s : NQueensSolver) (c : Int) (hn : 1 ≤ n)
    (hb : BasicInv n s) (ha : s.Active) (hc0 : 0 ≤ c) (hc1 : c < n) :
    s.evalTrialChecked c = some (s.evalTrial c) := by
  have hcf := hasConflictChecked_eq n s c hb ha hc0 hc1
  obtain ⟨h1, h2, h3, h4, h5, -⟩ := hb
  unfold NQueensSolver.Active at ha
  unfold NQueensSolver.evalTrialChecked NQueensSolver.evalTrial
  rw [hcf]
  simp only [Option.some_bind]
  cases hconf : s.hasConflict s.row c
  · simp only [Bool.not_false, if_true]
    rw [writeAt_eq _ _ _ ha.1 (by omega), shiftBit_eq _ _ hc0 (by omega)]
    simp only [Option.some_bind]
    rw [if_pos (by omega : s.row + 1 < s.n + 1), if_pos (by omega : s.row + 1 < s.n + 1)]
    rw [readAt_eq _ _ 0 ha.1 (by omega), readAt_eq _ _ 0 ha.1 (by omega),
      readAt_eq _ _ 0 ha.1 (by omega)]
    simp only [Option.some_bind]
    rw [writeAt_eq _ _ _ (by omega) (by omega), writeAt_eq _ _ _ (by omega) (by omega),
      writeAt_eq _ _ _ (by omega) (by omega)]
    simp only [Option.some_bind]
    by_cases hlast : s.row = s.n - 1
    · rw [if_pos hlast, if_pos hlast]
      rw [readAt_eq _ _ 0 (le_refl 0) (by rw [length_vecSet]; omega)]
      by_cases hodd : s.n.tmod 2 = 0
      · simp [hodd]
      · simp [hodd]
        split <;> rfl
    · rw [if_neg hlast, if_neg hlast]
  · simp

/-- The checked loop returns what the loop returns, on every state of the right shape. -/
theorem nextStepLoopChecked_eq (n : Int) (hn : 1 ≤ n) (fuel : Nat) :
    ∀ s : NQueensSolver, BasicInv n s → s.nextStepLoopChecked fuel = s.nextStepLoop fuel := by
  induction fuel with
  | zero => intro s _; rfl
  | succ fuel ih =>
    intro s hb
    unfold NQueensSolver.nextStepLoopChecked NQueensSolver.nextStepLoop
    by_cases ha : s.row ≥ 0 ∧ s.row < s.n
    · have hlim := limit_eq n s hn hb.1
      have hcol := hb.2.2.2.2.2.2.2.1
      have hsn := hb.1
      rw [if_pos ha, if_pos ha]
      simp only []
      have hpop : (s.popRowChecked (s.col + 1)).bind (NQueensSolver.nextStepLoopChecked fuel)
          = (s.popRow (s.col + 1)).nextStepLoop fuel := by
        rw [popRowChecked_eq n s _ hb ha, Option.some_bind]
        exact ih _ (basicInv_popRow n s _ hb ha (by omega))
      by_cases h1 : s.col + 1 ≥ s.limit
      · rw [if_pos h1, if_pos h1, hpop]
      · rw [if_neg h1, if_neg h1]
        by_cases h2 : s.row > 0 ∧ s.col + 1 ≥ s.n
        · rw [if_pos h2, if_pos h2, hpop]
        · rw [if_neg h2, if_neg h2]
          refine evalTrialChecked_eq n s _ hn hb ha (by omega) ?_
          rw [hlim] at h1
          split at h1 <;> omega
    · rw [if_neg ha, if_neg ha]

/-- C21: for every `N ≥ 1` and every state `s` of a run started from `NQueensSolver(N)`,
the call of `nextStep()` with every vector access and every shift count checked returns,
and returns what `nextStep()` returns: no access is out of bounds. In detail, on every
state `t` on which the loop of that call stands (after `k ≥ 0` pops of exhausted rows):
`queens` has `N` entries and the three histories `N + 1`; when the loop guard holds,
`0 ≤ row < N` (index of `queens[row]` and of `history_*[row]`) and `row + 1 ≤ N` (index of
`history_*[row + 1]`); the pop of an exhausted row is in bounds (its reload `queens[row]`
is made only when the new `row` is `≥ 0`); and a trial has its column, the shift count of
`1 << col` in `nextStep()` and in `hasConflict()`, in `0 ≤ col < N`, with every access of
`hasConflict()` and of the trial (among them `queens[0]`) in bounds. -/
theorem index_safety (n : Int) (hn : 1 ≤ n) (s : NQueensSolver) (hreach : Reachable n s) :
    (∃ r, s.nextStepChecked = some r ∧ s.nextStep = some r) ∧
    ∀ (k : Nat) (t : NQueensSolver),
      (∀ i : Nat, i < k → (s.popRows i).Active ∧ (s.popRows i).Exhausted) → t = s.popRows k →
      (t.queens.length : Int) = n ∧ (t.history_col.length : Int) = n + 1 ∧
      (t.history_ld.length : Int) = n + 1 ∧ (t.history_rd.length : Int) = n + 1 ∧
      (t.Active →
        0 ≤ t.row ∧ t.row < n ∧ t.row + 1 ≤ n ∧
        (t.Exhausted → t.popRowChecked (t.col + 1) = some (t.popRow (t.col + 1))) ∧
        (¬ t.Exhausted →
          0 ≤ t.col + 1 ∧ t.col + 1 < n ∧
          t.hasConflictChecked t.row (t.col + 1) = some (t.hasConflict t.row (t.col + 1)) ∧
          t.evalTrialChecked (t.col + 1) = some (t.evalTrial (t.col + 1)))) := by
  have hb0 := reachable_basicInv n hn s hreach
  refine ⟨?_, ?_⟩
  · obtain ⟨r, hr⟩ := nextStep_total s
    refine ⟨r, ?_, hr⟩
    unfold NQueensSolver.nextStepChecked
    rw [nextStepLoopChecked_eq n hn _ s hb0]
    exact hr
  · intro k t hk ht
    have hb := basicInv_popRows n s k hb0 hk
    rw [← ht] at hb
    have hb1 := hb
    obtain ⟨h1, h2, h3, h4, h5, h6, h7, h8, -⟩ := hb1
    refine ⟨by omega, by omega, by omega, by omega, ?_⟩
    intro ha
    have ha1 := ha
    unfold NQueensSolver.Active at ha1
    refine ⟨ha1.1, h7, by omega, ?_, ?_⟩
    · intro _
      exact popRowChecked_eq n t _ hb ha
    · intro he
      have hlim := limit_le n t hn h1
      unfold NQueensSolver.Exhausted at he
      have hc0 : 0 ≤ t.col + 1 := by omega
      have hc1 : t.col + 1 < n := by omega
      exact ⟨hc0, hc1, hasConflictChecked_eq n t _ hb ha hc0 hc1,
        evalTrialChecked_eq n t _ hn hb ha hc0 hc1⟩

/-- Witness for C21: size 3 after seven calls; the call pops rows 2 and 1 and then
evaluates the trial `(0, 1)`. -/
theorem index_safety_witness :
    (NQueensSolver.init 3).after 7 = some sample3After7 ∧
    sample3After7.nextStepChecked = some (sample3Result8, sample3After8) ∧
    ((∃ r, sample3After7.nextStepChecked = some r ∧ sample3After7.nextStep = some r) ∧
    ∀ (k : Nat) (t : NQueensSolver),
      (∀ i : Nat, i < k → (sample3After7.popRows i).Active ∧ (sample3After7.popRows i).Exhausted) →
      t = sample3After7.popRows k →
      (t.queens.length : Int) = 3 ∧ (t.history_col.length : Int) = 3 + 1 ∧
      (t.history_ld.length : Int) = 3 + 1 ∧ (t.history_rd.length : Int) = 3 + 1 ∧
      (t.Active →
        0 ≤ t.row ∧ t.row < 3 ∧ t.row + 1 ≤ 3 ∧
        (t.Exhausted → t.popRowChecked (t.col + 1) = some (t.popRow (t.col + 1))) ∧
        (¬ t.Exhausted →
          0 ≤ t.col + 1 ∧ t.col + 1 < 3 ∧
          t.hasConflictChecked t.row (t.col + 1) = some (t.hasConflict t.row (t.col + 1)) ∧
          t.evalTrialChecked (t.col + 1) = some (t.evalTrial (t.col + 1))))) :=
  ⟨by decide, by decide,
    index_safety 3 (by decide) sample3After7 (reachable_after 3 7 _ (by decide))⟩

/-! ## The last row after a solution -/

theorem lastRowInv_init (n : Int) (hn : 1 ≤ n) : LastRowInv n (NQueensSolver.init n) := by
  intro _ hq
  exfalso
  apply hq
  simp only [NQueensSolver.init]
  unfold vecGet
  rw [List.getD_eq_getElem?_getD, List.getElem?_replicate, if_pos (by omega)]
  rfl

theorem lastRowInv_popRow (n : Int) (s : NQueensSolver) (c : Int) (hb : BasicInv n s)
    (ha : s.Active) : LastRowInv n (s.popRow c) := by
  unfold NQueensSolver.Active at ha
  have h1 := hb.1
  intro hrow
  simp only [NQueensSolver.popRow] at hrow
  omega

theorem lastRowInv_evalTrial (n : Int) (s : NQueensSolver) (c : Int) (hn : 1 ≤ n)
    (hn31 : n ≤ 31) (hb : BasicInv n s) (hcur : CursorInv n s) (hm : MaskInv s)
    (hinv : LastRowInv n s) (ha : s.Active) (hc0 : 0 ≤ c) (hc1 : c < s.limit) :
    LastRowInv n (s.evalTrial c).2 := by
  obtain ⟨-, -, -, -, -, e6, e7⟩ := evalTrial_shape s c ha
  have hle := limit_le n s hn hb.1
  have h1 := hb.1
  have ha1 := ha
  unfold NQueensSolver.Active at ha1
  have hlen : s.row.toNat < s.queens.length := by
    rw [hb.2.1]
    omega
  cases hcf : s.hasConflict s.row c with
  | true =>
    rw [e6 hcf]
    exact hinv
  | false =>
    obtain ⟨q1, -, -, -, q5, q6⟩ := e7 hcf
    by_cases hlast : s.row = s.n - 1
    · intro _ _
      have hrow : s.row = n - 1 := by omega
      have hself : vecGet (s.evalTrial c).2.queens (n - 1) 0 = c := by
        rw [q1, ← hrow]
        exact vecGet_vecSet_eq _ _ _ _ hlen
      rw [hself]
      refine ⟨hc0, by omega, ?_⟩
      intro j hj0 hj1
      rw [q1, vecGet_vecSet_ne _ _ _ _ _ ha1.1 hj0 (by omega)]
      exact (noAttack_of_no_conflict s c (hm s.row ha1.1 (le_refl _)) hc0 (by omega) hcf j hj0
        (by omega)).1
    · intro hrow hq
      exfalso
      apply hq
      rw [(q6 hlast).1] at hrow
      rw [q1, vecGet_vecSet_ne _ _ _ _ _ ha1.1 (by omega) (by omega)]
      exact hcur.1 (n - 1) (by omega) (by omega)

/-- The last-row invariant is kept by every call. -/
theorem lastRowInv_nextStep (n : Int) (hn : 1 ≤ n) (hn31 : n ≤ 31) (s : NQueensSolver)
    (r : SolverState × NQueensSolver) (h : s.nextStep = some r) (hrun : RunInv n s)
    (hcur : CursorInv n s) (hinv : LastRowInv n s) : LastRowInv n r.2 := by
  refine nextStep_cases
    (fun s r => RunInv n s → CursorInv n s → LastRowInv n s → LastRowInv n r.2)
    ?_ ?_ ?_ s r h hrun hcur hinv
  · intro s _ _ _ hi
    exact hi
  · intro s ha he hr hc hi
    have hc1 : s.col + 1 < s.limit := by
      unfold NQueensSolver.Exhausted at he
      omega
    have hc0 : 0 ≤ s.col + 1 := by
      have := hr.1.2.2.2.2.2.2.2.1
      omega
    exact lastRowInv_evalTrial n s _ hn hn31 hr.1 hc hr.2.1 hi ha hc0 hc1
  · intro s r ha _ _ hP hr hc _
    have hc0 : -1 ≤ s.col + 1 := by
      have := hr.1.2.2.2.2.2.2.2.1
      omega
    exact hP ⟨basicInv_popRow n s _ hr.1 ha hc0, maskInv_popRow s _ ha hr.2.1,
      safeInv_popRow s _ ha hr.2.2⟩ (cursorInv_popRow n s _ hr.1 hc ha)
      (lastRowInv_popRow n s _ hr.1 ha)

theorem reachable_lastRowInv (n : Int) (hn : 1 ≤ n) (hn31 : n ≤ 31) (s : NQueensSolver)
    (h : Reachable n s) : LastRowInv n s := by
  induction h with
  | init => exact lastRowInv_init n hn
  | step hs hstep ih =>
    exact lastRowInv_nextStep n hn hn31 _ _ hstep (reachable_runInv n hn hn31 _ hs)
      (reachable_cursorInv n hn _ hs) ih

theorem lastRowInv_popRows (n : Int) (s : NQueensSolver) (k : Nat) (hb : BasicInv n s)
    (hinv : LastRowInv n s)
    (hk : ∀ i : Nat, i < k → (s.popRows i).Active ∧ (s.popRows i).Exhausted) :
    LastRowInv n (s.popRows k) := by
  cases k with
  | zero => exact hinv
  | succ k =>
    rw [popRows_succ_right]
    exact lastRowInv_popRow n _ _ (basicInv_popRows n s k hb (fun i hi => hk i (by omega)))
      (hk k (by omega)).1

/-- Pigeonhole on the columns: when the `n - 1` queens of the rows above the last one
stand in pairwise different columns of the board and `c0` is a column none of them uses,
every other column of the board is used by one of them. -/
theorem column_taken (n : Int) (f : Int → Int) (c0 c : Int)
    (hf : ∀ j : Int, 0 ≤ j → j < n - 1 → 0 ≤ f j ∧ f j < n)
    (hinj : ∀ i j : Int, 0 ≤ i → i < j → j < n - 1 → f i ≠ f j)
    (h0 : 0 ≤ c0 ∧ c0 < n) (hne0 : ∀ j : Int, 0 ≤ j → j < n - 1 → f j ≠ c0)
    (hc : 0 ≤ c ∧ c < n) (hcc : c ≠ c0) : ∃ j : Int, 0 ≤ j ∧ j < n - 1 ∧ f j = c := by
  by_contra hno
  push_neg at hno
  have hS : ((Finset.Ico 0 (n - 1)).image f).card = (n - 1).toNat := by
    rw [Finset.card_image_of_injOn, Int.card_Ico]
    · simp
    · intro i hi j hj hij
      simp only [Finset.coe_Ico, Set.mem_Ico] at hi hj
      by_contra hne
      rcases lt_or_gt_of_ne hne with hlt | hgt
      · exact hinj i j hi.1 hlt hj.2 hij
      · exact hinj j i hj.1 hgt hi.2 hij.symm
  have hc_not : c ∉ (Finset.Ico 0 (n - 1)).image f := by
    simp only [Finset.mem_image, Finset.mem_Ico, not_exists, not_and]
    intro j hj
    exact hno j hj.1 hj.2
  have hc0_not : c0 ∉ insert c ((Finset.Ico 0 (n - 1)).image f) := by
    simp only [Finset.mem_insert, Finset.mem_image, Finset.mem_Ico, not_or, not_exists, not_and]
    exact ⟨Ne.symm hcc, fun j hj => hne0 j hj.1 hj.2⟩
  have hsub : insert c0 (insert c ((Finset.Ico 0 (n - 1)).image f)) ⊆ Finset.Ico 0 n := by
    intro x hx
    simp only [Finset.mem_insert, Finset.mem_image, Finset.mem_Ico] at hx ⊢
    rcases hx with rfl | rfl | ⟨j, hj, rfl⟩
    · exact h0
    · exact hc
    · exact hf j hj.1 hj.2
  have hle := Finset.card_le_card hsub
  rw [Finset.card_insert_of_not_mem hc0_not, Finset.card_insert_of_not_mem hc_not, hS,
    Int.card_Ico] at hle
  omega

/-- A trial in the last row made while a queen still stands there conflicts: the
queens of the rows above use every column but the one of that queen. -/
theorem retrial_conflicts (n : Int) (hn31 : n ≤ 31) (t : NQueensSolver)
    (hrun : RunInv n t) (hcur : CursorInv n t) (hinv : LastRowInv n t) (ha : t.Active)
    (hc1 : t.col + 1 < n) (hrow : t.row = n - 1) (hq : vecGet t.queens (n - 1) 0 ≠ -1) :
    t.hasConflict t.row (t.col + 1) = true := by
  obtain ⟨hb, hmask, hsafe⟩ := hrun
  have ha1 := ha
  unfold NQueensSolver.Active at ha1
  obtain ⟨l1, l2, l3⟩ := hinv hrow hq
  have hcol := hcur.2.1 ha1.1
  rw [hrow] at hcol
  have h9 := hb.2.2.2.2.2.2.2.2.1
  obtain ⟨j, hj0, hj1, hj2⟩ := column_taken n (fun j => vecGet t.queens j 0)
    (vecGet t.queens (n - 1) 0) (t.col + 1)
    (fun j hj0 hj1 => h9 j hj0 (by omega))
    (fun i j hi hij hj => (hsafe i j hi hij (by omega)).1)
    ⟨l1, l2⟩ l3 ⟨by omega, hc1⟩ (by omega)
  exact (hasConflict_iff t (t.col + 1) (hmask t.row ha1.1 (le_refl _)) (by omega)
    (by omega)).2 (Or.inl ⟨j, hj0, by omega, hj2⟩)

/-- The context of a non-terminal result of a run on a board inside the `int` width, with
every invariant of the run. -/
theorem reachable_trial_last (n : Int) (hn : 1 ≤ n) (hn31 : n ≤ 31) (s : NQueensSolver)
    (R : SolverState) (s1 : NQueensSolver) (hreach : Reachable n s)
    (hstep : s.nextStep = some (R, s1)) (hnt : R.isFinished = false) :
    ∃ t : NQueensSolver, RunInv n t ∧ CursorInv n t ∧ LastRowInv n t ∧ t.Active ∧
      ¬ t.Exhausted ∧ (R, s1) = t.evalTrial (t.col + 1) := by
  obtain ⟨k, hk1, ha, he, hr⟩ := trial_of_result s R s1 hstep hnt
  have hb0 := reachable_basicInv n hn s hreach
  exact ⟨s.popRows k, runInv_popRows n s k (reachable_runInv n hn hn31 s hreach) hk1,
    cursorInv_popRows n s k hb0 (reachable_cursorInv n hn s hreach) hk1,
    lastRowInv_popRows n s k hb0 (reachable_lastRowInv n hn hn31 s hreach) hk1, ha, he, hr⟩

/-- After a solution, every further trial in the last row conflicts until the row is
cleared: a non-terminal result of a run with its trial in row `N - 1` and a queen still
standing in that row of the snapshot has `hasConflict == true`. -/
theorem last_row_retrial_conflicts (n : Int) (hn : 1 ≤ n) (hn31 : n ≤ 31)
    (s : NQueensSolver) (R : SolverState) (s1 : NQueensSolver) (hreach : Reachable n s)
    (hstep : s.nextStep = some (R, s1)) (hnt : R.isFinished = false)
    (hrow : R.trialPos.1 = n - 1) (hq : vecGet R.queens (n - 1) 0 ≠ -1) :
    R.hasConflict = some true := by
  obtain ⟨t, hrun, hcur, hlast, ha, he, hr⟩ :=
    reachable_trial_last n hn hn31 s R s1 hreach hstep hnt
  obtain ⟨e1, e2, e3, -, -, -, -⟩ := evalTrial_shape t (t.col + 1) ha
  have hR : R = (t.evalTrial (t.col + 1)).1 := congrArg Prod.fst hr
  rw [hR, e2] at hrow
  rw [hR, e1] at hq
  rw [hR, e3]
  have hlim := limit_le n t hn hrun.1.1
  unfold NQueensSolver.Exhausted at he
  rw [retrial_conflicts n hn31 t hrun hcur hlast ha (by omega) hrow hq]

/-- A trial returned in the row the call starts in is made on the board the call starts
with: no row was popped before it. -/
theorem trial_same_row_queens (s : NQueensSolver) (r : SolverState × NQueensSolver)
    (h : s.nextStep = some r) (hnt : r.1.isFinished = false) (hrow : r.1.trialPos.1 = s.row) :
    r.1.queens = s.queens := by
  refine nextStep_cases
    (fun s r => r.1.isFinished = false → r.1.trialPos.1 = s.row → r.1.queens = s.queens)
    ?_ ?_ ?_ s r h hnt hrow
  · intro s _ hf
    simp [NQueensSolver.terminal] at hf
  · intro s ha _ _ _
    exact (evalTrial_shape s (s.col + 1) ha).1
  · intro s r _ _ hs _ hf hr
    have := trial_row_le _ r hs hf
    simp only [NQueensSolver.popRow] at this
    omega

/-- C22: for `1 ≤ N ≤ 31` and every result of a run started from `NQueensSolver(N)` with
`solutionFound == true`, the trial is in row `N - 1` and the snapshot's last row is still
unplaced, `result.queens[N-1] == -1`: `result.queens` (of `N` entries) holds the `N - 1`
queens of rows `0 .. N-2` and the completing queen is carried by `trialPos` only (it
stands in the solver's `queens[N-1]` after the call). This rests on the fact that after a
solution every further trial in the last row conflicts until the row is cleared: a
following call that returns a trial in row `N - 1` returns `hasConflict == true` and
`solutionFound == false`. -/
theorem solution_snapshot_last_row_unplaced (n : Int) (hn : 1 ≤ n) (hn31 : n ≤ 31)
    (s : NQueensSolver) (R : SolverState) (s1 : NQueensSolver) (hreach : Reachable n s)
    (hstep : s.nextStep = some (R, s1)) (hsol : R.solutionFound = some true) :
    R.trialPos.1 = n - 1 ∧ vecGet R.queens (n - 1) 0 = -1 ∧
    (R.queens.length : Int) = n ∧
    (∀ j : Int, 0 ≤ j → j < n - 1 → 0 ≤ vecGet R.queens j 0 ∧ vecGet R.queens j 0 < n) ∧
    0 ≤ R.trialPos.2 ∧ vecGet s1.queens (n - 1) 0 = R.trialPos.2 ∧
    (∀ (R2 : SolverState) (s2 : NQueensSolver), s1.nextStep = some (R2, s2) →
      R2.isFinished = false → R2.trialPos.1 = n - 1 →
      R2.hasConflict = some true ∧ R2.solutionFound = some false) := by
  have hnt : R.isFinished = false := by
    obtain ⟨-, -, -, -, c5⟩ := nextStep_counterFacts s (R, s1) hstep
    rcases c5 with ⟨-, -, -, c6, -⟩ | ⟨c7, -⟩
    · simp only [] at c6
      rw [c6] at hsol
      exact absurd hsol (by decide)
    · exact c7
  have hfacts := nextStep_solutionFacts s (R, s1) hstep hsol
  obtain ⟨f1, f2, f3, f4, -, -⟩ := hfacts
  simp only [] at f1 f2 f3 f4
  obtain ⟨t, hrun, hcur, hlast, ha, he, hr⟩ :=
    reachable_trial_last n hn hn31 s R s1 hreach hstep hnt
  obtain ⟨e1, e2, e3, -, -, -, -⟩ := evalTrial_shape t (t.col + 1) ha
  have hR : R = (t.evalTrial (t.col + 1)).1 := congrArg Prod.fst hr
  have hsn := reachable_n n s hreach
  have hb := hrun.1
  have hrowR : R.trialPos.1 = n - 1 := by omega
  have htrow : t.row = n - 1 := by
    rw [hR, e2] at hrowR
    exact hrowR
  have hcolR : R.trialPos.2 = t.col + 1 := by
    rw [hR, e2]
  have hqR : R.queens = t.queens := by
    rw [hR, e1]
  have hc0 : 0 ≤ t.col + 1 := by
    have := hb.2.2.2.2.2.2.2.1
    omega
  have hlen : (R.queens.length : Int) = n := by
    rw [hqR, hb.2.1]
    omega
  have hlast1 : vecGet s1.queens (n - 1) 0 = R.trialPos.2 := by
    rw [f3, hrowR]
    exact vecGet_vecSet_eq _ _ _ _ (by omega)
  have hunplaced : vecGet R.queens (n - 1) 0 = -1 := by
    by_contra hq
    have := last_row_retrial_conflicts n hn hn31 s R s1 hreach hstep hnt hrowR hq
    rw [f2] at this
    exact absurd this (by decide)
  refine ⟨hrowR, hunplaced, hlen, ?_, by omega, hlast1, ?_⟩
  · intro j hj0 hj1
    rw [hqR]
    exact hb.2.2.2.2.2.2.2.2.1 j hj0 (by omega)
  · intro R2 s2 hstep2 hnt2 hrow2
    have hreach1 : Reachable n s1 := Reachable.step hreach hstep
    have hq2 : R2.queens = s1.queens :=
      trial_same_row_queens s1 (R2, s2) hstep2 hnt2 (by simp only []; omega)
    have hcf2 : R2.hasConflict = some true := by
      refine last_row_retrial_conflicts n hn hn31 s1 R2 s2 hreach1 hstep2 hnt2 hrow2 ?_
      rw [hq2, hlast1]
      omega
    refine ⟨hcf2, ?_⟩
    obtain ⟨-, -, -, -, c5⟩ := nextStep_counterFacts s1 (R2, s2) hstep2
    rcases c5 with ⟨c6, -⟩ | ⟨-, -, ⟨c7, -⟩ | ⟨c8, -⟩⟩
    · simp only [] at c6
      rw [c6] at hnt2
      exact absurd hnt2 (by decide)
    · have := (nextStep_solutionFacts s1 (R2, s2) hstep2 c7).2.1
      simp only [] at this c7
      rw [this] at hcf2
      exact absurd hcf2 (by decide)
    · exact c8

/-- Witness for C22: call 26 on size 4, the first solution; the snapshot is
`[1, 3, 0, -1]` and the completing queen `(3, 2)` is in `trialPos`. -/
theorem solution_snapshot_last_row_unplaced_witness :
    (NQueensSolver.init 4).after 25 = some sample4After25 ∧
    sample4After25.nextStep = some (sample4Result26, sample4After26) ∧
    sample4Result26.solutionFound = some true ∧
    sample4Result26.queens = [1, 3, 0, -1] ∧ sample4Result26.trialPos = (3, 2) ∧
    (sample4Result26.trialPos.1 = 4 - 1 ∧ vecGet sample4Result26.queens (4 - 1) 0 = -1 ∧
    (sample4Result26.queens.length : Int) = 4 ∧
    (∀ j : Int, 0 ≤ j → j < 4 - 1 →
      0 ≤ vecGet sample4Result26.queens j 0 ∧ vecGet sample4Result26.queens j 0 < 4) ∧
    0 ≤ sample4Result26.trialPos.2 ∧
    vecGet sample4After26.queens (4 - 1) 0 = sample4Result26.trialPos.2 ∧
    (∀ (R2 : SolverState) (s2 : NQueensSolver), sample4After26.nextStep = some (R2, s2) →
      R2.isFinished = false → R2.trialPos.1 = 4 - 1 →
      R2.hasConflict = some true ∧ R2.solutionFound = some false)) :=
  ⟨by decide, by decide, by decide, by decide, by decide,
    solution_snapshot_last_row_unplaced 4 (by decide) (by decide) sample4After25
      sample4Result26 sample4After26 (reachable_after 4 25 _ (by decide)) (by decide)
      (by decide)⟩

/-! ## Counters as 32-bit `int` fields -/

theorem wrapInt_of_inRange (x : Int) (h : InIntRange x) : wrapInt x = x := by
  unfold InIntRange at h
  unfold wrapInt
  omega

theorem inIntRange_wrapInt (x : Int) : InIntRange (wrapInt x) := by
  unfold InIntRange wrapInt
  omega

theorem wrapInt_add_left (a b : Int) : wrapInt (wrapInt a + b) = wrapInt (a + b) := by
  unfold wrapInt
  omega

theorem wrapCounters_of_inRange (s : NQueensSolver) (h1 : InIntRange s.solutionsFound)
    (h2 : InIntRange s.stepsCount) : s.wrapCounters = s := by
  unfold NQueensSolver.wrapCounters
  rw [wrapInt_of_inRange _ h1, wrapInt_of_inRange _ h2]

theorem wrapCounters_init (n : Int) : (NQueensSolver.init n).wrapCounters = NQueensSolver.init n :=
  wrapCounters_of_inRange _ (by unfold InIntRange; simp [NQueensSolver.init])
    (by unfold InIntRange; simp [NQueensSolver.init])

theorem evalTrial32_wrapCounters (s : NQueensSolver) (c : Int) :
    (s.wrapCounters).evalTrial32 c = wrapPair (s.evalTrial c) := by
  unfold NQueensSolver.evalTrial32 NQueensSolver.evalTrial wrapPair wrapResult
    NQueensSolver.wrapCounters NQueensSolver.hasConflict
  simp only []
  split_ifs <;> simp [wrapInt_add_left]

/-- One call with 32-bit counters, started on the wrapped image of a state, returns the
wrapped image of what the call on exact counters returns: the board, the masks, the cursor
and the flags are the same, and each counter is the exact one wrapped. -/
theorem nextStepLoop32_wrapCounters (fuel : Nat) : ∀ s : NQueensSolver,
    (s.wrapCounters).nextStepLoop32 fuel = (s.nextStepLoop fuel).map wrapPair := by
  induction fuel with
  | zero => intro s; rfl
  | succ fuel ih =>
    intro s
    unfold NQueensSolver.nextStepLoop32 NQueensSolver.nextStepLoop
    have hrow : (s.wrapCounters).row = s.row := rfl
    have hn : (s.wrapCounters).n = s.n := rfl
    have hcol : (s.wrapCounters).col = s.col := rfl
    have hlim : (s.wrapCounters).limit = s.limit := rfl
    have hpop : (s.wrapCounters).popRow (s.col + 1) = (s.popRow (s.col + 1)).wrapCounters := rfl
    have hterm : (s.wrapCounters).terminal = wrapResult s.terminal := rfl
    rw [hrow, hn, hcol, hlim]
    simp only []
    rw [hpop, hterm, evalTrial32_wrapCounters]
    split_ifs
    · exact ih _
    · exact ih _
    · rfl
    · rfl

theorem nextStep32_wrapCounters (s : NQueensSolver) :
    (s.wrapCounters).nextStep32 = s.nextStep.map wrapPair :=
  nextStepLoop32_wrapCounters _ s

theorem after32_wrapCounters (k : Nat) : ∀ s : NQueensSolver,
    (s.wrapCounters).after32 k = (s.after k).map NQueensSolver.wrapCounters := by
  induction k with
  | zero => intro s; rfl
  | succ k ih =>
    intro s
    unfold NQueensSolver.after32 NQueensSolver.after
    rw [nextStep32_wrapCounters]
    cases s.nextStep with
    | none => rfl
    | some p => exact ih p.2

theorem resultAt32_wrapCounters (k : Nat) (s : NQueensSolver) :
    (s.wrapCounters).resultAt32 k = (s.resultAt k).map wrapResult := by
  unfold NQueensSolver.resultAt32 NQueensSolver.resultAt
  rw [after32_wrapCounters]
  cases s.after k with
  | none => rfl
  | some t =>
    simp only [Option.map_some', Option.some_bind]
    rw [nextStep32_wrapCounters]
    cases t.nextStep <;> rfl

theorem drain32_wrapCounters (m : Nat) : ∀ s : NQueensSolver,
    (s.wrapCounters).drain32 m = (s.drain m).map wrapResult := by
  induction m with
  | zero => intro s; rfl
  | succ m ih =>
    intro s
    unfold NQueensSolver.drain32 NQueensSolver.drain
    rw [nextStep32_wrapCounters]
    cases s.nextStep with
    | none => rfl
    | some p =>
      obtain ⟨R, s1⟩ := p
      simp only [Option.map_some', wrapPair]
      have hfin : (wrapResult R).isFinished = R.isFinished := rfl
      rw [hfin]
      split
      · rfl
      · exact ih s1

theorem countInv_init (n : Int) : CountInv (NQueensSolver.init n) := by
  unfold CountInv
  simp [NQueensSolver.init]

theorem countInv_nextStep (s : NQueensSolver) (r : SolverState × NQueensSolver)
    (h : s.nextStep = some r) (hinv : CountInv s) : CountInv r.2 := by
  obtain ⟨-, c2, c3, c4, c5⟩ := nextStep_counterFacts s r h
  unfold CountInv at hinv ⊢
  rcases c5 with ⟨-, c6, c7, -⟩ | ⟨-, c6, ⟨-, c7 | c7⟩ | ⟨-, c7⟩⟩ <;> omega

theorem reachable_countInv (n : Int) (s : NQueensSolver) (h : Reachable n s) : CountInv s := by
  induction h with
  | init => exact countInv_init n
  | step _ hs ih => exact countInv_nextStep _ _ hs ih

/-- On exact counters, the state after `k` calls on a fresh solver has
`0 ≤ stepsCount ≤ k` and `0 ≤ solutionsFound ≤ 2 k`. -/
theorem after_counters_le (n : Int) (k : Nat) (t : NQueensSolver)
    (h : (NQueensSolver.init n).after k = some t) :
    0 ≤ t.stepsCount ∧ t.stepsCount ≤ k ∧ 0 ≤ t.solutionsFound ∧ t.solutionsFound ≤ 2 * k := by
  obtain ⟨c1, c2, c3⟩ := reachable_countInv n t (reachable_after n k t h)
  have hle := after_stepsCount_le k _ t h
  simp only [NQueensSolver.init] at hle
  omega

/-- The state after `k` calls with 32-bit counters on a fresh solver is the wrapped image
of the state after `k` calls on exact counters. -/
theorem after32_init (n : Int) (k : Nat) (t : NQueensSolver)
    (h : (NQueensSolver.init n).after32 k = some t) :
    ∃ u, (NQueensSolver.init n).after k = some u ∧ t = u.wrapCounters := by
  rw [← wrapCounters_init n, after32_wrapCounters] at h
  obtain ⟨u, hu⟩ := after_total k (NQueensSolver.init n)
  rw [hu] at h
  exact ⟨u, hu, (Option.some.inj h).symm⟩

theorem resultAt32_init (n : Int) (k : Nat) :
    (NQueensSolver.init n).resultAt32 k = ((NQueensSolver.init n).resultAt k).map wrapResult := by
  have h := resultAt32_wrapCounters k (NQueensSolver.init n)
  rw [wrapCounters_init] at h
  exact h

/-- On exact counters, the result of call `k + 1` on a fresh solver reports a `stepsCount`
between `0` and `k + 1`. -/
theorem resultAt_stepsCount_le (n : Int) (k : Nat) (P : SolverState)
    (h : (NQueensSolver.init n).resultAt k = some P) :
    0 ≤ P.stepsCount ∧ P.stepsCount ≤ k + 1 := by
  obtain ⟨t, ht⟩ := after_total (k + 1) (NQueensSolver.init n)
  obtain ⟨P1, hP1, hP2⟩ := stepsCount_after (NQueensSolver.init n) k t ht
  rw [h] at hP1
  obtain rfl := Option.some.inj hP1
  obtain ⟨b1, b2, -, -⟩ := after_counters_le n (k + 1) t ht
  rw [hP2]
  push_cast at b2
  exact ⟨b1, b2⟩

/-- C6: with `stepsCount` as the `int` field it is, on a fresh solver every call returns;
the first call reports `stepsCount` 1 when its result is non-terminal and 0 when it is
terminal; every later call reports the `stepsCount` of the previous result plus 1, stored
in an `int`, when its result is non-terminal (one trial evaluated) and the `stepsCount` of
the previous result unchanged when `isFinished == true`. Up to call `2147483647` of a run
(`INT_MAX`, for every size) the stored value is that sum exactly, so `stepsCount` does not
decrease across these calls. -/
theorem stepsCount_successive32 (n : Int) :
    (∃ R, (NQueensSolver.init n).resultAt32 0 = some R ∧
      R.stepsCount = if R.isFinished then 0 else 1) ∧
    (∀ k : Nat, ∃ P R, (NQueensSolver.init n).resultAt32 k = some P ∧
      (NQueensSolver.init n).resultAt32 (k + 1) = some R ∧
      R.stepsCount = wrapInt (P.stepsCount + (if R.isFinished then 0 else 1)) ∧
      (R.isFinished = true → R.stepsCount = P.stepsCount) ∧
      (k + 2 ≤ 2147483647 →
        R.stepsCount = P.stepsCount + (if R.isFinished then 0 else 1) ∧
        P.stepsCount ≤ R.stepsCount)) := by
  obtain ⟨⟨R0, h01, h02⟩, hsucc⟩ := stepsCount_successive n
  constructor
  · refine ⟨wrapResult R0, by rw [resultAt32_init, h01]; rfl, ?_⟩
    show wrapInt R0.stepsCount = if R0.isFinished then 0 else 1
    rw [h02]
    split <;> rfl
  · intro k
    obtain ⟨P, R, hP, hR, e1, -⟩ := hsucc k
    obtain ⟨p1, p2⟩ := resultAt_stepsCount_le n k P hP
    obtain ⟨r1, r2⟩ := resultAt_stepsCount_le n (k + 1) R hR
    have hf : (wrapResult R).isFinished = R.isFinished := rfl
    refine ⟨wrapResult P, wrapResult R, by rw [resultAt32_init, hP]; rfl,
      by rw [resultAt32_init, hR]; rfl, ?_, ?_, ?_⟩
    · show wrapInt R.stepsCount = wrapInt (wrapInt P.stepsCount + _)
      rw [wrapInt_add_left, hf, e1]
    · intro hfin
      rw [hf] at hfin
      show wrapInt R.stepsCount = wrapInt P.stepsCount
      rw [e1, hfin]
      simp
    · intro hk
      have hP2 : InIntRange P.stepsCount := by
        unfold InIntRange
        omega
      have hR2 : InIntRange R.stepsCount := by
        unfold InIntRange
        push_cast at r2
        omega
      have hwP : (wrapResult P).stepsCount = P.stepsCount := wrapInt_of_inRange _ hP2
      have hwR : (wrapResult R).stepsCount = R.stepsCount := wrapInt_of_inRange _ hR2
      rw [hwP, hwR, hf, e1]
      refine ⟨rfl, ?_⟩
      split <;> omega

set_option maxRecDepth 1000000 in
/-- Witness for C6: calls 26 and 27 on size 4. -/
theorem stepsCount_successive32_witness :
    (NQueensSolver.init 4).resultAt32 25 = some sample4Result26 ∧
    (25 : Nat) + 2 ≤ 2147483647 ∧
    (∃ P R, (NQueensSolver.init 4).resultAt32 25 = some P ∧
      (NQueensSolver.init 4).resultAt32 (25 + 1) = some R ∧
      R.stepsCount = wrapInt (P.stepsCount + (if R.isFinished then 0 else 1)) ∧
      (R.isFinished = true → R.stepsCount = P.stepsCount) ∧
      (25 + 2 ≤ 2147483647 →
        R.stepsCount = P.stepsCount + (if R.isFinished then 0 else 1) ∧
        P.stepsCount ≤ R.stepsCount)) :=
  ⟨by decide, by decide, (stepsCount_successive32 4).2 25⟩

theorem rowNodes_zero (n e : Nat) (p : List Int) (c0 : Nat) : rowNodes n e p c0 0 = 0 := by
  simp [rowNodes]

theorem rowNodes_succ (n e : Nat) (p : List Int) (c0 k : Nat) :
    rowNodes n e p c0 (k + 1) =
      (if safeAt p c0 then search n ((n + 1) / 2) e (p ++ [(c0 : Int)]) else []).length
        + rowNodes n e p (c0 + 1) k := by
  unfold rowNodes
  rw [List.range'_succ, List.flatMap_cons, List.length_append]

theorem search_succ_nodes (n e : Nat) (p : List Int) (hp : p.length ≠ 0) :
    (search n ((n + 1) / 2) (e + 1) p).length = rowNodes n e p 0 n := by
  unfold rowNodes
  rw [search, rowLimit, if_neg hp, List.range_eq_range']

theorem search_root_nodes (n e : Nat) :
    (search n ((n + 1) / 2) (e + 1) []).length = rowNodes n e [] 0 ((n + 1) / 2) := by
  unfold rowNodes
  rw [search, rowLimit, List.range_eq_range']
  simp

/-- The queens of `p` attack at most `3 * p.length` columns of the next row. -/
theorem count_safe (n : Nat) (p : List Int) :
    n ≤ ((List.range n).filter fun c : Nat => safeAt p (c : Int)).length + 3 * p.length := by
  classical
  have hsplit := List.length_eq_length_filter_add (l := List.range n)
    (fun c : Nat => safeAt p (c : Int))
  rw [List.length_range] at hsplit
  have hnodup : ((List.range n).filter fun c : Nat => !safeAt p (c : Int)).Nodup :=
    (List.nodup_range n).filter _
  have hcard : (((List.range n).filter fun c : Nat => !safeAt p (c : Int)).toFinset.image
      (fun c : Nat => (c : Int))).card
      = ((List.range n).filter fun c : Nat => !safeAt p (c : Int)).length := by
    rw [Finset.card_image_of_injective _ Nat.cast_injective, List.toFinset_card_of_nodup hnodup]
  have hB : ((Finset.range p.length).biUnion fun j =>
      ({p.getD j 0, p.getD j 0 + ((p.length : Int) - j), p.getD j 0 - ((p.length : Int) - j)} :
        Finset Int)).card ≤ 3 * p.length := by
    refine le_trans Finset.card_biUnion_le ?_
    refine le_trans (Finset.sum_le_sum fun j _ => Finset.card_le_three) ?_
    simp [mul_comm]
  have hsub : (((List.range n).filter fun c : Nat => !safeAt p (c : Int)).toFinset.image
      (fun c : Nat => (c : Int))) ⊆
      ((Finset.range p.length).biUnion fun j =>
      ({p.getD j 0, p.getD j 0 + ((p.length : Int) - j), p.getD j 0 - ((p.length : Int) - j)} :
        Finset Int)) := by
    intro x hx
    simp only [Finset.mem_image, List.mem_toFinset, List.mem_filter, List.mem_range,
      Bool.not_eq_true', ] at hx
    obtain ⟨c, ⟨-, hns⟩, rfl⟩ := hx
    have hns1 : ¬ safeAt p (c : Int) = true := by
      rw [hns]
      decide
    rw [safeAt_iff] at hns1
    push_neg at hns1
    obtain ⟨j, hj, hatt⟩ := hns1
    simp only [Finset.mem_biUnion, Finset.mem_range, Finset.mem_insert, Finset.mem_singleton]
    refine ⟨j, hj, ?_⟩
    unfold NoAttack at hatt
    by_contra hno
    push_neg at hno
    exact hatt ⟨fun h => hno.1 h.symm, fun h => hno.2.1 h.symm, fun h => hno.2.2 h.symm⟩
  have := Finset.card_le_card hsub
  omega

theorem length_flatMap_filter_le {α : Type} (f : Nat → List α) (safe : Nat → Bool) (L : Nat) :
    ∀ l : List Nat, (∀ c ∈ l, safe c = true → L ≤ (f c).length) →
      (l.filter safe).length * L ≤ (l.flatMap fun c => if safe c then f c else []).length := by
  intro l
  induction l with
  | nil => intro _; simp
  | cons a l ih =>
    intro h
    have ih1 := ih (fun c hc => h c (List.mem_cons_of_mem a hc))
    rw [List.flatMap_cons, List.length_append]
    cases hs : safe a with
    | true =>
      have ha := h a (List.mem_cons_self a l) hs
      rw [List.filter_cons_of_pos (by simpa using hs), List.length_cons, if_pos rfl]
      calc ((l.filter safe).length + 1) * L = (l.filter safe).length * L + L := by ring
        _ ≤ (l.flatMap fun c => if safe c then f c else []).length + (f a).length :=
          Nat.add_le_add ih1 ha
        _ = _ := by omega
    | false =>
      rw [List.filter_cons_of_neg (by simp [hs])]
      simp only [Bool.false_eq_true, if_false, List.length_nil, zero_add]
      exact ih1

/-- Below `j ≥ 1` placed rows the search reaches at least `minNodes n e j` placements of
`e` further rows. -/
theorem minNodes_le (n : Nat) (e : Nat) : ∀ p : List Int, p.length ≠ 0 →
    minNodes n e p.length ≤ (search n ((n + 1) / 2) e p).length := by
  induction e with
  | zero => intro p _; simp [minNodes, search]
  | succ e ih =>
    intro p hp
    rw [search, rowLimit, if_neg hp]
    have hstep := length_flatMap_filter_le
      (fun c : Nat => search n ((n + 1) / 2) e (p ++ [(c : Int)]))
      (fun c : Nat => safeAt p (c : Int)) (minNodes n e (p.length + 1)) (List.range n)
      (fun c _ _ => by
        have := ih (p ++ [(c : Int)]) (by simp)
        rw [List.length_append] at this
        exact this)
    have hcount := count_safe n p
    refine le_trans ?_ hstep
    show (n - 3 * p.length) * minNodes n e (p.length + 1) ≤ _
    have h1 : n - 3 * p.length
        ≤ ((List.range n).filter fun c : Nat => safeAt p (c : Int)).length := by omega
    exact Nat.mul_le_mul_right _ h1

/-- With the first queen in one of the `(n + 1) / 2` columns of the left half, the search
reaches at least `(n + 1) / 2 * minNodes n e 1` placements of `e + 1` rows. -/
theorem minNodes_root_le (n e : Nat) :
    (n + 1) / 2 * minNodes n e 1 ≤ (search n ((n + 1) / 2) (e + 1) []).length := by
  rw [search, rowLimit]
  simp only [List.length_nil, if_true]
  have hstep := length_flatMap_filter_le
    (fun c : Nat => search n ((n + 1) / 2) e (([] : List Int) ++ [(c : Int)]))
    (fun c : Nat => safeAt [] (c : Int)) (minNodes n e 1) (List.range ((n + 1) / 2))
    (fun c _ _ => by
      have := minNodes_le n e [(c : Int)] (by simp)
      simpa using this)
  refine le_trans ?_ hstep
  have hall : (List.range ((n + 1) / 2)).filter (fun c : Nat => safeAt [] (c : Int))
      = List.range ((n + 1) / 2) := by
    apply List.filter_eq_self.2
    intro c _
    simp [safeAt]
  rw [hall, List.length_range]

theorem evalTrial_stepsCount (s : NQueensSolver) (c : Int) :
    (s.evalTrial c).2.stepsCount = s.stepsCount + 1 := by
  unfold NQueensSolver.evalTrial
  simp only []
  split_ifs <;> rfl

/-- Started in row `r` with `k` columns left and `d` rows below, on a board inside the
`int` width, the passes that search the columns left and pop the row evaluate at least
one trial for every placement the pruned search reaches below these columns, at every
depth `e ≤ d`. -/
theorem subtree_steps (N : Nat) (hN : 1 ≤ N) (hN31 : N ≤ 31) (d : Nat) :
    ∀ (k : Nat) (s : NQueensSolver) (r c0 : Nat), RunInv N s → CursorInv N s →
      s.row = r → s.col + 1 = c0 → r + d + 1 = N → ((c0 + k : Nat) : Int) = s.limit →
      ∃ m : Nat,
        (s.passes m).row = (r : Int) - 1 ∧
        (∀ j : Nat, j < r → (s.passes m).queens.getD j 0 = s.queens.getD j 0) ∧
        (1 ≤ r → (s.passes m).col = s.queens.getD (r - 1) 0) ∧
        (∀ e : Nat, e ≤ d →
          s.stepsCount + rowNodes N e (prefixOf s.queens r) c0 k ≤ (s.passes m).stepsCount) := by
  have hN1 : (1 : Int) ≤ (N : Int) := by omega
  have hN31i : (N : Int) ≤ 31 := by omega
  induction d using Nat.strong_induction_on with
  | _ d ihd =>
  intro k
  induction k with
  | zero =>
    intro s r c0 hrun hc hrow hcol hd hk
    have hb := hrun.1
    have ha : s.Active := by
      unfold NQueensSolver.Active
      rw [hb.1, hrow]
      omega
    have he : s.Exhausted := Or.inl (by omega)
    refine ⟨1, ?_, ?_, ?_, ?_⟩
    · show s.loopPass.row = _
      rw [loopPass_of_exhausted s ha he]
      simp only [NQueensSolver.popRow, hrow]
    · intro j hj
      show s.loopPass.queens.getD j 0 = _
      rw [loopPass_of_exhausted s ha he]
      simp only [NQueensSolver.popRow, hrow]
      exact getD_vecSet_ne _ _ _ _ (by omega)
    · intro hr
      show s.loopPass.col = _
      rw [loopPass_of_exhausted s ha he]
      simp only [NQueensSolver.popRow, hrow]
      rw [if_pos (by omega)]
      have : ((r : Int) - 1) = ((r - 1 : Nat) : Int) := by omega
      rw [this, vecGet_natCast]
      exact getD_vecSet_ne _ _ _ _ (by omega)
    · intro e _
      show _ ≤ s.loopPass.stepsCount
      rw [loopPass_of_exhausted s ha he, rowNodes_zero]
      simp [NQueensSolver.popRow]
  | succ k ihk =>
    intro s r c0 hrun hc hrow hcol hd hk
    have hb := hrun.1
    have hm := hrun.2.1
    have hsn := hb.1
    have ha : s.Active := by
      unfold NQueensSolver.Active
      rw [hsn, hrow]
      omega
    have hlim := limit_eq N s hN1 hsn
    have hltc : s.col + 1 < s.limit := by
      rw [← hk, hcol]
      push_cast
      omega
    have he : ¬ s.Exhausted := by
      unfold NQueensSolver.Exhausted
      rw [hsn]
      rw [hlim] at hltc ⊢
      split at hltc <;> omega
    have hc0 : 0 ≤ s.col + 1 := by omega
    have hlp : s.loopPass = (s.evalTrial (s.col + 1)).2 := loopPass_of_trial s ha he
    have hrun2 : RunInv N s.loopPass := runInv_loopPass N hN1 hN31i s hrun
    have hb2 : BasicInv N s.loopPass := hrun2.1
    have hc2 : CursorInv N s.loopPass := cursorInv_loopPass N hN1 s hb hc
    have hs2n := hb2.1
    have hlen : r < s.queens.length := by
      rw [hb.2.1]
      omega
    have hlimN : s.limit ≤ N := limit_le N s hN1 hsn
    have hst2 : s.loopPass.stepsCount = s.stepsCount + 1 := by
      rw [hlp]
      exact evalTrial_stepsCount s _
    obtain ⟨-, -, -, -, -, e6, e7⟩ := evalTrial_shape s (s.col + 1) ha
    rw [← hlp] at e6 e7
    have hconf : s.hasConflict s.row (s.col + 1) = true ↔
        ¬ safeAt (prefixOf s.queens r) c0 = true := by
      have hmr : MaskAt s s.row := hm s.row (by omega) (le_refl _)
      rw [hasConflict_iff s (s.col + 1) hmr hc0 (by omega), hrow, hcol, safeAt_prefix_iff]
      tauto
    cases hcf : s.hasConflict s.row (s.col + 1) with
    | true =>
      have h2 := e6 hcf
      have hrow2 : s.loopPass.row = r := by rw [h2]; exact hrow
      have hcol2 : s.loopPass.col + 1 = ((c0 + 1 : Nat) : Int) := by
        rw [h2]
        push_cast
        omega
      have hq2 : s.loopPass.queens = s.queens := by rw [h2]
      have hlim2 : s.loopPass.limit = s.limit :=
        limit_of_row N hN1 s _ hsn hs2n (by rw [hrow2, hrow])
      obtain ⟨m, g1, g2, g3, g4⟩ := ihk s.loopPass r (c0 + 1) hrun2 hc2 hrow2 hcol2 hd
        (by rw [hlim2, ← hk]; push_cast; omega)
      refine ⟨m + 1, g1, ?_, ?_, ?_⟩
      · intro j hj
        show (s.loopPass.passes m).queens.getD j 0 = _
        rw [g2 j hj, hq2]
      · intro hr
        show (s.loopPass.passes m).col = _
        rw [g3 hr, hq2]
      · intro e he1
        show _ ≤ (s.loopPass.passes m).stepsCount
        have := g4 e he1
        rw [hq2, hst2] at this
        rw [rowNodes_succ, if_neg (hconf.1 hcf)]
        simp only [List.length_nil, zero_add]
        omega
    | false =>
      obtain ⟨q1, -, -, -, q5, q6⟩ := e7 hcf
      have hsafe : safeAt (prefixOf s.queens r) c0 = true := by
        by_contra hns
        have := hconf.2 hns
        rw [hcf] at this
        exact absurd this (by decide)
      have hq2 : ∀ j : Nat, j < r → s.loopPass.queens.getD j 0 = s.queens.getD j 0 := by
        intro j hj
        rw [q1, hrow]
        exact getD_vecSet_ne _ _ _ _ (by omega)
      have hq2r : s.loopPass.queens.getD r 0 = (c0 : Int) := by
        rw [q1, hrow, getD_vecSet_eq _ _ _ hlen, hcol]
      by_cases hlast : s.row = s.n - 1
      · obtain ⟨r1, r2⟩ := q5 hlast
        have hd0 : d = 0 := by
          rw [hsn, hrow] at hlast
          omega
        have hrow2 : s.loopPass.row = r := by rw [r1, hrow]
        have hcol2 : s.loopPass.col + 1 = ((c0 + 1 : Nat) : Int) := by
          rw [r2]
          push_cast
          omega
        have hlim2 : s.loopPass.limit = s.limit :=
          limit_of_row N hN1 s _ hsn hs2n (by rw [hrow2, hrow])
        obtain ⟨m, g1, g2, g3, g4⟩ := ihk s.loopPass r (c0 + 1) hrun2 hc2 hrow2 hcol2 hd
          (by rw [hlim2, ← hk]; push_cast; omega)
        refine ⟨m + 1, g1, ?_, ?_, ?_⟩
        · intro j hj
          show (s.loopPass.passes m).queens.getD j 0 = _
          rw [g2 j hj, hq2 j hj]
        · intro hr
          show (s.loopPass.passes m).col = _
          rw [g3 hr, hq2 (r - 1) (by omega)]
        · intro e he1
          show _ ≤ (s.loopPass.passes m).stepsCount
          have he0 : e = 0 := by omega
          subst he0
          have := g4 0 (by omega)
          rw [prefixOf_congr _ _ r hq2, hst2] at this
          rw [rowNodes_succ, if_pos hsafe]
          simp only [search, List.length_singleton]
          push_cast
          omega
      · obtain ⟨r1, r2⟩ := q6 hlast
        obtain ⟨d1, hd1⟩ : ∃ d1, d = d1 + 1 := by
          rw [hsn, hrow] at hlast
          exact ⟨d - 1, by omega⟩
        have hrow2 : s.loopPass.row = ((r + 1 : Nat) : Int) := by
          rw [r1, hrow]
          push_cast
          rfl
        have hcol2 : s.loopPass.col + 1 = ((0 : Nat) : Int) := by
          rw [r2]
          rfl
        have hlim2 : ((0 + N : Nat) : Int) = s.loopPass.limit := by
          rw [limit_eq N _ hN1 hs2n, hrow2, if_neg (by omega)]
          simp
        obtain ⟨m1, f1, f2, f3, f4⟩ := ihd d1 (by omega) N s.loopPass (r + 1) 0 hrun2 hc2 hrow2
          hcol2 (by omega) hlim2
        have hrun3 := runInv_passes N hN1 hN31i m1 _ hrun2
        have hb3 := hrun3.1
        have hc3 := cursorInv_passes N hN1 m1 _ hb2 hc2
        have hrow3 : (s.loopPass.passes m1).row = r := by
          rw [f1]
          push_cast
          omega
        have hcol3 : (s.loopPass.passes m1).col + 1 = ((c0 + 1 : Nat) : Int) := by
          rw [f3 (by omega)]
          have : r + 1 - 1 = r := by omega
          rw [this, hq2r]
          push_cast
          rfl
        have hlim3 : (s.loopPass.passes m1).limit = s.limit :=
          limit_of_row N hN1 s _ hsn hb3.1 (by rw [hrow3, hrow])
        have hq3 : ∀ j : Nat, j < r →
            (s.loopPass.passes m1).queens.getD j 0 = s.queens.getD j 0 := by
          intro j hj
          rw [f2 j (by omega), hq2 j hj]
        obtain ⟨m2, g1, g2, g3, g4⟩ := ihk (s.loopPass.passes m1) r (c0 + 1) hrun3 hc3 hrow3
          hcol3 hd (by rw [hlim3, ← hk]; push_cast; omega)
        have hpass : s.passes ((m1 + m2) + 1) = (s.loopPass.passes m1).passes m2 := by
          rw [NQueensSolver.passes, passes_add]
        refine ⟨(m1 + m2) + 1, by rw [hpass]; exact g1, ?_, ?_, ?_⟩
        · intro j hj
          rw [hpass, g2 j hj, hq3 j hj]
        · intro hr
          rw [hpass, g3 hr, hq3 (r - 1) (by omega)]
        · intro e he1
          rw [hpass]
          have hup := g4 e he1
          rw [prefixOf_congr _ _ r hq3] at hup
          rw [rowNodes_succ, if_pos hsafe]
          have hpre : prefixOf s.loopPass.queens (r + 1) = prefixOf s.queens r ++ [(c0 : Int)] := by
            rw [prefixOf_succ, hq2r, prefixOf_congr _ _ r hq2]
          cases e with
          | zero =>
            have hlow := f4 0 (by omega)
            rw [hst2] at hlow
            simp only [search, List.length_singleton]
            push_cast
            omega
          | succ e1 =>
            have hlow := f4 e1 (by omega)
            rw [hst2, hpre] at hlow
            rw [search_succ_nodes N e1 _ (by rw [List.length_append, length_prefixOf]; simp)]
            push_cast
            omega

/-- On exact counters, the run of a fresh solver of size `1 ≤ N ≤ 31` ends, after some
call, in a state with the loop guard false in which `stepsCount` is at least
`(N + 1) / 2 * minNodes N e 1`, for every depth `e + 1 ≤ N`. -/
theorem final_steps_ge (N : Nat) (hN : 1 ≤ N) (hN31 : N ≤ 31) (e : Nat) (he : e + 1 ≤ N) :
    ∃ (k : Nat) (f : NQueensSolver), (NQueensSolver.init N).after (k + 1) = some f ∧
      ¬ f.Active ∧ (((N + 1) / 2 * minNodes N e 1 : Nat) : Int) ≤ f.stepsCount := by
  have hN1 : (1 : Int) ≤ (N : Int) := by omega
  have hlim : (((0 + (N + 1) / 2 : Nat)) : Int) = (NQueensSolver.init (N : Int)).limit := by
    rw [limit_eq N _ hN1 rfl]
    simp only [NQueensSolver.init, if_true]
    omega
  obtain ⟨m, g1, -, -, g4⟩ := subtree_steps N hN hN31 (N - 1) ((N + 1) / 2)
    (NQueensSolver.init N) 0 0 (runInv_init N hN1) (cursorInv_init N hN1) rfl rfl (by omega) hlim
  have hna : ¬ ((NQueensSolver.init N).passes m).Active := by
    unfold NQueensSolver.Active
    rw [g1]
    omega
  obtain ⟨k, -, -, hk3⟩ := drain_of_passes m _ hna
  refine ⟨k, _, hk3, hna, ?_⟩
  have h := g4 e (by omega)
  have hpre : prefixOf (NQueensSolver.init (N : Int)).queens 0 = [] := by simp [prefixOf]
  have h0 : (NQueensSolver.init (N : Int)).stepsCount = 0 := rfl
  rw [hpre, h0, ← search_root_nodes] at h
  have hmin := minNodes_root_le N e
  omega

/-- On exact counters, after `i` calls on a fresh solver either all `i` calls evaluated a
trial or the search is over. -/
theorem after_steps_or_done (n : Int) (i : Nat) : ∀ t : NQueensSolver,
    (NQueensSolver.init n).after i = some t → t.stepsCount = i ∨ ¬ t.Active := by
  induction i with
  | zero =>
    intro t h
    simp only [NQueensSolver.after, Option.some.injEq] at h
    subst h
    exact Or.inl rfl
  | succ i ih =>
    intro t h
    rw [after_succ_right] at h
    obtain ⟨u, hu⟩ := after_total i (NQueensSolver.init n)
    rw [hu, Option.some_bind] at h
    obtain ⟨r, hr⟩ := nextStep_total u
    rw [hr] at h
    simp only [Option.map_some', Option.some.injEq] at h
    subst h
    obtain ⟨-, c2, -, -, c5⟩ := nextStep_counterFacts u r hr
    rcases c5 with ⟨-, -, -, -, c6, -⟩ | ⟨-, c7, -⟩
    · exact Or.inr c6
    · rcases ih u hu with h1 | h1
      · left
        rw [c2, c7, h1]
        push_cast
        rfl
      · rw [nextStep_of_not_active u h1] at hr
        obtain rfl := Option.some.inj hr
        exact Or.inr h1

/-- Once the loop guard is false the solver stays as it is. -/
theorem after_stable (s t : NQueensSolver) (i : Nat) (h : s.after i = some t)
    (hna : ¬ t.Active) (j : Nat) : s.after (i + j) = some t := by
  induction j with
  | zero => exact h
  | succ j ih =>
    rw [← Nat.add_assoc, after_succ_right, ih, Option.some_bind,
      nextStep_of_not_active t hna]
    rfl

/-- On exact counters, in a run that ends with `stepsCount ≥ T`, each of the first `T`
calls evaluates a trial: after `i ≤ T` calls `stepsCount` is `i`. -/
theorem long_run_steps (n : Int) (T : Int) (k : Nat) (f : NQueensSolver)
    (hf : (NQueensSolver.init n).after (k + 1) = some f) (hna : ¬ f.Active)
    (hT : T ≤ f.stepsCount) (i : Nat) (hi : (i : Int) ≤ T) (t : NQueensSolver)
    (ht : (NQueensSolver.init n).after i = some t) : t.stepsCount = i := by
  rcases after_steps_or_done n i t ht with h | h
  · exact h
  · have h1 := after_stable _ t i ht h (k + 1)
    have h2 := after_stable _ f (k + 1) hf hna i
    rw [Nat.add_comm] at h2
    rw [h1] at h2
    obtain rfl := Option.some.inj h2
    obtain ⟨-, b2, -, -⟩ := after_counters_le n i t ht
    omega

/-- In a run whose exact trial count reaches `2^31`, the `int` field `stepsCount` wraps at
trial `2^31`: the result before reports `2147483647`, the next one `-2147483648`, and both
are non-terminal. -/
theorem stepsCount_wraps_at (n : Int) (k : Nat) (f : NQueensSolver)
    (hf : (NQueensSolver.init n).after (k + 1) = some f) (hna : ¬ f.Active)
    (hT : 2147483648 ≤ f.stepsCount) (j : Nat) (hj : (j : Int) + 2 = 2147483648) :
    ∃ P R, (NQueensSolver.init n).resultAt32 j = some P ∧
      (NQueensSolver.init n).resultAt32 (j + 1) = some R ∧
      P.isFinished = false ∧ R.isFinished = false ∧
      P.stepsCount = 2147483647 ∧ R.stepsCount = -2147483648 := by
  obtain ⟨t1, ht1⟩ := after_total (j + 1) (NQueensSolver.init n)
  obtain ⟨t2, ht2⟩ := after_total (j + 1 + 1) (NQueensSolver.init n)
  obtain ⟨t0, ht0⟩ := after_total j (NQueensSolver.init n)
  have s0 := long_run_steps n _ k f hf hna hT j (by omega) t0 ht0
  have s1 := long_run_steps n _ k f hf hna hT (j + 1) (by push_cast; omega) t1 ht1
  have s2 := long_run_steps n _ k f hf hna hT (j + 1 + 1) (by push_cast; omega) t2 ht2
  obtain ⟨P, hP1, hP2⟩ := stepsCount_after _ j t1 ht1
  obtain ⟨R, hR1, hR2⟩ := stepsCount_after _ (j + 1) t2 ht2
  have hPnt : P.isFinished = false := by
    unfold NQueensSolver.resultAt at hP1
    rw [ht0, Option.some_bind] at hP1
    obtain ⟨r, hr⟩ := nextStep_total t0
    rw [hr] at hP1
    simp only [Option.map_some', Option.some.injEq] at hP1
    obtain ⟨-, -, -, -, c5⟩ := nextStep_counterFacts t0 r hr
    rw [hP1] at c5
    rcases c5 with ⟨-, c6, -⟩ | ⟨c7, -⟩
    · rw [hP2, s1, s0] at c6
      push_cast at c6
      omega
    · exact c7
  have hRnt : R.isFinished = false := by
    unfold NQueensSolver.resultAt at hR1
    rw [ht1, Option.some_bind] at hR1
    obtain ⟨r, hr⟩ := nextStep_total t1
    rw [hr] at hR1
    simp only [Option.map_some', Option.some.injEq] at hR1
    obtain ⟨-, -, -, -, c5⟩ := nextStep_counterFacts t1 r hr
    rw [hR1] at c5
    rcases c5 with ⟨-, c6, -⟩ | ⟨c7, -⟩
    · rw [hR2, s2, s1] at c6
      push_cast at c6
      omega
    · exact c7
  refine ⟨wrapResult P, wrapResult R, by rw [resultAt32_init, hP1]; rfl,
    by rw [resultAt32_init, hR1]; rfl, hPnt, hRnt, ?_, ?_⟩
  · show wrapInt P.stepsCount = _
    rw [hP2, s1]
    unfold wrapInt
    push_cast
    omega
  · show wrapInt R.stepsCount = _
    rw [hR2, s2]
    unfold wrapInt
    push_cast
    omega

/-- Counterexample to C6 as stated: in the run of a fresh solver of size 31, with
`stepsCount` as the `int` field it is, call number `2147483647` returns a non-terminal
result with `stepsCount == 2147483647` and the next call returns a non-terminal result
with `stepsCount == -2147483648`: the count decreases, it is not 1 greater. (The search of
size 31 places its first 8 queens in at least `16 * 28 * 25 * 22 * 19 * 16 * 13 * 10`
ways, more than `2^31`, and evaluates a trial for each.) -/
theorem stepsCount_wraps :
    ∃ P R, (NQueensSolver.init 31).resultAt32 2147483646 = some P ∧
      (NQueensSolver.init 31).resultAt32 (2147483646 + 1) = some R ∧
      P.isFinished = false ∧ R.isFinished = false ∧
      P.stepsCount = 2147483647 ∧ R.stepsCount = -2147483648 := by
  obtain ⟨k, f, hf, hna, hT⟩ := final_steps_ge 31 (by decide) (by decide) 7 (by decide)
  have hbig : (2147483648 : Int) ≤ (((31 + 1) / 2 * minNodes 31 7 1 : Nat) : Int) := by
    decide
  exact stepsCount_wraps_at 31 k f hf hna (le_trans hbig hT) 2147483646 (by decide)

/-! ## Exact counters inside the `int` range -/

theorem wrapResult_of_inRange (R : SolverState) (h1 : InIntRange R.solutionsCount)
    (h2 : InIntRange R.stepsCount) : wrapResult R = R := by
  unfold wrapResult
  rw [wrapInt_of_inRange _ h1, wrapInt_of_inRange _ h2]

/-- A call whose counters stay inside the `int` range returns with 32-bit counters exactly
what it returns with exact counters. -/
theorem nextStep32_of_inRange (s : NQueensSolver) (R : SolverState) (s1 : NQueensSolver)
    (h : s.nextStep = some (R, s1)) (h1 : InIntRange s.solutionsFound)
    (h2 : InIntRange s.stepsCount) (h3 : InIntRange R.solutionsCount)
    (h4 : InIntRange R.stepsCount) : s.nextStep32 = some (R, s1) := by
  obtain ⟨-, c2, c3, -, -⟩ := nextStep_counterFacts s (R, s1) h
  simp only [] at c2 c3
  have hsim := nextStep32_wrapCounters s
  rw [wrapCounters_of_inRange s h1 h2, h] at hsim
  rw [hsim]
  simp only [Option.map_some', wrapPair]
  rw [wrapResult_of_inRange R h3 h4,
    wrapCounters_of_inRange s1 (by rw [c3]; exact h3) (by rw [c2]; exact h4)]

/-- A drain of a fresh solver whose final totals are inside the `int` range returns with
32-bit counters exactly what it returns with exact counters. -/
theorem drain32_of_inRange (n : Int) (m : Nat) (R : SolverState)
    (h : (NQueensSolver.init n).drain m = some R) (h1 : InIntRange R.solutionsCount)
    (h2 : InIntRange R.stepsCount) : (NQueensSolver.init n).drain32 m = some R := by
  have hsim := drain32_wrapCounters m (NQueensSolver.init n)
  rw [wrapCounters_init, h] at hsim
  rw [hsim]
  simp only [Option.map_some']
  rw [wrapResult_of_inRange R h1 h2]

end NQueens.Core
